import Mathlib

set_option maxHeartbeats 1000000

/-!
# Verification of the origin pairing heap (`origin/heaps/pairing_heap.hpp`)

This file contains a shallow embedding of the mutable pairing heap of the
origin repository (`mutable_pairing_heap_impl` together with its default
internal-map wrapper `mutable_pairing_heap<T, Compare, default_t>`), and
theorems about the embedded operations.

The C++ code stores heap nodes in a dense arena (`std::vector<pairing_heap_node>
data_`) parallel to a dense value array (`std::vector<T> elements_`), with all
tree relations expressed as `size_t` indices and the sentinel `size_type(-1)`
meaning "no relation".  We model `size_t(-1)` as the numeral `2^64 - 1`, the
arena and value array as Lean lists with the total `List.set` / `List.getD`
access functions (the C++ source never performs an out-of-range access in the
well-formed executions covered by the theorems below; the counterexample
traces are also checked to stay in range), and the `std::unordered_map`-based
identity locator as an association list parameterized by the key-equality
predicate used by the map (`std::equal_to` by default, or a user-supplied
identity-based equality as assumed by the source comment "the heap never
stores the actual value ... the reference remains unchanged during update").

The two iterative passes of `pop` are written as fuel-indexed recursive
functions; `pop` supplies `data_.size()` fuel, which is proven sufficient for
every well-formed state (each iteration of the pairing pass consumes at least
two distinct arena nodes, each iteration of the accumulation pass consumes at
least one).
-/

namespace PairingHeap

/-- The sentinel index of the C++ source: `size_type(-1)` for 64-bit `size_t`. -/
def NONE : Nat := 2 ^ 64 - 1

/-- Arena record mirroring `origin::pairing_heap_node`. -/
structure Node where
  item_index : Nat
  parent : Nat
  child : Nat
  right_sibling : Nat
  left_sibling : Nat
deriving Repr, DecidableEq

/-- A fully invalidated node: what `pop` leaves behind in the arena slot of an
extracted element (all five fields set to the sentinel). -/
def deadNode : Node := ⟨NONE, NONE, NONE, NONE, NONE⟩

instance : Inhabited Node := ⟨deadNode⟩

/-- Read an arena slot (reads are in range in all well-formed executions). -/
def nodeAt (data : List Node) (i : Nat) : Node := data.getD i deadNode

/-- `data_[i].parent = v` -/
def setParent (data : List Node) (i v : Nat) : List Node :=
  data.set i { nodeAt data i with parent := v }

/-- `data_[i].child = v` -/
def setChild (data : List Node) (i v : Nat) : List Node :=
  data.set i { nodeAt data i with child := v }

/-- `data_[i].right_sibling = v` -/
def setRS (data : List Node) (i v : Nat) : List Node :=
  data.set i { nodeAt data i with right_sibling := v }

/-- `data_[i].left_sibling = v` -/
def setLS (data : List Node) (i v : Nat) : List Node :=
  data.set i { nodeAt data i with left_sibling := v }

/-- `data_[i].item_index = v` -/
def setII (data : List Node) (i v : Nat) : List Node :=
  data.set i { nodeAt data i with item_index := v }

/-- The comparison predicate and the key equality used by the identity map
(`std::equal_to<T>` for the default instantiation, or the custom identity
equality of a handle type). -/
structure HeapParams (T : Type) where
  cmp : T → T → Bool
  keyeq : T → T → Bool

/-- The locator of the default (internal-map) variant: the entry list of the
`std::unordered_map<value_type, size_type>`, in scan order. -/
abbrev HMap (T : Type) : Type := List (T × Nat)

/-- Lookup by the map's key equality (`find`-like part of `operator[]`). -/
def lookupMap (P : HeapParams T) : HMap T → T → Option Nat
  | [], _ => none
  | (k, i) :: rest, x => if P.keyeq x k then some i else lookupMap P rest x

/-- `(*imap)[key] = v` used as an lvalue assignment (`id_(d) = index` in
`push`): overwrite the mapped value of the existing equivalent key, keeping
the stored key object, or insert a fresh entry. -/
def writeMap (P : HeapParams T) : HMap T → T → Nat → HMap T
  | [], x, v => [(x, v)]
  | (k, i) :: rest, x, v =>
      if P.keyeq x k then (k, v) :: rest else (k, i) :: writeMap P rest x v

/-- `(*imap)[key]` used as an rvalue (`size_type index = id_(d)`): return the
mapped value, value-initializing (to `0`) and inserting a fresh entry if the
key is absent, exactly as `std::unordered_map::operator[]` does. -/
def readMap (P : HeapParams T) (m : HMap T) (x : T) : Nat × HMap T :=
  match lookupMap P m x with
  | some i => (i, m)
  | none => (0, m ++ [(x, 0)])

/-- `map_.erase(key)`: remove the entry with an equivalent key. -/
def eraseMap (P : HeapParams T) (m : HMap T) (x : T) : HMap T :=
  m.filter (fun e => !(P.keyeq x e.1))

/-- The state of `mutable_pairing_heap<T, Compare, default_t>`: the fields
`elements_`, `data_`, `top_` of the impl object plus the internal map. -/
structure State (T : Type) where
  elements : List T
  data : List Node
  top : Nat
  map : HMap T
deriving Repr

/-- The state right after construction with a comparator (`top_{-1}`,
empty vectors, empty map). -/
def emptyState (T : Type) : State T := ⟨[], [], NONE, []⟩

/-- `elements_[data_[i].item_index]`: the stored value addressed by node `i`. -/
def valAt [Inhabited T] (elements : List T) (data : List Node) (i : Nat) : T :=
  elements.getD (nodeAt data i).item_index default

/-- The value read by `top()` on a state (as a total function). -/
def topVal [Inhabited T] (s : State T) : T := valAt s.elements s.data s.top

/-- `top()` with both arena reads checked for being in range; the C++ `top()`
performs exactly these two vector accesses, so `none` marks an execution that
reads out of the vectors' bounds (undefined behavior in the source). -/
def topOpt (s : State T) : Option T :=
  match s.data[s.top]? with
  | none => none
  | some n => s.elements[n.item_index]?

/-- `mutable_pairing_heap_impl::merge(index1, index2)`: make the tree rooted
at `index1` the new leftmost child of `index2`, performing exactly the four
assignments of the source in order. -/
def mergeIdx (data : List Node) (index1 index2 : Nat) : List Node :=
  let d1 := setParent data index1 index2
  let d2 := setRS d1 index1 (nodeAt d1 index2).child
  let d3 := if (nodeAt d2 index2).child ≠ NONE
            then setLS d2 (nodeAt d2 index2).child index1 else d2
  setChild d3 index2 index1

/-- `mutable_pairing_heap_impl::push(d)` for the internal-map instantiation:
append the value, append a fresh all-sentinel node, register the node index
under the value's key, and meld the one-element heap with the existing root. -/
def pushOp [Inhabited T] (P : HeapParams T) (s : State T) (v : T) : State T :=
  let e1 := s.elements ++ [v]
  let newNode : Node := ⟨e1.length - 1, NONE, NONE, NONE, NONE⟩
  let d1 := s.data ++ [newNode]
  let index := d1.length - 1
  let m1 := writeMap P s.map v index
  if s.top = NONE then
    ⟨e1, d1, index, m1⟩
  else if P.cmp (valAt e1 d1 index) (valAt e1 d1 s.top) then
    ⟨e1, mergeIdx d1 s.top index, index, m1⟩
  else
    ⟨e1, mergeIdx d1 index s.top, s.top, m1⟩

/-- `mutable_pairing_heap_impl::update(d)` for the internal-map
instantiation: resolve the node index through the locator, overwrite the
stored value, and unless the node is the root, detach it from its sibling
chain and meld it with the current root. -/
def updateOp [Inhabited T] (P : HeapParams T) (s : State T) (d : T) : State T :=
  let r := readMap P s.map d
  let index := r.1
  let m1 := r.2
  let e1 := s.elements.set (nodeAt s.data index).item_index d
  if index = s.top then
    { s with elements := e1, map := m1 }
  else
    let parent := (nodeAt s.data index).parent
    let left_sib := (nodeAt s.data index).left_sibling
    let right_sib := (nodeAt s.data index).right_sibling
    let d1 := if left_sib = NONE then setChild s.data parent right_sib
              else setRS s.data left_sib right_sib
    let d2 := if right_sib ≠ NONE then setLS d1 right_sib left_sib else d1
    let d3 := setParent d2 index NONE
    let d4 := setLS d3 index NONE
    let d5 := setRS d4 index NONE
    if P.cmp (valAt e1 d5 index) (valAt e1 d5 s.top) then
      ⟨e1, mergeIdx d5 s.top index, index, m1⟩
    else
      ⟨e1, mergeIdx d5 index s.top, s.top, m1⟩

/-- The sibling-chain surgery of `update` that detaches node `index` from
its parent's child list (the `d1`/`d2` steps of the source's `update`,
before the node's own context fields are cleared). -/
def detachArena (data : List Node) (index : Nat) : List Node :=
  let parent := (nodeAt data index).parent
  let left_sib := (nodeAt data index).left_sibling
  let right_sib := (nodeAt data index).right_sibling
  let d1 := if left_sib = NONE then setChild data parent right_sib
            else setRS data left_sib right_sib
  if right_sib ≠ NONE then setLS d1 right_sib left_sib else d1

/-- The first (pairing) pass of `pop`: scan the detached child list left to
right, merging consecutive pairs and chaining the pairwise winners through
their (scratch) `left_sibling` fields.  Returns the arena together with the
final values of the loop variables `index1`, `prev_pair`, `new_top_`. -/
def pairLoop [Inhabited T] (P : HeapParams T) (elements : List T) :
    Nat → List Node → Nat → Nat → Nat → List Node × Nat × Nat × Nat
  | 0, data, index1, prev_pair, new_top => (data, index1, prev_pair, new_top)
  | fuel + 1, data, index1, prev_pair, new_top =>
    if index1 = NONE then (data, index1, prev_pair, new_top)
    else if (nodeAt data index1).right_sibling = NONE then
      (data, index1, prev_pair, new_top)
    else
      let index2 := (nodeAt data index1).right_sibling
      let next_index := (nodeAt data index2).right_sibling
      let c1 := setRS (setLS (setParent data index1 NONE) index1 NONE) index1 NONE
      let c2 := setRS (setLS (setParent c1 index2 NONE) index2 NONE) index2 NONE
      if P.cmp (valAt elements c2 index1) (valAt elements c2 index2) then
        let d3 := mergeIdx c2 index2 index1
        pairLoop P elements fuel (setLS d3 index1 prev_pair) next_index index1 index1
      else
        let d3 := mergeIdx c2 index1 index2
        pairLoop P elements fuel (setLS d3 index2 prev_pair) next_index index2 index2

/-- The second (accumulation) pass of `pop`: repeatedly merge the current
accumulated root with the next pairwise winner along the scratch
`left_sibling` chain. -/
def accumLoop [Inhabited T] (P : HeapParams T) (elements : List T) :
    Nat → List Node → Nat → List Node × Nat
  | 0, data, new_top => (data, new_top)
  | fuel + 1, data, new_top =>
    if new_top = NONE then (data, new_top)
    else if (nodeAt data new_top).left_sibling = NONE then (data, new_top)
    else
      let merge_pair := (nodeAt data new_top).left_sibling
      let next_pair := (nodeAt data merge_pair).left_sibling
      let c1 := setLS (setLS data new_top NONE) merge_pair NONE
      if P.cmp (valAt elements c1 merge_pair) (valAt elements c1 new_top) then
        let d3 := mergeIdx c1 new_top merge_pair
        accumLoop P elements fuel (setLS d3 merge_pair next_pair) merge_pair
      else
        let d3 := mergeIdx c1 merge_pair new_top
        accumLoop P elements fuel (setLS d3 new_top next_pair) new_top

/-- `mutable_pairing_heap_impl::pop()`: the guard, the two passes over the
former root's children, and the compaction step that moves the last stored
value into the vacated slot, redirects the `item_index` of the node resolved
for that value, and invalidates the extracted node.  The loops are run with
fuel `data_.size()`, which is sufficient in every well-formed state. -/
def implPop [Inhabited T] (P : HeapParams T) (s : State T) : State T :=
  if s.top = NONE then s
  else
    let fuel := s.data.length
    let p1 := pairLoop P s.elements fuel s.data (nodeAt s.data s.top).child NONE NONE
    let d1 := p1.1
    let index1 := p1.2.1
    let prev_pair := p1.2.2.1
    let nt1 := p1.2.2.2
    let step2 :=
      if index1 ≠ NONE ∧ (nodeAt d1 index1).right_sibling = NONE then
        let e1 := setRS (setParent d1 index1 NONE) index1 NONE
        (setLS e1 index1 prev_pair, index1)
      else (d1, nt1)
    let p3 := accumLoop P s.elements fuel step2.1 step2.2
    let d3 := p3.1
    let new_top := p3.2
    let lastVal := s.elements.getD (s.elements.length - 1) default
    let r := readMap P s.map lastVal
    let index := r.1
    let m1 := r.2
    let topSlot := (nodeAt d3 s.top).item_index
    let e2 := s.elements.set topSlot lastVal
    let d4 := setII d3 index topSlot
    let d5 := setII (setLS (setRS (setChild (setParent d4 s.top NONE) s.top NONE)
        s.top NONE) s.top NONE) s.top NONE
    ⟨e2.dropLast, d5, new_top, m1⟩

/-- `mutable_pairing_heap<T, Compare, default_t>::pop()` with the two arena
reads of its initial `impl.top()` call checked for being in range: the
wrapper reads the top element first (`const value_type top_element =
impl.top();`), then runs the impl-level `pop`, then erases the extracted
value's key from the internal map. -/
def wrapperPopOpt [Inhabited T] (P : HeapParams T) (s : State T) : Option (State T) :=
  match topOpt s with
  | none => none
  | some t =>
      let s1 := implPop P s
      some { s1 with map := eraseMap P s1.map t }

/-- The total `pop` used when running operation sequences: the impl-level
`pop` is a no-op on an empty heap (`top_ == size_type(-1)`), and on a
non-empty heap the default wrapper additionally erases the extracted value's
key.  (On an empty heap the default wrapper's own unguarded `impl.top()` read
is out of range; see the theorems about the emptiness claims.) -/
def popOp [Inhabited T] (P : HeapParams T) (s : State T) : State T :=
  if s.top = NONE then s
  else
    let t := topVal s
    let s1 := implPop P s
    { s1 with map := eraseMap P s1.map t }

/-- One public operation of the heap. -/
inductive Op (T : Type) where
  | push (v : T)
  | pop
  | update (v : T)

/-- Run one operation. -/
def stepOp [Inhabited T] (P : HeapParams T) (s : State T) : Op T → State T
  | Op.push v => pushOp P s v
  | Op.pop => popOp P s
  | Op.update v => updateOp P s v

/-- Run a sequence of operations. -/
def runOps [Inhabited T] (P : HeapParams T) (s : State T) : List (Op T) → State T
  | [] => s
  | op :: rest => runOps P (stepOp P s op) rest

/-- Number of `push` calls in a sequence. -/
def countPush : List (Op T) → Nat
  | [] => 0
  | Op.push _ :: rest => countPush rest + 1
  | _ :: rest => countPush rest

/-- Number of `pop` calls in a sequence. -/
def countPop : List (Op T) → Nat
  | [] => 0
  | Op.pop :: rest => countPop rest + 1
  | _ :: rest => countPop rest

/-- `size()` of the heap: `elements_.size()`. -/
def sizeOf' (s : State T) : Nat := s.elements.length

/-- `empty()` of the heap: `elements_.size() == 0`. -/
def emptyOf (s : State T) : Bool := s.elements.length == 0

/-- Reading `top()` then calling the default wrapper's `pop()`, `n` times. -/
def extractList [Inhabited T] (P : HeapParams T) (s : State T) : Nat → List T
  | 0 => []
  | n + 1 => topVal s :: extractList P (popOp P s) n

/-- The default instantiation for `T = int`-like values: `Compare =
std::less`, and the internal `std::unordered_map` uses `std::equal_to`. -/
def intParams : HeapParams Int := ⟨fun a b => decide (a < b), fun a b => decide (a = b)⟩

/-- A handle instantiation as assumed by the source comment on the default
variant's `update` ("the heap never stores the actual value: it contains a
reference to the value, and the reference remains unchanged during update"):
a value is a pair of an identity and a priority, the map's hash/equality use
only the identity, and `Compare` orders by priority. -/
def handleParams : HeapParams (Nat × Int) :=
  ⟨fun a b => decide (a.2 < b.2), fun a b => decide (a.1 = b.1)⟩

/-- The scenario of the decrease-key test: push priorities 5, 3, 8, 1 (with
identities 0, 1, 2, 3), then update the item that was pushed with priority 8
to priority 0. -/
def decreaseKeyOps : List (Op (Nat × Int)) :=
  [Op.push (0, 5), Op.push (1, 3), Op.push (2, 8), Op.push (3, 1),
   Op.update (2, 0)]

/-- An operation sequence containing two pushes of the equal value `5`
(allowed by the heap-order claim as stated), after which the arena violates
heap order: the two equal values share one locator entry, the compaction
step of the second `pop` redirects the `item_index` of the wrong node, and
the final `push 0` reuses the stale value slot. -/
def dupOps : List (Op Int) :=
  [Op.push 1, Op.push 3, Op.push 2, Op.push 5, Op.push 5, Op.pop, Op.pop,
   Op.push 0]

/-- The state reached by the decrease-key scenario. -/
def decreaseKeyState : State (Nat × Int) :=
  runOps handleParams (emptyState (Nat × Int)) decreaseKeyOps

/-- The state reached by the duplicate-push scenario. -/
def dupState : State Int := runOps intParams (emptyState Int) dupOps

/-- A `pop` on the empty heap followed by one `push`. -/
def popPushOps : List (Op Int) := [Op.pop, Op.push 0]

/-! ### Logical tree shapes over the arena

A pairing tree is described by the index of its root and the list of its
child trees (leftmost first), matching the leftmost-child/right-sibling
encoding of the arena. -/

/-- Rooted multiway tree of arena indices. -/
inductive HTree where
  | node : Nat → List HTree → HTree

/-- The arena index of the root. -/
def HTree.rootIdx : HTree → Nat
  | node i _ => i

/-- All arena indices of a tree, root first. -/
def nodesOf : HTree → List Nat
  | HTree.node i cs => i :: (cs.attach.map (fun x => nodesOf x.1)).flatten
decreasing_by
  have h := List.sizeOf_lt_of_mem x.2
  simp only [HTree.node.sizeOf_spec]
  omega

/-- Prepend a new leftmost child, as `merge(child, root)` does. -/
def addChild : HTree → HTree → HTree
  | HTree.node i cs, t => HTree.node i (t :: cs)

/-- The meld of two trees, with the comparison decided by the values
attached to their roots: exactly the branch structure of the source's
`compare_`/`merge` pairs (`true` makes the first root win). -/
def meldT (cmp : T → T → Bool) (vals : Nat → T) (t1 t2 : HTree) : HTree :=
  if cmp (vals t1.rootIdx) (vals t2.rootIdx) then addChild t1 t2
  else addChild t2 t1

/-- The pairwise winners of the first `pop` pass, in production order (an
unpaired final tree is kept as its own winner). -/
def pairsT (cmp : T → T → Bool) (vals : Nat → T) : List HTree → List HTree
  | [] => []
  | [t] => [t]
  | a :: b :: rest => meldT cmp vals a b :: pairsT cmp vals rest

/-- The accumulation pass: melding the accumulated root with the winners
walked right to left. -/
def accumT (cmp : T → T → Bool) (vals : Nat → T) :
    List HTree → HTree → HTree
  | [], acc => acc
  | w :: ws, acc => accumT cmp vals ws (meldT cmp vals w acc)

/-- The tree computed by `pop` from the former root's child list: pair the
children, then accumulate the winners starting from the last one. -/
def popMeld (cmp : T → T → Bool) (vals : Nat → T) (cs : List HTree) :
    Option HTree :=
  match (pairsT cmp vals cs).reverse with
  | [] => none
  | wlast :: rest => some (accumT cmp vals rest wlast)

/-- The winners fully processed by the pairing loop itself: consecutive
pairs are melded, and an unpaired final tree is left to the fix-up step
after the loop. -/
def procW (cmp : T → T → Bool) (vals : Nat → T) : List HTree → List HTree
  | [] => []
  | [_] => []
  | a :: b :: rest => meldT cmp vals a b :: procW cmp vals rest

/-- The unpaired final tree of an odd child list. -/
def oddTail : List HTree → Option HTree
  | [] => none
  | [t] => some t
  | _ :: _ :: rest => oddTail rest

/-- A sibling chain segment in the arena: starting at handle `h`, the
indices `js` are linked left to right through `right_sibling`, each has
parent field `q`, each has its predecessor (`prev` for the first) in
`left_sibling`, and the last `right_sibling` is `e`. -/
def chainSeg (data : List Node) (q : Nat) : Nat → Nat → List Nat → Nat → Prop
  | h, _, [], e => h = e
  | h, prev, j :: rest, e =>
    h = j ∧ (nodeAt data j).parent = q ∧ (nodeAt data j).left_sibling = prev ∧
    chainSeg data q (nodeAt data j).right_sibling j rest e

/-- The arena represents the tree: the root is a live in-range record and
its `child` handle carries the chain of the child trees, recursively.
(The root's own `parent`/`left_sibling`/`right_sibling` fields are not
constrained: they belong to the context of the tree.) -/
def reps (data : List Node) : HTree → Prop
  | HTree.node i cs =>
    i < data.length ∧ (nodeAt data i).item_index ≠ NONE ∧
    chainSeg data i (nodeAt data i).child NONE (cs.map HTree.rootIdx) NONE ∧
    ∀ t ∈ cs, reps data t

/-- Heap order of a tree under a valuation: on every edge the child's value
does not win the comparison against the parent's. -/
def heapOrd (cmp : T → T → Bool) (vals : Nat → T) : HTree → Prop
  | HTree.node i cs =>
    ∀ t ∈ cs, (cmp (vals t.rootIdx) (vals i) = false ∧ heapOrd cmp vals t)

/-- The scratch `left_sibling` chain built by the pairing pass: listed in
production order, the first winner's `left_sibling` is `prev`, and each
later winner's `left_sibling` is its predecessor. -/
def lsChain (data : List Node) : Nat → List Nat → Prop
  | _, [] => True
  | prev, j :: rest => (nodeAt data j).left_sibling = prev ∧ lsChain data j rest

/-- Well-formedness of a state whose heap is empty. -/
def WFempty (s : State T) : Prop :=
  s.elements = [] ∧ s.top = NONE ∧ s.map = [] ∧ s.data.length < NONE ∧
  ∀ i, i < s.data.length → nodeAt s.data i = deadNode

/-- Well-formedness of a non-empty heap state, witnessed by the tree `t`:
the arena represents `t` rooted at `top_` with clean root context fields,
the records outside `t` are exactly the invalidated ones, the `item_index`
fields of `t`'s nodes enumerate the value array bijectively, the internal
map has exactly the resolving entries for the stored values, and the tree
is heap-ordered. -/
structure WFtree [Inhabited T] (P : HeapParams T) (s : State T) (t : HTree) :
    Prop where
  bound : s.data.length < NONE
  topne : s.top ≠ NONE
  root_eq : t.rootIdx = s.top
  rep : reps s.data t
  root_parent : (nodeAt s.data s.top).parent = NONE
  root_ls : (nodeAt s.data s.top).left_sibling = NONE
  root_rs : (nodeAt s.data s.top).right_sibling = NONE
  nodup : (nodesOf t).Nodup
  dead_clean : ∀ i, i < s.data.length → i ∉ nodesOf t →
    nodeAt s.data i = deadNode
  slots_lt : ∀ i ∈ nodesOf t, (nodeAt s.data i).item_index < s.elements.length
  slots_inj : ∀ i ∈ nodesOf t, ∀ j ∈ nodesOf t,
    (nodeAt s.data i).item_index = (nodeAt s.data j).item_index → i = j
  slots_surj : ∀ sl, sl < s.elements.length →
    ∃ i ∈ nodesOf t, (nodeAt s.data i).item_index = sl
  elen : s.elements.length ≤ s.data.length
  map_entries : ∀ e ∈ s.map, e.2 ∈ nodesOf t ∧
    P.keyeq e.1 (valAt s.elements s.data e.2) = true
  map_resolves : ∀ i ∈ nodesOf t,
    lookupMap P s.map (valAt s.elements s.data i) = some i
  ord : heapOrd P.cmp (valAt s.elements s.data) t

/-- Well-formedness of a heap state. -/
def WF [Inhabited T] (P : HeapParams T) (s : State T) : Prop :=
  (s.top = NONE ∧ WFempty s) ∨ (∃ t, WFtree P s t)

/-- Precondition of `push v`: the locator has no entry for `v`'s key (in a
well-formed state this says no stored value shares `v`'s key). -/
def pushPre [Inhabited T] (P : HeapParams T) (s : State T) (v : T) : Bool :=
  (lookupMap P s.map v).isNone

/-- Precondition of `update d` (the decrease-key discipline of the spec):
the locator resolves `d` to a live arena node, and `d` is heap-order
compatible with that node's children. -/
def updatePre [Inhabited T] (P : HeapParams T) (s : State T) (d : T) : Bool :=
  match lookupMap P s.map d with
  | none => false
  | some i =>
      decide (i < s.data.length) &&
      !((nodeAt s.data i).item_index == NONE) &&
      (List.range s.data.length).all (fun c =>
        !((nodeAt s.data c).parent == i) ||
        !(P.cmp (valAt s.elements s.data c) d))

/-- Precondition of one operation. -/
def opPre [Inhabited T] (P : HeapParams T) (s : State T) : Op T → Bool
  | Op.push v => pushPre P s v
  | Op.pop => true
  | Op.update d => updatePre P s d

/-- Every operation of the sequence satisfies its precondition in the state
where it runs. -/
def opsOK [Inhabited T] (P : HeapParams T) (s : State T) : List (Op T) → Bool
  | [] => true
  | op :: rest => opPre P s op && opsOK P (stepOp P s op) rest

/-- Lawfulness of the parameters: the comparison is asymmetric (part of
being a strict weak ordering) and the map's key equality is an equivalence
(required of `std::unordered_map`'s `KeyEqual`). -/
structure LawfulParams (P : HeapParams T) : Prop where
  asymm : ∀ a b, P.cmp a b = true → P.cmp b a = false
  krefl : ∀ a, P.keyeq a a = true
  ksymm : ∀ a b, P.keyeq a b = true → P.keyeq b a = true
  ktrans : ∀ a b c, P.keyeq a b = true → P.keyeq b c = true →
    P.keyeq a c = true

/-- The default instantiation over a linearly ordered value type:
`std::less` and `std::equal_to`. -/
def ltParams (T : Type) [LinearOrder T] : HeapParams T :=
  ⟨fun a b => decide (a < b), fun a b => decide (a = b)⟩

/-- Number of `pop` calls that find a non-empty heap along a run. -/
def countEffPop [Inhabited T] (P : HeapParams T) (s : State T) :
    List (Op T) → Nat
  | [] => 0
  | Op.pop :: rest =>
      (if s.top = NONE then 0 else 1) + countEffPop P (stepOp P s Op.pop) rest
  | op :: rest => countEffPop P (stepOp P s op) rest

/-! ## Basic lemmas about the arena primitives -/

/-- The tail of `implPop` after the pairing pass and the odd-tail fix-up:
the accumulation loop on arena `d2` started at handle `nt`, followed by the
compaction and invalidation steps.  A pure restatement of the second half of
`implPop`, used to factor its verification. -/
def implPopTail [Inhabited T] (P : HeapParams T) (s : State T)
    (d2 : List Node) (nt : Nat) : State T :=
  let p3 := accumLoop P s.elements s.data.length d2 nt
  let lastVal := s.elements.getD (s.elements.length - 1) default
  let r := readMap P s.map lastVal
  let topSlot := (nodeAt p3.1 s.top).item_index
  let e2 := s.elements.set topSlot lastVal
  let d4 := setII p3.1 r.1 topSlot
  let d5 := setII (setLS (setRS (setChild (setParent d4 s.top NONE) s.top
    NONE) s.top NONE) s.top NONE) s.top NONE
  ⟨e2.dropLast, d5, p3.2, r.2⟩

/-- The value of the last `push` or `update` in an operation sequence whose
argument matches key `x` (later operations win), if any. -/
def lastKeyWrite (P : HeapParams T) (x : T) : List (Op T) → Option T
  | [] => none
  | op :: rest =>
    match lastKeyWrite P x rest with
    | some v => some v
    | none =>
      match op with
      | Op.push v => if P.keyeq x v then some v else none
      | Op.update v => if P.keyeq x v then some v else none
      | Op.pop => none

/-- An operation sequence exercising the size accounting: two pushes, three
pops (the last of which finds an empty heap), one more push. -/
def sizeOps : List (Op Int) :=
  [Op.push 1, Op.push 2, Op.pop, Op.pop, Op.pop, Op.push 5]


theorem nodeAt_eq_getD (data : List Node) (i : Nat) :
    nodeAt data i = data.getD i deadNode := rfl

theorem nodeAt_set_other (data : List Node) (i : Nat) (n : Node) {j : Nat}
    (h : j ≠ i) : nodeAt (data.set i n) j = nodeAt data j := by
  simp [nodeAt, List.getD_eq_getElem?_getD, List.getElem?_set_ne (Ne.symm h)]

theorem nodeAt_set_self (data : List Node) (i : Nat) (n : Node)
    (h : i < data.length) : nodeAt (data.set i n) i = n := by
  simp [nodeAt, List.getD_eq_getElem?_getD, List.getElem?_set_self, h]

theorem nodeAt_set_oob (data : List Node) (i : Nat) (n : Node)
    (h : ¬ i < data.length) : data.set i n = data := by
  exact List.set_eq_of_length_le (by omega)

theorem nodeAt_setParent_other (data : List Node) (i v : Nat) {j : Nat}
    (h : j ≠ i) : nodeAt (setParent data i v) j = nodeAt data j :=
  nodeAt_set_other data i _ h

theorem nodeAt_setParent_self (data : List Node) (i v : Nat)
    (h : i < data.length) :
    nodeAt (setParent data i v) i = { nodeAt data i with parent := v } :=
  nodeAt_set_self data i _ h

theorem nodeAt_setChild_other (data : List Node) (i v : Nat) {j : Nat}
    (h : j ≠ i) : nodeAt (setChild data i v) j = nodeAt data j :=
  nodeAt_set_other data i _ h

theorem nodeAt_setChild_self (data : List Node) (i v : Nat)
    (h : i < data.length) :
    nodeAt (setChild data i v) i = { nodeAt data i with child := v } :=
  nodeAt_set_self data i _ h

theorem nodeAt_setRS_other (data : List Node) (i v : Nat) {j : Nat}
    (h : j ≠ i) : nodeAt (setRS data i v) j = nodeAt data j :=
  nodeAt_set_other data i _ h

theorem nodeAt_setRS_self (data : List Node) (i v : Nat)
    (h : i < data.length) :
    nodeAt (setRS data i v) i = { nodeAt data i with right_sibling := v } :=
  nodeAt_set_self data i _ h

theorem nodeAt_setLS_other (data : List Node) (i v : Nat) {j : Nat}
    (h : j ≠ i) : nodeAt (setLS data i v) j = nodeAt data j :=
  nodeAt_set_other data i _ h

theorem nodeAt_setLS_self (data : List Node) (i v : Nat)
    (h : i < data.length) :
    nodeAt (setLS data i v) i = { nodeAt data i with left_sibling := v } :=
  nodeAt_set_self data i _ h

theorem nodeAt_setII_other (data : List Node) (i v : Nat) {j : Nat}
    (h : j ≠ i) : nodeAt (setII data i v) j = nodeAt data j :=
  nodeAt_set_other data i _ h

theorem nodeAt_setII_self (data : List Node) (i v : Nat)
    (h : i < data.length) :
    nodeAt (setII data i v) i = { nodeAt data i with item_index := v } :=
  nodeAt_set_self data i _ h

theorem length_setParent (data : List Node) (i v : Nat) :
    (setParent data i v).length = data.length := by simp [setParent]

theorem length_setChild (data : List Node) (i v : Nat) :
    (setChild data i v).length = data.length := by simp [setChild]

theorem length_setRS (data : List Node) (i v : Nat) :
    (setRS data i v).length = data.length := by simp [setRS]

theorem length_setLS (data : List Node) (i v : Nat) :
    (setLS data i v).length = data.length := by simp [setLS]

theorem length_setII (data : List Node) (i v : Nat) :
    (setII data i v).length = data.length := by simp [setII]

theorem length_mergeIdx (data : List Node) (i1 i2 : Nat) :
    (mergeIdx data i1 i2).length = data.length := by
  unfold mergeIdx
  dsimp only
  split <;> simp [length_setParent, length_setChild, length_setRS, length_setLS]

theorem length_pairLoop [Inhabited T] (P : HeapParams T) (elements : List T)
    (fuel : Nat) :
    ∀ (data : List Node) (i p n : Nat),
      (pairLoop P elements fuel data i p n).1.length = data.length := by
  induction fuel with
  | zero => intro data i p n; rfl
  | succ fuel ih =>
    intro data i p n
    unfold pairLoop
    split
    · rfl
    · split
      · rfl
      · dsimp only
        split <;>
          simp [ih, length_setLS, length_mergeIdx, length_setParent, length_setRS]

theorem length_accumLoop [Inhabited T] (P : HeapParams T) (elements : List T)
    (fuel : Nat) :
    ∀ (data : List Node) (n : Nat),
      (accumLoop P elements fuel data n).1.length = data.length := by
  induction fuel with
  | zero => intro data n; rfl
  | succ fuel ih =>
    intro data n
    unfold accumLoop
    split
    · rfl
    · split
      · rfl
      · dsimp only
        split <;> simp [ih, length_setLS, length_mergeIdx]

theorem data_length_implPop [Inhabited T] (P : HeapParams T) (s : State T) :
    (implPop P s).data.length = s.data.length := by
  unfold implPop
  split
  · rfl
  · dsimp only
    split <;>
      simp [length_setII, length_setLS, length_setRS, length_setChild,
        length_setParent, length_accumLoop, length_pairLoop]

theorem data_length_popOp [Inhabited T] (P : HeapParams T) (s : State T) :
    (popOp P s).data.length = s.data.length := by
  unfold popOp
  split
  · rfl
  · exact data_length_implPop P s

theorem data_length_pushOp [Inhabited T] (P : HeapParams T) (s : State T) (v : T) :
    (pushOp P s v).data.length = s.data.length + 1 := by
  unfold pushOp
  dsimp only
  split
  · simp
  · split <;> simp [length_mergeIdx]

theorem data_length_updateOp [Inhabited T] (P : HeapParams T) (s : State T) (d : T) :
    (updateOp P s d).data.length = s.data.length := by
  unfold updateOp
  dsimp only
  split
  · rfl
  · split <;>
    · split <;> split <;>
        simp [length_mergeIdx, length_setParent, length_setLS, length_setRS,
          length_setChild]

theorem data_length_runOps [Inhabited T] (P : HeapParams T) :
    ∀ (ops : List (Op T)) (s : State T),
      (runOps P s ops).data.length = s.data.length + countPush ops := by
  intro ops
  induction ops with
  | nil => intro s; rfl
  | cons op rest ih =>
    intro s
    cases op with
    | push v =>
      simp only [runOps, stepOp, countPush, ih, data_length_pushOp]
      omega
    | pop => simp only [runOps, stepOp, countPush, ih, data_length_popOp]
    | update v => simp only [runOps, stepOp, countPush, ih, data_length_updateOp]

/-- C10: the node arena never shrinks: after any sequence of operations
starting from the empty heap, `data_.size()` equals the total number of
`push` calls performed; `pop` never removes the extracted node's arena
record (it only overwrites its fields with the sentinel). -/
theorem arena_length_eq_pushes [Inhabited T] (P : HeapParams T)
    (ops : List (Op T)) :
    (runOps P (emptyState T) ops).data.length = countPush ops := by
  have h := data_length_runOps P ops (emptyState T)
  simpa [emptyState] using h

/-! ## The merge primitive (C8) -/

/-- Full description of `merge(x, y)` when `y`'s current first child link is
either the sentinel or a valid index distinct from `x` and `y` (as at every
call site, where `x` is detached or fresh): `x.parent` becomes `y`,
`x.right_sibling` becomes the previous `y.child`, that previous child's
`left_sibling` becomes `x` when it exists, `y.child` becomes `x`, and no
other field of any node changes — in particular `x.left_sibling` is not
touched. -/
theorem mergeIdx_spec (data : List Node) (x y : Nat) (hxy : x ≠ y)
    (hx : x < data.length) (hy : y < data.length)
    (hc : (nodeAt data y).child = NONE ∨
      ((nodeAt data y).child ≠ NONE ∧ (nodeAt data y).child < data.length ∧
        (nodeAt data y).child ≠ x ∧ (nodeAt data y).child ≠ y)) :
    nodeAt (mergeIdx data x y) x =
      { nodeAt data x with
        parent := y,
        right_sibling := (nodeAt data y).child } ∧
    nodeAt (mergeIdx data x y) y = { nodeAt data y with child := x } ∧
    ((nodeAt data y).child ≠ NONE →
      nodeAt (mergeIdx data x y) (nodeAt data y).child =
        { nodeAt data (nodeAt data y).child with left_sibling := x }) ∧
    (∀ j, j ≠ x → j ≠ y → j ≠ (nodeAt data y).child →
      nodeAt (mergeIdx data x y) j = nodeAt data j) ∧
    (mergeIdx data x y).length = data.length := by
  have hyx : y ≠ x := Ne.symm hxy
  unfold mergeIdx
  dsimp only
  rw [nodeAt_setParent_other data x y hyx]
  set c := (nodeAt data y).child with hcdef
  have hy1 : (nodeAt (setRS (setParent data x y) x c) y).child = c := by
    rw [nodeAt_setRS_other _ _ _ hyx, nodeAt_setParent_other data x y hyx]
  rw [hy1]
  rcases hc with hnone | ⟨hcne, hclt, hcx, hcy⟩
  · rw [if_neg (by simp [hnone])]
    have hxlen1 : x < (setParent data x y).length := by
      rw [length_setParent]; exact hx
    have hylen2 : y < (setRS (setParent data x y) x c).length := by
      rw [length_setRS, length_setParent]; exact hy
    refine ⟨?_, ?_, ?_, ?_, ?_⟩
    · rw [nodeAt_setChild_other _ _ _ hxy, nodeAt_setRS_self _ _ _ hxlen1,
        nodeAt_setParent_self data x y hx]
    · rw [nodeAt_setChild_self _ _ _ hylen2, nodeAt_setRS_other _ _ _ hyx,
        nodeAt_setParent_other data x y hyx]
    · intro h; exact absurd hnone h
    · intro j hjx hjy _
      rw [nodeAt_setChild_other _ _ _ hjy, nodeAt_setRS_other _ _ _ hjx,
        nodeAt_setParent_other data x y hjx]
    · simp [length_setChild, length_setRS, length_setParent]
  · rw [if_pos hcne]
    have hxlen1 : x < (setParent data x y).length := by
      rw [length_setParent]; exact hx
    have hclen2 : c < (setLS (setRS (setParent data x y) x c) c x).length := by
      simp [length_setLS, length_setRS, length_setParent, hclt]
    have hylen3 :
        y < (setLS (setRS (setParent data x y) x c) c x).length := by
      simp [length_setLS, length_setRS, length_setParent, hy]
    refine ⟨?_, ?_, ?_, ?_, ?_⟩
    · rw [nodeAt_setChild_other _ _ _ hxy, nodeAt_setLS_other _ _ _ hcx.symm
        , nodeAt_setRS_self _ _ _ hxlen1, nodeAt_setParent_self data x y hx]
    · rw [nodeAt_setChild_self _ _ _ hylen3, nodeAt_setLS_other _ _ _ hcy.symm,
        nodeAt_setRS_other _ _ _ hyx, nodeAt_setParent_other data x y hyx]
    · intro _
      have hc2 : c < (setRS (setParent data x y) x c).length := by
        simp [length_setRS, length_setParent, hclt]
      rw [nodeAt_setChild_other _ _ _ hcy, nodeAt_setLS_self _ _ _ hc2,
        nodeAt_setRS_other _ _ _ hcx, nodeAt_setParent_other data x y hcx]
    · intro j hjx hjy hjc
      rw [nodeAt_setChild_other _ _ _ hjy, nodeAt_setLS_other _ _ _ hjc,
        nodeAt_setRS_other _ _ _ hjx, nodeAt_setParent_other data x y hjx]
    · simp [length_setChild, length_setLS, length_setRS, length_setParent]

/-- C8 counterexample to the claim as stated: merge does modify
`x.left_sibling` when `x` happens to be `y`'s current first child (the
claim quantifies over every pair of distinct arena indices, with no
assumption that `x` is detached).  Here node `0` is node `1`'s child, and
`merge(0, 1)` rewrites node `0`'s `left_sibling` from the sentinel to `0`. -/
theorem merge_touches_left_sibling_cex :
    (nodeAt (mergeIdx [⟨0, NONE, NONE, NONE, NONE⟩,
        ⟨1, NONE, 0, NONE, NONE⟩] 0 1) 0).left_sibling ≠
      (nodeAt [⟨0, NONE, NONE, NONE, NONE⟩,
        ⟨1, NONE, 0, NONE, NONE⟩] 0).left_sibling := by decide

/-- C8 witness: the merge description theorem applied to a concrete arena
in which node `1` already has first child `2`. -/
theorem mergeIdx_spec_witness :
    nodeAt (mergeIdx [⟨0, NONE, NONE, NONE, NONE⟩,
        ⟨1, NONE, 2, NONE, NONE⟩, ⟨2, 1, NONE, NONE, NONE⟩] 0 1) 0 =
      ⟨0, 1, NONE, 2, NONE⟩ ∧
    nodeAt (mergeIdx [⟨0, NONE, NONE, NONE, NONE⟩,
        ⟨1, NONE, 2, NONE, NONE⟩, ⟨2, 1, NONE, NONE, NONE⟩] 0 1) 1 =
      ⟨1, NONE, 0, NONE, NONE⟩ := by
  have h := mergeIdx_spec [⟨0, NONE, NONE, NONE, NONE⟩,
    ⟨1, NONE, 2, NONE, NONE⟩, ⟨2, 1, NONE, NONE, NONE⟩] 0 1
    (by decide) (by decide) (by decide)
    (by right; refine ⟨?_, ?_, ?_, ?_⟩ <;> decide)
  refine ⟨?_, ?_⟩
  · rw [h.1]; decide
  · rw [h.2.1]; decide

/-! ## The locator map primitives -/

theorem readMap_of_lookup_some (P : HeapParams T) {m : HMap T} {x : T} {i : Nat}
    (h : lookupMap P m x = some i) : readMap P m x = (i, m) := by
  unfold readMap
  rw [h]

theorem lookupMap_writeMap_self (P : HeapParams T)
    (hrefl : ∀ a, P.keyeq a a = true) (m : HMap T) (x : T) (v : Nat) :
    lookupMap P (writeMap P m x v) x = some v := by
  induction m with
  | nil => simp [writeMap, lookupMap, hrefl x]
  | cons e rest ih =>
    obtain ⟨k, i⟩ := e
    by_cases h : P.keyeq x k = true
    · simp [writeMap, lookupMap, h]
    · simp only [Bool.not_eq_true] at h
      simp [writeMap, lookupMap, h, ih]

theorem length_writeMap_of_found (P : HeapParams T) (m : HMap T) (x : T)
    (v : Nat) (h : lookupMap P m x ≠ none) :
    (writeMap P m x v).length = m.length := by
  induction m with
  | nil => simp [lookupMap] at h
  | cons e rest ih =>
    obtain ⟨k, i⟩ := e
    by_cases hk : P.keyeq x k = true
    · simp [writeMap, hk]
    · simp only [Bool.not_eq_true] at hk
      simp only [lookupMap, hk] at h
      simp only [writeMap, hk]
      simp [ih (by simpa using h)]

theorem lookupMap_eraseMap (P : HeapParams T)
    (hsymm : ∀ a b, P.keyeq a b = true → P.keyeq b a = true)
    (htrans : ∀ a b c, P.keyeq a b = true → P.keyeq b c = true →
      P.keyeq a c = true)
    (m : HMap T) (x y : T) (hxy : P.keyeq y x = true) :
    lookupMap P (eraseMap P m x) y = none := by
  induction m with
  | nil => rfl
  | cons e rest ih =>
    obtain ⟨k, i⟩ := e
    by_cases hk : P.keyeq x k = true
    · simpa [eraseMap, hk] using ih
    · simp only [Bool.not_eq_true] at hk
      have hyk : P.keyeq y k = false := by
        by_contra hyk
        simp only [Bool.not_eq_false] at hyk
        exact absurd (htrans x y k (hsymm y x hxy) hyk) (by simp [hk])
      simpa [eraseMap, hk, lookupMap, hyk] using ih

theorem pushOp_map_eq [Inhabited T] (P : HeapParams T) (s : State T) (v : T) :
    (pushOp P s v).map = writeMap P s.map v s.data.length := by
  unfold pushOp
  dsimp only
  have hlen : (s.data ++ [(⟨(s.elements ++ [v]).length - 1, NONE, NONE,
      NONE, NONE⟩ : Node)]).length - 1 = s.data.length := by simp
  rw [hlen]
  split
  · rfl
  · split <;> rfl

/-- C9: under the default internal-map locator, (a) pushing a value `v`
(re)binds the single locator entry for `v`'s key class to the index of the
newly appended arena node, so every item whose key equals `v` now resolves
to the newer node; (b) when an entry with `v`'s key already exists, `push`
overwrites it in place and the number of entries does not grow; and (c) the
default wrapper's `pop` erases the locator entry for the extracted value's
key class, so no item with that key resolves any longer. -/
theorem internal_map_shared_entry [Inhabited T] (P : HeapParams T)
    (hrefl : ∀ a, P.keyeq a a = true)
    (hsymm : ∀ a b, P.keyeq a b = true → P.keyeq b a = true)
    (htrans : ∀ a b c, P.keyeq a b = true → P.keyeq b c = true →
      P.keyeq a c = true) :
    (∀ (s : State T) (v : T),
      lookupMap P (pushOp P s v).map v = some s.data.length) ∧
    (∀ (s : State T) (v : T), lookupMap P s.map v ≠ none →
      ((pushOp P s v).map).length = s.map.length) ∧
    (∀ (s : State T) (y : T), s.top ≠ NONE → P.keyeq y (topVal s) = true →
      lookupMap P (popOp P s).map y = none) := by
  refine ⟨?_, ?_, ?_⟩
  · intro s v
    rw [pushOp_map_eq]
    exact lookupMap_writeMap_self P hrefl s.map v s.data.length
  · intro s v h
    rw [pushOp_map_eq]
    exact length_writeMap_of_found P s.map v s.data.length h
  · intro s y htop hkey
    unfold popOp
    rw [if_neg htop]
    exact lookupMap_eraseMap P hsymm htrans _ (topVal s) y hkey

/-- C9 witness: with the `Int` instantiation, push `5` twice from the empty
heap: the second push rebinds the single entry for key `5` to node `1`; the
entry count stays at one; and one `pop` then leaves no entry for key `5`. -/
theorem internal_map_shared_entry_witness :
    lookupMap intParams
      (pushOp intParams (pushOp intParams (emptyState Int) 5) 5).map 5 =
      some 1 ∧
    ((pushOp intParams (pushOp intParams (emptyState Int) 5) 5).map).length =
      ((pushOp intParams (emptyState Int) 5).map).length ∧
    lookupMap intParams
      (popOp intParams
        (pushOp intParams (pushOp intParams (emptyState Int) 5) 5)).map 5 =
      none := by
  have h := internal_map_shared_entry intParams
    (fun a => by simp [intParams])
    (fun a b hab => by simp [intParams] at hab ⊢; omega)
    (fun a b c hab hbc => by simp [intParams] at hab hbc ⊢; omega)
  refine ⟨?_, ?_, ?_⟩
  · have := h.1 (pushOp intParams (emptyState Int) 5) 5
    rw [this]
    decide
  · have := h.2.1 (pushOp intParams (emptyState Int) 5) 5 (by decide)
    rw [this]
  · have := h.2.2 (pushOp intParams (pushOp intParams (emptyState Int) 5) 5) 5
      (by decide) (by decide)
    rw [this]

/-! ## Update at the root (C7) -/

/-- C7: when `update(d)` resolves through the locator to the node that is
currently the root, the operation only overwrites that node's stored value:
the arena (hence every link field of every node), the top index, the map and
the size are unchanged. -/
theorem update_at_root_frame [Inhabited T] (P : HeapParams T) (s : State T)
    (d : T) (h : lookupMap P s.map d = some s.top) :
    (updateOp P s d).data = s.data ∧ (updateOp P s d).top = s.top ∧
    (updateOp P s d).map = s.map ∧
    sizeOf' (updateOp P s d) = sizeOf' s ∧
    (updateOp P s d).elements =
      s.elements.set (nodeAt s.data s.top).item_index d := by
  have hr : readMap P s.map d = (s.top, s.map) := readMap_of_lookup_some P h
  unfold updateOp
  rw [hr]
  dsimp only
  rw [if_pos rfl]
  simp [sizeOf']

/-- C7 witness: update the root of a one-element heap (a handle with
identity 0, priority 5, updated to priority 3). -/
theorem update_at_root_frame_witness :
    (updateOp handleParams
        (pushOp handleParams (emptyState (Nat × Int)) (0, 5)) (0, 3)).data =
      (pushOp handleParams (emptyState (Nat × Int)) (0, 5)).data ∧
    (updateOp handleParams
        (pushOp handleParams (emptyState (Nat × Int)) (0, 5)) (0, 3)).top =
      (pushOp handleParams (emptyState (Nat × Int)) (0, 5)).top := by
  have h := update_at_root_frame handleParams
    (pushOp handleParams (emptyState (Nat × Int)) (0, 5)) (0, 3) (by decide)
  exact ⟨h.1, h.2.1⟩

/-! ## Popping an empty heap (C5) -/

/-- C5 counterexample to the claim as stated: the default internal-map
variant's `pop()` is not a no-op on the empty heap — its unguarded
`impl.top()` call reads `data_[size_type(-1)]`, which is out of range
(undefined behavior in the source), modelled here as a failing read. -/
theorem wrapper_pop_empty_fails :
    wrapperPopOpt intParams (emptyState Int) = none := rfl

/-- C5 amended: the impl-level `pop` (which the external-map wrapper
forwards to unchanged) really is a no-op on an empty heap: with
`top_ == size_type(-1)` it returns immediately, changing nothing. -/
theorem implPop_empty_noop [Inhabited T] (P : HeapParams T) (s : State T)
    (h : s.top = NONE) : implPop P s = s := by
  unfold implPop
  rw [if_pos h]

/-- C5 witness: the impl-level `pop` applied to the empty heap. -/
theorem implPop_empty_noop_witness :
    implPop intParams (emptyState Int) = emptyState Int :=
  implPop_empty_noop intParams (emptyState Int) rfl

/-! ## The decrease-key scenario (C3) -/

/-- C3: pushing items with priorities 5, 3, 8, 1 and then updating the item
pushed with priority 8 to priority 0 (through the identity-keyed internal
map, as the source's comment on the default variant's `update` prescribes)
makes the four subsequent `top()`/`pop()` rounds return the priorities
0, 1, 3, 5 in that order. -/
theorem decrease_key_extraction :
    extractList handleParams decreaseKeyState 4 =
      [(2, 0), (3, 1), (1, 3), (0, 5)] := by decide

/-! ## Counterexamples about sequences of operations (C1, C6) -/

/-- C1 counterexample to the claim as stated (which allows arbitrary `push`
sequences, including values equal under the map's key): after
`push 1; push 3; push 2; push 5; push 5; pop; pop; push 0` the two pushes of
`5` have shared one locator entry, the second `pop`'s compaction step
redirected the wrong node's `item_index`, and the final `push 0` reused the
stale slot: node `3` is a child of node `1` in the arena, both alive with in
range `item_index`, yet `compare(value(3), value(1))` = `0 < 3` holds. -/
theorem heap_order_violated_with_duplicates :
    (nodeAt dupState.data 3).parent = 1 ∧
    (nodeAt dupState.data 3).item_index < dupState.elements.length ∧
    (nodeAt dupState.data 1).item_index < dupState.elements.length ∧
    intParams.cmp (valAt dupState.elements dupState.data 3)
      (valAt dupState.elements dupState.data 1) = true := by decide

/-- C6 counterexample to the claim as stated: a `pop` on the empty heap is a
no-op (the impl-level guard returns immediately), so after `pop; push 0` the
size is `1` while the number of pushes minus the number of pops is `0`. -/
theorem size_neq_pushes_minus_pops_cex :
    (sizeOf' (runOps intParams (emptyState Int) popPushOps) : Int) ≠
      (countPush popPushOps : Int) - (countPop popPushOps : Int) := by decide

/-! ## Tree representation lemmas -/

theorem nodesOf_node (i : Nat) (cs : List HTree) :
    nodesOf (HTree.node i cs) = i :: (cs.map nodesOf).flatten := by
  simp [nodesOf, List.attach_map_coe]

theorem mem_nodesOf_node {j i : Nat} {cs : List HTree} :
    j ∈ nodesOf (HTree.node i cs) ↔ j = i ∨ ∃ t ∈ cs, j ∈ nodesOf t := by
  rw [nodesOf_node]
  simp only [List.mem_cons, List.mem_flatten, List.mem_map]
  constructor
  · rintro (rfl | ⟨l, ⟨t, ht, rfl⟩, hj⟩)
    · exact Or.inl rfl
    · exact Or.inr ⟨t, ht, hj⟩
  · rintro (rfl | ⟨t, ht, hj⟩)
    · exact Or.inl rfl
    · exact Or.inr ⟨nodesOf t, ⟨t, ht, rfl⟩, hj⟩

theorem rootIdx_mem_nodesOf : ∀ t : HTree, t.rootIdx ∈ nodesOf t
  | HTree.node i cs => by
    rw [nodesOf_node]
    exact List.mem_cons_self i _

theorem mem_nodesOf_of_child {t' : HTree} {cs : List HTree} (i : Nat)
    (h : t' ∈ cs) {j : Nat} (hj : j ∈ nodesOf t') :
    j ∈ nodesOf (HTree.node i cs) :=
  mem_nodesOf_node.2 (Or.inr ⟨t', h, hj⟩)

theorem reps_nodes_lt (data : List Node) :
    ∀ t : HTree, reps data t → ∀ j ∈ nodesOf t, j < data.length
  | HTree.node i cs => by
    intro h j hj
    simp only [reps] at h
    rcases mem_nodesOf_node.1 hj with rfl | ⟨t', ht', hjt⟩
    · exact h.1
    · exact reps_nodes_lt data t' (h.2.2.2 t' ht') j hjt

theorem reps_nodes_ii_ne (data : List Node) :
    ∀ t : HTree, reps data t →
      ∀ j ∈ nodesOf t, (nodeAt data j).item_index ≠ NONE
  | HTree.node i cs => by
    intro h j hj
    simp only [reps] at h
    rcases mem_nodesOf_node.1 hj with rfl | ⟨t', ht', hjt⟩
    · exact h.2.1
    · exact reps_nodes_ii_ne data t' (h.2.2.2 t' ht') j hjt

theorem chainSeg_congr {data data2 : List Node} {q : Nat} :
    ∀ {h prev e : Nat} {js : List Nat},
      chainSeg data q h prev js e →
      (∀ j ∈ js, nodeAt data2 j = nodeAt data j) →
      chainSeg data2 q h prev js e := by
  intro h prev e js
  induction js generalizing h prev with
  | nil => intro hc _; exact hc
  | cons j rest ih =>
    intro hc hagree
    obtain ⟨hhd, hp, hl, hrest⟩ := hc
    have hj := hagree j (List.mem_cons_self j rest)
    refine ⟨hhd, by rw [hj]; exact hp, by rw [hj]; exact hl, ?_⟩
    rw [hj]
    exact ih hrest (fun j' hj' => hagree j' (List.mem_cons_of_mem j hj'))

theorem chainSeg_mem_parent {data : List Node} {q : Nat} :
    ∀ {h prev e : Nat} {js : List Nat},
      chainSeg data q h prev js e → ∀ j ∈ js, (nodeAt data j).parent = q := by
  intro h prev e js
  induction js generalizing h prev with
  | nil => intro _ j hj; cases hj
  | cons j rest ih =>
    intro hc j' hj'
    obtain ⟨rfl, hp, _, hrest⟩ := hc
    rcases List.mem_cons.1 hj' with rfl | hj'
    · exact hp
    · exact ih hrest j' hj'

theorem nodup_root_notmem {i : Nat} {cs : List HTree}
    (h : (nodesOf (HTree.node i cs)).Nodup) :
    i ∉ (cs.map nodesOf).flatten := by
  rw [nodesOf_node] at h
  exact (List.nodup_cons.1 h).1

theorem nodup_nodesOf_child {i : Nat} {cs : List HTree}
    (h : (nodesOf (HTree.node i cs)).Nodup) {t' : HTree} (ht' : t' ∈ cs) :
    (nodesOf t').Nodup := by
  rw [nodesOf_node] at h
  have h2 := (List.nodup_cons.1 h).2
  exact (List.nodup_flatten.1 h2).1 (nodesOf t') (List.mem_map_of_mem nodesOf ht')

/-- `reps` only reads the root's `child` and `item_index` (not its context
fields `parent`/`left_sibling`/`right_sibling`) plus the full records of all
other tree nodes. -/
theorem reps_congr {data data2 : List Node} (hlen : data.length ≤ data2.length) :
    ∀ t : HTree, reps data t → (nodesOf t).Nodup →
      ((nodeAt data2 t.rootIdx).child = (nodeAt data t.rootIdx).child) →
      ((nodeAt data2 t.rootIdx).item_index = (nodeAt data t.rootIdx).item_index) →
      (∀ j ∈ nodesOf t, j ≠ t.rootIdx → nodeAt data2 j = nodeAt data j) →
      reps data2 t
  | HTree.node i cs => by
    intro h hnd hchild hii hrest
    simp only [reps, HTree.rootIdx] at *
    obtain ⟨hilt, hine, hchain, hcs⟩ := h
    have hchildmem : ∀ t' ∈ cs, ∀ j ∈ nodesOf t', j ≠ i := by
      intro t' ht' j hj
      intro hji
      subst hji
      exact nodup_root_notmem hnd
        (List.mem_flatten.2 ⟨nodesOf t', List.mem_map_of_mem nodesOf ht', hj⟩)
    refine ⟨Nat.lt_of_lt_of_le hilt hlen, by rw [hii]; exact hine, ?_, ?_⟩
    · rw [hchild]
      refine chainSeg_congr hchain ?_
      intro j hj
      simp only [List.mem_map] at hj
      obtain ⟨t', ht', rfl⟩ := hj
      have hji : HTree.rootIdx t' ≠ i :=
        hchildmem t' ht' _ (rootIdx_mem_nodesOf t')
      exact hrest _ (mem_nodesOf_of_child i ht' (rootIdx_mem_nodesOf t')) hji
    · intro t' ht'
      have hroot_ne : t'.rootIdx ≠ i := hchildmem t' ht' _ (rootIdx_mem_nodesOf t')
      have hrooteq : nodeAt data2 t'.rootIdx = nodeAt data t'.rootIdx :=
        hrest _ (mem_nodesOf_of_child i ht' (rootIdx_mem_nodesOf t')) hroot_ne
      exact reps_congr hlen t' (hcs t' ht') (nodup_nodesOf_child hnd ht')
        (by rw [hrooteq]) (by rw [hrooteq])
        (fun j hj hjr => hrest j (mem_nodesOf_of_child i ht' hj)
          (hchildmem t' ht' j hj))
  termination_by t => sizeOf t
  decreasing_by
    have := List.sizeOf_lt_of_mem ht'
    simp only [HTree.node.sizeOf_spec]
    omega

/-! ## Heap order and melding at the tree level -/

theorem heapOrd_congr {cmp : T → T → Bool} {vals vals2 : Nat → T} :
    ∀ t : HTree, heapOrd cmp vals t →
      (∀ j ∈ nodesOf t, vals2 j = vals j) → heapOrd cmp vals2 t
  | HTree.node i cs => by
    intro h hagree
    simp only [heapOrd] at h ⊢
    intro t' ht'
    have hroot : vals2 t'.rootIdx = vals t'.rootIdx :=
      hagree _ (mem_nodesOf_of_child i ht' (rootIdx_mem_nodesOf t'))
    have hi : vals2 i = vals i :=
      hagree i (by rw [nodesOf_node]; exact List.mem_cons_self i _)
    refine ⟨by rw [hroot, hi]; exact (h t' ht').1, ?_⟩
    exact heapOrd_congr t' (h t' ht').2
      (fun j hj => hagree j (mem_nodesOf_of_child i ht' hj))
  termination_by t => sizeOf t
  decreasing_by
    have := List.sizeOf_lt_of_mem ht'
    simp only [HTree.node.sizeOf_spec]
    omega

theorem rootIdx_addChild (t c : HTree) : (addChild t c).rootIdx = t.rootIdx := by
  cases t; rfl

theorem nodesOf_addChild (t c : HTree) :
    (nodesOf (addChild t c)).Perm (nodesOf t ++ nodesOf c) := by
  cases t with
  | node i cs =>
    simp only [addChild, nodesOf_node, List.map_cons, List.flatten_cons,
      List.cons_append]
    exact List.Perm.cons i List.perm_append_comm


theorem heapOrd_addChild {cmp : T → T → Bool} {vals : Nat → T} {t c : HTree}
    (ht : heapOrd cmp vals t) (hc : heapOrd cmp vals c)
    (hcmp : cmp (vals c.rootIdx) (vals t.rootIdx) = false) :
    heapOrd cmp vals (addChild t c) := by
  cases t with
  | node i cs =>
    simp only [addChild, heapOrd] at ht ⊢
    intro t' ht'
    rcases List.mem_cons.1 ht' with rfl | ht'
    · exact ⟨hcmp, hc⟩
    · exact ht t' ht'

theorem nodesOf_meldT (cmp : T → T → Bool) (vals : Nat → T) (t1 t2 : HTree) :
    (nodesOf (meldT cmp vals t1 t2)).Perm (nodesOf t1 ++ nodesOf t2) := by
  unfold meldT
  split
  · exact nodesOf_addChild t1 t2
  · exact (nodesOf_addChild t2 t1).trans List.perm_append_comm

theorem rootIdx_meldT_cases (cmp : T → T → Bool) (vals : Nat → T)
    (t1 t2 : HTree) :
    (meldT cmp vals t1 t2).rootIdx = t1.rootIdx ∨
      (meldT cmp vals t1 t2).rootIdx = t2.rootIdx := by
  unfold meldT
  split
  · exact Or.inl (rootIdx_addChild t1 t2)
  · exact Or.inr (rootIdx_addChild t2 t1)

theorem heapOrd_meldT {cmp : T → T → Bool} {vals : Nat → T}
    (hasymm : ∀ a b, cmp a b = true → cmp b a = false) {t1 t2 : HTree}
    (h1 : heapOrd cmp vals t1) (h2 : heapOrd cmp vals t2) :
    heapOrd cmp vals (meldT cmp vals t1 t2) := by
  unfold meldT
  split
  · next hlt => exact heapOrd_addChild h1 h2 (hasymm _ _ hlt)
  · next hlt => exact heapOrd_addChild h2 h1 (by simpa using hlt)

theorem pairsT_nodes_perm (cmp : T → T → Bool) (vals : Nat → T) :
    ∀ cs : List HTree,
      (((pairsT cmp vals cs).map nodesOf).flatten).Perm
        ((cs.map nodesOf).flatten)
  | [] => by simp [pairsT]
  | [t] => by simp [pairsT]
  | a :: b :: rest => by
    simp only [pairsT, List.map_cons, List.flatten_cons]
    have ih := pairsT_nodes_perm cmp vals rest
    have h1 := (nodesOf_meldT cmp vals a b).append_right
      (((pairsT cmp vals rest).map nodesOf).flatten)
    have h2 := ih.append_left (nodesOf a ++ nodesOf b)
    rw [← List.append_assoc]
    exact h1.trans h2

theorem pairsT_heapOrd {cmp : T → T → Bool} {vals : Nat → T}
    (hasymm : ∀ a b, cmp a b = true → cmp b a = false) :
    ∀ cs : List HTree, (∀ t ∈ cs, heapOrd cmp vals t) →
      ∀ w ∈ pairsT cmp vals cs, heapOrd cmp vals w
  | [] => by intro _ w hw; simp [pairsT] at hw
  | [t] => by
    intro h w hw
    simp only [pairsT, List.mem_singleton] at hw
    subst hw
    exact h _ (by simp)
  | a :: b :: rest => by
    intro h w hw
    simp only [pairsT, List.mem_cons] at hw
    rcases hw with rfl | hw
    · exact heapOrd_meldT hasymm (h a (by simp)) (h b (by simp))
    · exact pairsT_heapOrd hasymm rest
        (fun t ht => h t (by simp [ht])) w hw

theorem accumT_nodes_perm (cmp : T → T → Bool) (vals : Nat → T) :
    ∀ (ws : List HTree) (acc : HTree),
      (nodesOf (accumT cmp vals ws acc)).Perm
        ((ws.map nodesOf).flatten ++ nodesOf acc)
  | [], acc => by simp [accumT]
  | w :: ws, acc => by
    simp only [accumT, List.map_cons, List.flatten_cons]
    have h1 := accumT_nodes_perm cmp vals ws (meldT cmp vals w acc)
    have h2 := (nodesOf_meldT cmp vals w acc).append_left
      ((ws.map nodesOf).flatten)
    have h3 : ((ws.map nodesOf).flatten ++ (nodesOf w ++ nodesOf acc)).Perm
        ((nodesOf w ++ (ws.map nodesOf).flatten) ++ nodesOf acc) := by
      rw [← List.append_assoc]
      exact List.perm_append_comm.append_right _
    have h4 := (h1.trans h2).trans h3
    exact h4

theorem accumT_heapOrd {cmp : T → T → Bool} {vals : Nat → T}
    (hasymm : ∀ a b, cmp a b = true → cmp b a = false) :
    ∀ (ws : List HTree) (acc : HTree), (∀ t ∈ ws, heapOrd cmp vals t) →
      heapOrd cmp vals acc → heapOrd cmp vals (accumT cmp vals ws acc)
  | [], acc => by intro _ hacc; exact hacc
  | w :: ws, acc => by
    intro h hacc
    exact accumT_heapOrd hasymm ws _ (fun t ht => h t (by simp [ht]))
      (heapOrd_meldT hasymm (h w (by simp)) hacc)

/-! ## Melding at the arena level -/

theorem nodeAt_oob {data : List Node} {i : Nat} (h : data.length ≤ i) :
    nodeAt data i = deadNode := by
  rw [nodeAt, List.getD_eq_getElem?_getD, List.getElem?_eq_none h]
  rfl

theorem nodup_append_ne {l1 l2 : List Nat} (h : (l1 ++ l2).Nodup) {a : Nat}
    (ha : a ∈ l1) {b : Nat} (hb : b ∈ l2) : b ≠ a := by
  intro hba
  subst hba
  exact absurd ha (List.disjoint_of_nodup_append h |> List.disjoint_right.1 <| hb)

/-- Representation of one source-level `merge(loser, winner)` call, where
the loser root's `left_sibling` has been cleared and the two trees are
disjoint: the result represents `addChild winner loser`, the winner root
only gains the new `child` link, and nothing outside the two trees
changes. -/
theorem reps_merge {data : List Node} {tw tl : HTree}
    (hbound : data.length < NONE)
    (hw : reps data tw) (hl : reps data tl)
    (hndw : (nodesOf tw).Nodup) (hndl : (nodesOf tl).Nodup)
    (hdisj : ∀ j ∈ nodesOf tl, j ∉ nodesOf tw)
    (hlls : (nodeAt data tl.rootIdx).left_sibling = NONE) :
    reps (mergeIdx data tl.rootIdx tw.rootIdx) (addChild tw tl) ∧
    nodeAt (mergeIdx data tl.rootIdx tw.rootIdx) tw.rootIdx =
      { nodeAt data tw.rootIdx with child := tl.rootIdx } ∧
    (∀ j, j ∉ nodesOf tl → j ∉ nodesOf tw →
      nodeAt (mergeIdx data tl.rootIdx tw.rootIdx) j = nodeAt data j) ∧
    (∀ j, (nodeAt (mergeIdx data tl.rootIdx tw.rootIdx) j).item_index =
      (nodeAt data j).item_index) ∧
    (mergeIdx data tl.rootIdx tw.rootIdx).length = data.length := by
  cases tw with
  | node y csw =>
  have hroot_w : (HTree.node y csw).rootIdx = y := rfl
  rw [hroot_w]
  set x := tl.rootIdx with hxdef
  have hxmem : x ∈ nodesOf tl := rootIdx_mem_nodesOf tl
  have hymem : y ∈ nodesOf (HTree.node y csw) :=
    rootIdx_mem_nodesOf (HTree.node y csw)
  have hx : x < data.length := reps_nodes_lt data tl hl x hxmem
  have hxnmem : x ∉ nodesOf (HTree.node y csw) := hdisj x hxmem
  have hxy : x ≠ y := fun he => hxnmem (he ▸ hymem)
  have hwrep := hw
  simp only [reps] at hwrep
  obtain ⟨hylt, hyii, hychain, hcsw⟩ := hwrep
  have htl_nodes_lt : ∀ j ∈ nodesOf tl, j < data.length :=
    reps_nodes_lt data tl hl
  have htw_nodes_lt : ∀ j ∈ nodesOf (HTree.node y csw), j < data.length :=
    reps_nodes_lt data _ hw
  -- the winner's current child handle
  have hcspec : (nodeAt data y).child = NONE ∨
      ((nodeAt data y).child ≠ NONE ∧ (nodeAt data y).child < data.length ∧
        (nodeAt data y).child ≠ x ∧ (nodeAt data y).child ≠ y) := by
    cases csw with
    | nil => exact Or.inl hychain
    | cons t0 restw =>
      obtain ⟨hc0, _, _, _⟩ := hychain
      have hc0mem : (nodeAt data y).child ∈ nodesOf (HTree.node y (t0 :: restw)) := by
        rw [hc0]
        exact mem_nodesOf_of_child y (List.mem_cons_self t0 restw)
          (rootIdx_mem_nodesOf t0)
      have hclt : (nodeAt data y).child < data.length := htw_nodes_lt _ hc0mem
      refine Or.inr ⟨by omega, hclt, ?_, ?_⟩
      · intro he; exact hxnmem (he ▸ hc0mem)
      · intro he
        rw [hc0] at he
        exact nodup_root_notmem hndw (List.mem_flatten.2
          ⟨nodesOf t0, List.mem_map_of_mem nodesOf (List.mem_cons_self t0 restw),
            he ▸ rootIdx_mem_nodesOf t0⟩)
  obtain ⟨sx, sy, sc, sframe, slen⟩ :=
    mergeIdx_spec data x y hxy hx hylt hcspec
  have hcmem : ∀ hne : (nodeAt data y).child ≠ NONE,
      (nodeAt data y).child ∈ (csw.map nodesOf).flatten := by
    intro hne
    cases csw with
    | nil => exact absurd hychain hne
    | cons t0 restw =>
      obtain ⟨hc0, _, _, _⟩ := hychain
      rw [hc0]
      exact List.mem_flatten.2
        ⟨nodesOf t0, List.mem_map_of_mem nodesOf (List.mem_cons_self t0 restw),
          rootIdx_mem_nodesOf t0⟩
  -- frame for everything outside the two trees
  have hframe : ∀ j, j ∉ nodesOf tl → j ∉ nodesOf (HTree.node y csw) →
      nodeAt (mergeIdx data x y) j = nodeAt data j := by
    intro j hjl hjw
    have hjx : j ≠ x := fun he => hjl (he ▸ hxmem)
    have hjy : j ≠ y := fun he => hjw (he ▸ hymem)
    by_cases hjc : j = (nodeAt data y).child
    · by_cases hcn : (nodeAt data y).child = NONE
      · -- j = NONE: both reads are out of range
        rw [hjc, hcn, nodeAt_oob (show (mergeIdx data x y).length ≤ NONE by
          rw [slen]; omega), nodeAt_oob (show data.length ≤ NONE by omega)]
      · exact absurd (mem_nodesOf_node.2 (by
          rcases List.mem_flatten.1 (hcmem hcn) with ⟨l, hlm, hml⟩
          simp only [List.mem_map] at hlm
          obtain ⟨t', ht', rfl⟩ := hlm
          exact Or.inr ⟨t', ht', hjc ▸ hml⟩)) hjw
    · exact sframe j hjx hjy hjc
  -- item_index of every record is untouched
  have hii : ∀ j, (nodeAt (mergeIdx data x y) j).item_index =
      (nodeAt data j).item_index := by
    intro j
    by_cases hjx : j = x
    · rw [hjx, sx]
    · by_cases hjy : j = y
      · rw [hjy, sy]
      · by_cases hjc : j = (nodeAt data y).child
        · by_cases hcn : (nodeAt data y).child = NONE
          · rw [hjc, hcn, nodeAt_oob (show (mergeIdx data x y).length ≤ NONE by
              rw [slen]; omega), nodeAt_oob (show data.length ≤ NONE by omega)]
          · rw [hjc, sc hcn]
        · rw [sframe j hjx hjy hjc]
  refine ⟨?_, sy, hframe, hii, slen⟩
  -- the representation of the new tree
  simp only [addChild, reps]
  have hchild_new : (nodeAt (mergeIdx data x y) y).child = x := by rw [sy]
  refine ⟨by omega, by rw [hii y]; exact hyii, ?_, ?_⟩
  · -- the child chain of the winner: x followed by the old chain
    rw [hchild_new]
    simp only [List.map_cons]
    refine ⟨rfl, by rw [sx], by rw [sx]; exact hlls, ?_⟩
    rw [sx]
    dsimp only
    -- remaining handle is the old child of y
    cases csw with
    | nil =>
      simp only [List.map_nil]
      exact hychain
    | cons t0 restw =>
      obtain ⟨hc0, hp0, hl0, hrest0⟩ := hychain
      have hcne : (nodeAt data y).child ≠ NONE := by
        rw [hc0]
        have : t0.rootIdx < data.length := htw_nodes_lt _
          (mem_nodesOf_of_child y (List.mem_cons_self t0 restw)
            (rootIdx_mem_nodesOf t0))
        omega
      have hscn := sc hcne
      simp only [List.map_cons]
      have hc0' : (nodeAt data y).child = t0.rootIdx := hc0
      refine ⟨hc0', ?_, ?_, ?_⟩
      · rw [← hc0', hscn]; exact hc0' ▸ hp0
      · rw [← hc0', hscn]
      · -- the tail of the old chain is untouched
        rw [← hc0', hscn]
        dsimp only
        rw [hc0']
        refine chainSeg_congr hrest0 ?_
        intro j hj
        simp only [List.mem_map] at hj
        obtain ⟨t', ht', rfl⟩ := hj
        have hjmem : t'.rootIdx ∈ ((t0 :: restw).map nodesOf).flatten := by
          refine List.mem_flatten.2 ⟨nodesOf t', ?_, rootIdx_mem_nodesOf t'⟩
          exact List.mem_map_of_mem nodesOf (List.mem_cons_of_mem t0 ht')
        have hjw : t'.rootIdx ∈ nodesOf (HTree.node y (t0 :: restw)) := by
          rw [nodesOf_node]; exact List.mem_cons_of_mem y hjmem
        have hjx : t'.rootIdx ≠ x := fun he => hxnmem (he ▸ hjw)
        have hjy : t'.rootIdx ≠ y := fun he =>
          nodup_root_notmem hndw (he ▸ hjmem)
        have hjc : t'.rootIdx ≠ (nodeAt data y).child := by
          rw [hc0']
          have hnd2 := (List.nodup_cons.1 (nodesOf_node y (t0 :: restw) ▸ hndw)).2
          simp only [List.map_cons, List.flatten_cons] at hnd2
          exact nodup_append_ne hnd2 (rootIdx_mem_nodesOf t0)
            (List.mem_flatten.2 ⟨nodesOf t', List.mem_map_of_mem nodesOf ht',
              rootIdx_mem_nodesOf t'⟩)
        exact sframe _ hjx hjy hjc
  · -- all child trees remain represented
    intro t' ht'
    rcases List.mem_cons.1 ht' with rfl | ht'
    · -- the loser tree
      have hcw : (nodeAt data y).child ≠ NONE →
          (nodeAt data y).child ∈ nodesOf (HTree.node y csw) := by
        intro hne
        rw [nodesOf_node]
        exact List.mem_cons_of_mem y (hcmem hne)
      refine reps_congr (le_of_eq slen.symm) t' hl hndl (by rw [← hxdef, sx])
        (by rw [← hxdef, sx]) ?_
      intro j hj hjr
      have hjw : j ∉ nodesOf (HTree.node y csw) := hdisj j hj
      have hjy : j ≠ y := fun he => hjw (he ▸ hymem)
      by_cases hjc : j = (nodeAt data y).child
      · by_cases hcn : (nodeAt data y).child = NONE
        · exact absurd (hjc.trans hcn) (by
            have := htl_nodes_lt j hj
            omega)
        · exact absurd (hjc ▸ hcw hcn) hjw
      · exact sframe j hjr hjy hjc
    · -- the winner's old child trees
      have hrep' := hcsw t' ht'
      have hndt' : (nodesOf t').Nodup := nodup_nodesOf_child hndw ht'
      have hmem_t' : ∀ j ∈ nodesOf t', j ∈ (csw.map nodesOf).flatten :=
        fun j hj => List.mem_flatten.2
          ⟨nodesOf t', List.mem_map_of_mem nodesOf ht', hj⟩
      have hmem_t'w : ∀ j ∈ nodesOf t', j ∈ nodesOf (HTree.node y csw) :=
        fun j hj => mem_nodesOf_of_child y ht' hj
      have hne_x : ∀ j ∈ nodesOf t', j ≠ x :=
        fun j hj he => hxnmem (he ▸ hmem_t'w j hj)
      have hne_y : ∀ j ∈ nodesOf t', j ≠ y :=
        fun j hj he => nodup_root_notmem hndw (he ▸ hmem_t' j hj)
      refine reps_congr (le_of_eq slen.symm) t' hrep' hndt' ?_ ?_ ?_
      · by_cases hrc : t'.rootIdx = (nodeAt data y).child
        · have hcne : (nodeAt data y).child ≠ NONE := by
            rw [← hrc]
            have := htw_nodes_lt _ (hmem_t'w _ (rootIdx_mem_nodesOf t'))
            omega
          rw [hrc, sc hcne]
        · rw [sframe _ (hne_x _ (rootIdx_mem_nodesOf t'))
            (hne_y _ (rootIdx_mem_nodesOf t')) hrc]
      · rw [hii]
      · intro j hj hjr
        by_cases hjc : j = (nodeAt data y).child
        · -- the old first child's root: only reachable as a root
          cases csw with
          | nil => exact absurd ht' (List.not_mem_nil t')
          | cons t0 restw =>
            obtain ⟨hc0, _, _, _⟩ := hychain
            rcases List.mem_cons.1 ht' with rfl | ht0
            · -- t' = t0: j = c = root of t0 contradicts j ≠ root
              exact absurd (hjc.trans hc0) hjr
            · -- t' in the tail: disjoint from t0
              have hnd2 := (List.nodup_cons.1
                (nodesOf_node y (t0 :: restw) ▸ hndw)).2
              simp only [List.map_cons, List.flatten_cons] at hnd2
              have := nodup_append_ne hnd2 (rootIdx_mem_nodesOf t0)
                (List.mem_flatten.2 ⟨nodesOf t', List.mem_map_of_mem nodesOf ht0, hj⟩)
              exact absurd (hjc.trans hc0) this
        · exact sframe j (hne_x j hj) (hne_y j hj) hjc

theorem NONE_pos : 0 < NONE := by decide

theorem nodeAt_append_left {data : List Node} (ext : List Node) {j : Nat}
    (h : j < data.length) : nodeAt (data ++ ext) j = nodeAt data j := by
  simp [nodeAt, List.getD_eq_getElem?_getD, List.getElem?_append_left h]

theorem nodeAt_append_self {data : List Node} (nn : Node) :
    nodeAt (data ++ [nn]) data.length = nn := by
  simp [nodeAt, List.getD_eq_getElem?_getD]

/-- One source-level compare-and-merge step (the same shape occurs in
`push`, `update`, and both passes of `pop`): whichever root is preferred by
`compare_` becomes the root of the meld. -/
theorem meld_call (P : HeapParams T) [Inhabited T] (elements : List T)
    {data : List Node} {t1 t2 : HTree}
    (hasymm : ∀ a b, P.cmp a b = true → P.cmp b a = false)
    (hbound : data.length < NONE)
    (h1 : reps data t1) (h2 : reps data t2)
    (hnd1 : (nodesOf t1).Nodup) (hnd2 : (nodesOf t2).Nodup)
    (hdisj : ∀ j ∈ nodesOf t1, j ∉ nodesOf t2)
    (hls1 : (nodeAt data t1.rootIdx).left_sibling = NONE)
    (hls2 : (nodeAt data t2.rootIdx).left_sibling = NONE) :
    reps (if P.cmp (valAt elements data t1.rootIdx)
        (valAt elements data t2.rootIdx)
      then mergeIdx data t2.rootIdx t1.rootIdx
      else mergeIdx data t1.rootIdx t2.rootIdx)
      (meldT P.cmp (valAt elements data) t1 t2) ∧
    (meldT P.cmp (valAt elements data) t1 t2).rootIdx =
      (if P.cmp (valAt elements data t1.rootIdx)
        (valAt elements data t2.rootIdx) then t1.rootIdx else t2.rootIdx) ∧
    (∀ fidx, fidx = (if P.cmp (valAt elements data t1.rootIdx)
        (valAt elements data t2.rootIdx)
      then mergeIdx data t2.rootIdx t1.rootIdx
      else mergeIdx data t1.rootIdx t2.rootIdx) →
      ((nodeAt fidx (meldT P.cmp (valAt elements data) t1 t2).rootIdx).parent =
        (nodeAt data (meldT P.cmp (valAt elements data) t1 t2).rootIdx).parent ∧
      (nodeAt fidx (meldT P.cmp (valAt elements data) t1 t2).rootIdx).left_sibling =
        (nodeAt data (meldT P.cmp (valAt elements data) t1 t2).rootIdx).left_sibling ∧
      (nodeAt fidx (meldT P.cmp (valAt elements data) t1 t2).rootIdx).right_sibling =
        (nodeAt data (meldT P.cmp (valAt elements data) t1 t2).rootIdx).right_sibling)) ∧
    (∀ j, j ∉ nodesOf t1 → j ∉ nodesOf t2 →
      nodeAt (if P.cmp (valAt elements data t1.rootIdx)
          (valAt elements data t2.rootIdx)
        then mergeIdx data t2.rootIdx t1.rootIdx
        else mergeIdx data t1.rootIdx t2.rootIdx) j = nodeAt data j) ∧
    (∀ j, (nodeAt (if P.cmp (valAt elements data t1.rootIdx)
          (valAt elements data t2.rootIdx)
        then mergeIdx data t2.rootIdx t1.rootIdx
        else mergeIdx data t1.rootIdx t2.rootIdx) j).item_index =
      (nodeAt data j).item_index) ∧
    (if P.cmp (valAt elements data t1.rootIdx)
        (valAt elements data t2.rootIdx)
      then mergeIdx data t2.rootIdx t1.rootIdx
      else mergeIdx data t1.rootIdx t2.rootIdx).length = data.length ∧
    (heapOrd P.cmp (valAt elements data) t1 →
      heapOrd P.cmp (valAt elements data) t2 →
      heapOrd P.cmp (valAt elements data)
        (meldT P.cmp (valAt elements data) t1 t2)) := by
  have hdisj2 : ∀ j ∈ nodesOf t2, j ∉ nodesOf t1 :=
    fun j hj hj1 => hdisj j hj1 hj
  by_cases hcmp : P.cmp (valAt elements data t1.rootIdx)
      (valAt elements data t2.rootIdx) = true
  · obtain ⟨hrep, hroot, hframe, hii, hlen⟩ :=
      reps_merge hbound h1 h2 hnd1 hnd2 hdisj2 hls2
    have hmeld : meldT P.cmp (valAt elements data) t1 t2 = addChild t1 t2 := by
      unfold meldT
      rw [if_pos hcmp]
    simp only [if_pos hcmp, hmeld]
    have hrootidx : (addChild t1 t2).rootIdx = t1.rootIdx := rootIdx_addChild t1 t2
    refine ⟨hrep, hrootidx, ?_, fun j hj1 hj2 => hframe j hj2 hj1, hii, hlen, ?_⟩
    · intro fidx hfidx
      subst hfidx
      rw [hrootidx, hroot]
      exact ⟨rfl, rfl, rfl⟩
    · intro ho1 ho2
      rw [← hmeld]
      exact heapOrd_meldT hasymm ho1 ho2
  · have hcmpf : P.cmp (valAt elements data t1.rootIdx)
        (valAt elements data t2.rootIdx) = false := by
      revert hcmp
      cases P.cmp (valAt elements data t1.rootIdx)
        (valAt elements data t2.rootIdx) <;> simp
    obtain ⟨hrep, hroot, hframe, hii, hlen⟩ :=
      reps_merge hbound h2 h1 hnd2 hnd1 hdisj hls1
    have hmeld : meldT P.cmp (valAt elements data) t1 t2 = addChild t2 t1 := by
      unfold meldT
      rw [if_neg hcmp]
    simp only [if_neg hcmp, hmeld]
    have hrootidx : (addChild t2 t1).rootIdx = t2.rootIdx := rootIdx_addChild t2 t1
    refine ⟨hrep, hrootidx, ?_, fun j hj1 hj2 => hframe j hj1 hj2, hii, hlen, ?_⟩
    · intro fidx hfidx
      subst hfidx
      rw [hrootidx, hroot]
      exact ⟨rfl, rfl, rfl⟩
    · intro ho1 ho2
      rw [← hmeld]
      exact heapOrd_meldT hasymm ho1 ho2

/-! ## More locator map lemmas -/

theorem writeMap_of_lookup_none (P : HeapParams T) {m : HMap T} {x : T}
    (h : lookupMap P m x = none) (v : Nat) :
    writeMap P m x v = m ++ [(x, v)] := by
  induction m with
  | nil => rfl
  | cons e rest ih =>
    obtain ⟨k, i⟩ := e
    by_cases hk : P.keyeq x k
    · simp [lookupMap, hk] at h
    · simp only [Bool.not_eq_true] at hk
      simp only [lookupMap, hk, Bool.false_eq_true, if_false] at h
      simp [writeMap, hk, ih h]

theorem lookupMap_append_some (P : HeapParams T) {m : HMap T} {x : T} {i : Nat}
    (h : lookupMap P m x = some i) (m2 : HMap T) :
    lookupMap P (m ++ m2) x = some i := by
  induction m with
  | nil => simp [lookupMap] at h
  | cons e rest ih =>
    obtain ⟨k, j⟩ := e
    by_cases hk : P.keyeq x k
    · simp only [lookupMap, hk, if_true] at h
      simpa [lookupMap, hk] using h
    · simp only [Bool.not_eq_true] at hk
      simp only [lookupMap, hk, Bool.false_eq_true, if_false] at h
      simpa [lookupMap, hk] using ih h

theorem lookupMap_append_none (P : HeapParams T) {m : HMap T} {x : T}
    (h : lookupMap P m x = none) (m2 : HMap T) :
    lookupMap P (m ++ m2) x = lookupMap P m2 x := by
  induction m with
  | nil => rfl
  | cons e rest ih =>
    obtain ⟨k, j⟩ := e
    by_cases hk : P.keyeq x k
    · simp [lookupMap, hk] at h
    · simp only [Bool.not_eq_true] at hk
      simp only [lookupMap, hk, Bool.false_eq_true, if_false] at h
      simpa [lookupMap, hk] using ih h

/-! ## Valuation helper lemmas -/

theorem valAt_append {elements : List T} [Inhabited T] {data : List Node}
    (v : T) (ext : List Node) {j : Nat} (hjlt : j < data.length)
    (hii : (nodeAt data j).item_index < elements.length) :
    valAt (elements ++ [v]) (data ++ ext) j = valAt elements data j := by
  rw [valAt, valAt, nodeAt_append_left ext hjlt, List.getD_append _ _ _ _ hii]

theorem valAt_congr_ii {elements : List T} [Inhabited T]
    {data data2 : List Node} {j : Nat}
    (h : (nodeAt data2 j).item_index = (nodeAt data j).item_index) :
    valAt elements data2 j = valAt elements data j := by
  rw [valAt, valAt, h]

/-! ## Preservation of well-formedness: push -/

theorem pushOp_empty_eq [Inhabited T] (P : HeapParams T) (s : State T) (v : T)
    (h : s.top = NONE) :
    pushOp P s v = ⟨s.elements ++ [v],
      s.data ++ [⟨s.elements.length, NONE, NONE, NONE, NONE⟩],
      s.data.length, writeMap P s.map v s.data.length⟩ := by
  unfold pushOp
  dsimp only
  rw [if_pos h]
  simp

theorem pushOp_tree_eq [Inhabited T] (P : HeapParams T) (s : State T) (v : T)
    (h : ¬ s.top = NONE) :
    pushOp P s v = ⟨s.elements ++ [v],
      (if P.cmp (valAt (s.elements ++ [v])
            (s.data ++ [⟨s.elements.length, NONE, NONE, NONE, NONE⟩])
            s.data.length)
          (valAt (s.elements ++ [v])
            (s.data ++ [⟨s.elements.length, NONE, NONE, NONE, NONE⟩]) s.top)
        then mergeIdx (s.data ++ [⟨s.elements.length, NONE, NONE, NONE, NONE⟩])
          s.top s.data.length
        else mergeIdx (s.data ++ [⟨s.elements.length, NONE, NONE, NONE, NONE⟩])
          s.data.length s.top),
      (if P.cmp (valAt (s.elements ++ [v])
            (s.data ++ [⟨s.elements.length, NONE, NONE, NONE, NONE⟩])
            s.data.length)
          (valAt (s.elements ++ [v])
            (s.data ++ [⟨s.elements.length, NONE, NONE, NONE, NONE⟩]) s.top)
        then s.data.length else s.top),
      writeMap P s.map v s.data.length⟩ := by
  unfold pushOp
  dsimp only
  rw [if_neg h]
  simp only [List.length_append, List.length_cons, List.length_nil,
    Nat.add_zero, Nat.add_sub_cancel]
  split <;> rfl

theorem nodesOf_leaf (n : Nat) : nodesOf (HTree.node n []) = [n] := by
  rw [nodesOf_node]; rfl

theorem heapOrd_leaf {cmp : T → T → Bool} {vals : Nat → T} (n : Nat) :
    heapOrd cmp vals (HTree.node n []) := by
  simp only [heapOrd]
  intro t ht
  cases ht

theorem reps_leaf {data : List Node} {n : Nat} (h : n < data.length)
    (hii : (nodeAt data n).item_index ≠ NONE)
    (hchild : (nodeAt data n).child = NONE) :
    reps data (HTree.node n []) := by
  simp only [reps, List.map_nil]
  exact ⟨h, hii, hchild, fun t ht => absurd ht (List.not_mem_nil t)⟩

theorem push_WF [Inhabited T] {P : HeapParams T} (L : LawfulParams P)
    {s : State T} {v : T} (hWF : WF P s) (hpre : pushPre P s v = true)
    (hroom : s.data.length + 1 < NONE) :
    WF P (pushOp P s v) ∧ (pushOp P s v).elements = s.elements ++ [v] ∧
      (pushOp P s v).data.length = s.data.length + 1 := by
  have hlookup : lookupMap P s.map v = none := by
    simpa [pushPre, Option.isNone_iff_eq_none] using hpre
  have hdlen := data_length_pushOp P s v
  rcases hWF with ⟨htop, hE⟩ | ⟨t, hT⟩
  · -- push into the empty heap
    obtain ⟨hel, htopN, hmap, hbound, hdead⟩ := hE
    rw [pushOp_empty_eq P s v htop]
    rw [pushOp_empty_eq P s v htop] at hdlen
    refine ⟨Or.inr ⟨HTree.node s.data.length [], ?_⟩, rfl, by simp⟩
    have hnn := @nodeAt_append_self s.data
      (⟨s.elements.length, NONE, NONE, NONE, NONE⟩ : Node)
    have helz : s.elements.length = 0 := by rw [hel]; rfl
    have hmapw : writeMap P s.map v s.data.length = [(v, s.data.length)] := by
      rw [hmap]; rfl
    refine ⟨by simp; omega, by dsimp only; omega, rfl, ?_, ?_, ?_, ?_, ?_, ?_,
      ?_, ?_, ?_, ?_, ?_, ?_, ?_⟩
    · exact reps_leaf (by simp) (by rw [hnn]; dsimp only; omega)
        (by rw [hnn])
    · dsimp only
      rw [hnn]
    · dsimp only
      rw [hnn]
    · dsimp only
      rw [hnn]
    · rw [nodesOf_leaf]
      exact List.nodup_singleton _
    · intro i hilt himem
      rw [nodesOf_leaf, List.mem_singleton] at himem
      have hilt' : i < s.data.length := by
        simp only [List.length_append, List.length_cons, List.length_nil,
          Nat.add_zero] at hilt
        omega
      rw [nodeAt_append_left _ hilt']
      exact hdead i hilt'
    · intro i hi
      rw [nodesOf_leaf, List.mem_singleton] at hi
      subst hi
      rw [hnn]
      simp
    · intro i hi j hj _
      rw [nodesOf_leaf, List.mem_singleton] at hi hj
      rw [hi, hj]
    · intro sl hsl
      refine ⟨s.data.length, by rw [nodesOf_leaf]; exact List.mem_singleton_self _, ?_⟩
      rw [hnn]
      dsimp only
      simp only [List.length_append, List.length_cons, List.length_nil,
        Nat.add_zero] at hsl
      omega
    · dsimp only
      simp [helz]
    · intro e he
      rw [hmapw, List.mem_singleton] at he
      subst he
      refine ⟨by rw [nodesOf_leaf]; exact List.mem_singleton_self _, ?_⟩
      dsimp only
      rw [valAt, hnn]
      dsimp only
      rw [List.getD_append_right _ _ _ _ (Nat.le_refl _), Nat.sub_self]
      exact L.krefl v
    · intro i hi
      rw [nodesOf_leaf, List.mem_singleton] at hi
      subst hi
      rw [hmapw]
      dsimp only
      rw [valAt, hnn]
      dsimp only
      rw [List.getD_append_right _ _ _ _ (Nat.le_refl _), Nat.sub_self]
      simp only [lookupMap, List.getD_cons_zero]
      rw [if_pos (L.krefl v)]
    · exact heapOrd_leaf _
  · -- push into a non-empty heap
    have htop : ¬ s.top = NONE := hT.topne
    have hn : s.data.length < NONE := by omega
    set n := s.data.length with hndef
    set nn : Node := ⟨s.elements.length, NONE, NONE, NONE, NONE⟩ with hnndef
    set e1 := s.elements ++ [v] with he1def
    set d1 := s.data ++ [nn] with hd1def
    have hd1len : d1.length = s.data.length + 1 := by simp [hd1def]
    have hnn : nodeAt d1 n = nn := nodeAt_append_self nn
    have helen := hT.elen
    have ht_nodes_lt : ∀ j ∈ nodesOf t, j < s.data.length :=
      reps_nodes_lt s.data t hT.rep
    have hrep1 : reps d1 t := by
      refine reps_congr (by omega) t hT.rep hT.nodup ?_ ?_ ?_
      · rw [nodeAt_append_left _ (ht_nodes_lt _ (rootIdx_mem_nodesOf t))]
      · rw [nodeAt_append_left _ (ht_nodes_lt _ (rootIdx_mem_nodesOf t))]
      · intro j hj _
        rw [nodeAt_append_left _ (ht_nodes_lt j hj)]
    have hleafrep : reps d1 (HTree.node n []) :=
      reps_leaf (by omega) (by rw [hnn]; dsimp only; omega) (by rw [hnn])
    have hvals_keep : ∀ j ∈ nodesOf t, valAt e1 d1 j = valAt s.elements s.data j := by
      intro j hj
      exact valAt_append v [nn] (ht_nodes_lt j hj) (hT.slots_lt j hj)
    have hvaln : valAt e1 d1 n = v := by
      rw [valAt, hnn]
      dsimp only
      rw [he1def, List.getD_append_right _ _ _ _ (Nat.le_refl _), Nat.sub_self]
      rfl
    have hdisj : ∀ j ∈ nodesOf (HTree.node n []), j ∉ nodesOf t := by
      intro j hj hjt
      rw [nodesOf_leaf, List.mem_singleton] at hj
      subst hj
      exact absurd (ht_nodes_lt _ hjt) (by omega)
    have hcall := @meld_call T P _ e1 d1 (HTree.node n [])
      t L.asymm (by omega) hleafrep hrep1
      (by rw [nodesOf_leaf]; exact List.nodup_singleton _) hT.nodup hdisj
      (by show (nodeAt d1 n).left_sibling = NONE; rw [hnn]) (by
        rw [nodeAt_append_left _ (ht_nodes_lt _ (rootIdx_mem_nodesOf t)),
          hT.root_eq]
        exact hT.root_ls)
    have hr1 : (HTree.node n ([] : List HTree)).rootIdx = n := rfl
    have hr2 : t.rootIdx = s.top := hT.root_eq
    rw [hr1, hr2] at hcall
    obtain ⟨hrep, hroot, hctx, hframe, hii, hlen, hordm⟩ := hcall
    rw [pushOp_tree_eq P s v htop]
    set tnew := meldT P.cmp (valAt e1 d1) (HTree.node n []) t with htnewdef
    set fdata := (if P.cmp (valAt e1 d1 n) (valAt e1 d1 s.top)
      then mergeIdx d1 s.top n else mergeIdx d1 n s.top) with hfdatadef
    set ftop := (if P.cmp (valAt e1 d1 n) (valAt e1 d1 s.top)
      then n else s.top) with hftopdef
    have hperm : (nodesOf tnew).Perm (n :: nodesOf t) := by
      have := nodesOf_meldT P.cmp (valAt e1 d1) (HTree.node n []) t
      rw [nodesOf_leaf] at this
      exact this
    have hmemnew : ∀ j, j ∈ nodesOf tnew ↔ (j = n ∨ j ∈ nodesOf t) := by
      intro j
      rw [hperm.mem_iff, List.mem_cons]
    have hvals_f : ∀ j, valAt e1 fdata j = valAt e1 d1 j :=
      fun j => valAt_congr_ii (hii j)
    have hfn : ftop = tnew.rootIdx := hroot.symm
    have hroot_lt : tnew.rootIdx < fdata.length :=
      reps_nodes_lt fdata tnew hrep _ (rootIdx_mem_nodesOf tnew)
    have hrootcase : tnew.rootIdx = n ∨ tnew.rootIdx = s.top := by
      rcases rootIdx_meldT_cases P.cmp (valAt e1 d1) (HTree.node n []) t with hc | hc
      · exact Or.inl hc
      · exact Or.inr (hc.trans hr2)
    have htoplt : s.top < s.data.length := by
      rw [← hr2]
      exact ht_nodes_lt _ (rootIdx_mem_nodesOf t)
    have hd1root : ∀ f : Node → Nat,
        (f (nodeAt d1 tnew.rootIdx) = f nn ∧ tnew.rootIdx = n) ∨
        (f (nodeAt d1 tnew.rootIdx) = f (nodeAt s.data s.top) ∧
          tnew.rootIdx = s.top) := by
      intro f
      rcases hrootcase with hc | hc
      · exact Or.inl ⟨by rw [hc, hnn], hc⟩
      · exact Or.inr ⟨by rw [hc, nodeAt_append_left _ htoplt], hc⟩
    have hctx' := hctx fdata hfdatadef
    have hfmem : ∀ j, j ∉ nodesOf tnew →
        j ≠ n → j ∉ nodesOf t := by
      intro j hj hjn hjt
      exact hj ((hmemnew j).2 (Or.inr hjt))
    have hframe' : ∀ j, j ≠ n → j ∉ nodesOf t →
        nodeAt fdata j = nodeAt d1 j := by
      intro j hjn hjt
      exact hframe j (by rw [nodesOf_leaf]; simpa using hjn) hjt
    have hout : ∀ j, j ≠ n → j ∉ nodesOf t → j < s.data.length →
        nodeAt fdata j = nodeAt s.data j := by
      intro j hjn hjt hjl
      rw [hframe' j hjn hjt, nodeAt_append_left _ hjl]
    have hii1 : ∀ j, j ∈ nodesOf t →
        (nodeAt fdata j).item_index = (nodeAt s.data j).item_index := by
      intro j hj
      rw [hii j, nodeAt_append_left _ (ht_nodes_lt j hj)]
    have hiin : (nodeAt fdata n).item_index = s.elements.length := by
      rw [hii n, hnn]
    have he1len : e1.length = s.elements.length + 1 := by simp [he1def]
    refine ⟨Or.inr ⟨tnew, ?_⟩, rfl, by dsimp only; omega⟩
    refine ⟨by dsimp only; omega, ?_, hroot.trans rfl, hrep, ?_, ?_, ?_, ?_,
      ?_, ?_, ?_, ?_, by
        dsimp only
        simp only [List.length_append, List.length_cons, List.length_nil,
          Nat.add_zero]
        omega, ?_, ?_, ?_⟩
    · -- top is not the sentinel
      dsimp only
      rw [hfn]
      omega
    · -- root parent
      dsimp only
      rw [hfn, hctx'.1]
      rcases hd1root Node.parent with ⟨he, _⟩ | ⟨he, _⟩
      · rw [he]
      · rw [he]; exact hT.root_parent
    · -- root left sibling
      dsimp only
      rw [hfn, hctx'.2.1]
      rcases hd1root Node.left_sibling with ⟨he, _⟩ | ⟨he, _⟩
      · rw [he]
      · rw [he]; exact hT.root_ls
    · -- root right sibling
      dsimp only
      rw [hfn, hctx'.2.2]
      rcases hd1root Node.right_sibling with ⟨he, _⟩ | ⟨he, _⟩
      · rw [he]
      · rw [he]; exact hT.root_rs
    · -- nodup
      rw [hperm.nodup_iff]
      exact List.nodup_cons.2 ⟨fun hmem => absurd (ht_nodes_lt n hmem)
        (by omega), hT.nodup⟩
    · -- dead records
      intro i hilt himem
      dsimp only at hilt himem ⊢
      have hin : i ≠ n := fun he => himem ((hmemnew i).2 (Or.inl he))
      have hit : i ∉ nodesOf t := hfmem i himem hin
      have hislt : i < s.data.length := by
        rw [hlen, hd1len] at hilt
        omega
      rw [hout i hin hit hislt]
      exact hT.dead_clean i hislt hit
    · -- slots in range
      intro i hi
      dsimp only at hi ⊢
      rcases (hmemnew i).1 hi with rfl | hit
      · rw [hiin, he1len]; omega
      · rw [hii1 i hit, he1len]
        have := hT.slots_lt i hit
        omega
    · -- slots injective
      intro i hi j hj hij
      dsimp only at hi hj hij ⊢
      rcases (hmemnew i).1 hi with rfl | hit <;>
        rcases (hmemnew j).1 hj with rfl | hjt
      · rfl
      · rw [hiin, hii1 j hjt] at hij
        exact absurd (hij ▸ hT.slots_lt j hjt) (by omega)
      · rw [hiin, hii1 i hit] at hij
        exact absurd (hij ▸ hT.slots_lt i hit) (by omega)
      · rw [hii1 i hit, hii1 j hjt] at hij
        exact hT.slots_inj i hit j hjt hij
    · -- slots surjective
      intro sl hsl
      dsimp only at hsl ⊢
      rw [he1len] at hsl
      by_cases hse : sl = s.elements.length
      · exact ⟨n, (hmemnew n).2 (Or.inl rfl), by rw [hiin, hse]⟩
      · obtain ⟨i, hit, hisl⟩ := hT.slots_surj sl (by omega)
        exact ⟨i, (hmemnew i).2 (Or.inr hit), by rw [hii1 i hit]; exact hisl⟩
    · -- locator entries
      intro e he
      dsimp only at he ⊢
      rw [writeMap_of_lookup_none P hlookup] at he
      rcases List.mem_append.1 he with hold | hnew
      · obtain ⟨hmem, hkey⟩ := hT.map_entries e hold
        refine ⟨(hmemnew e.2).2 (Or.inr hmem), ?_⟩
        rw [hvals_f e.2, hvals_keep e.2 hmem]
        exact hkey
      · rw [List.mem_singleton] at hnew
        subst hnew
        refine ⟨(hmemnew n).2 (Or.inl rfl), ?_⟩
        rw [hvals_f n, hvaln]
        exact L.krefl v
    · -- locator resolution
      intro i hi
      dsimp only at hi ⊢
      rw [writeMap_of_lookup_none P hlookup]
      rcases (hmemnew i).1 hi with rfl | hit
      · rw [hvals_f n, hvaln,
          lookupMap_append_none P hlookup [(v, n)]]
        simp only [lookupMap]
        rw [if_pos (L.krefl v)]
      · rw [hvals_f i, hvals_keep i hit]
        exact lookupMap_append_some P (hT.map_resolves i hit) _
    · -- heap order
      dsimp only
      refine heapOrd_congr tnew (hordm (heapOrd_leaf n) ?_) ?_
      · exact heapOrd_congr t hT.ord (fun j hj => hvals_keep j hj)
      · intro j _
        exact hvals_f j

/-! ## Chain surgery lemmas (for the detach step of update) -/

theorem chainSeg_congr3 {data data2 : List Node} {q : Nat} :
    ∀ {h prev e : Nat} {js : List Nat},
      chainSeg data q h prev js e →
      (∀ j ∈ js, (nodeAt data2 j).parent = (nodeAt data j).parent ∧
        (nodeAt data2 j).left_sibling = (nodeAt data j).left_sibling ∧
        (nodeAt data2 j).right_sibling = (nodeAt data j).right_sibling) →
      chainSeg data2 q h prev js e := by
  intro h prev e js
  induction js generalizing h prev with
  | nil => intro hc _; exact hc
  | cons j rest ih =>
    intro hc hagree
    obtain ⟨hhd, hp, hl, hrest⟩ := hc
    obtain ⟨hjp, hjl, hjr⟩ := hagree j (List.mem_cons_self j rest)
    refine ⟨hhd, by rw [hjp]; exact hp, by rw [hjl]; exact hl, ?_⟩
    rw [hjr]
    exact ih hrest (fun j' hj' => hagree j' (List.mem_cons_of_mem j hj'))

theorem chainSeg_split {data : List Node} {q : Nat} (l1 : List Nat)
    {l2 : List Nat} {h prev e : Nat}
    (hc : chainSeg data q h prev (l1 ++ l2) e) :
    ∃ h2, chainSeg data q h prev l1 h2 ∧
      chainSeg data q h2 (l1.getLastD prev) l2 e := by
  induction l1 generalizing h prev with
  | nil => exact ⟨h, rfl, hc⟩
  | cons j rest ih =>
    obtain ⟨hhd, hp, hl, hrest⟩ := hc
    obtain ⟨h2, hs1, hs2⟩ := ih hrest
    refine ⟨h2, ⟨hhd, hp, hl, hs1⟩, ?_⟩
    cases rest with
    | nil => simpa using hs2
    | cons a b => simpa [List.getLastD_cons] using hs2

theorem chainSeg_glue {data : List Node} {q : Nat} (l1 : List Nat)
    {l2 : List Nat} {h prev h2 e : Nat}
    (hc1 : chainSeg data q h prev l1 h2)
    (hc2 : chainSeg data q h2 (l1.getLastD prev) l2 e) :
    chainSeg data q h prev (l1 ++ l2) e := by
  induction l1 generalizing h prev with
  | nil =>
    obtain rfl : h = h2 := hc1
    simpa using hc2
  | cons j rest ih =>
    obtain ⟨hhd, hp, hl, hrest⟩ := hc1
    refine ⟨hhd, hp, hl, ?_⟩
    refine ih hrest ?_
    cases rest with
    | nil => simpa using hc2
    | cons a b => simpa [List.getLastD_cons] using hc2

theorem chainSeg_set_end {data : List Node} {q : Nat} (l1 : List Nat)
    (hne : l1 ≠ []) {h prev h2 : Nat} (v : Nat)
    (hc : chainSeg data q h prev l1 h2) (hnd : l1.Nodup)
    (hlt : l1.getLast hne < data.length) :
    chainSeg (setRS data (l1.getLast hne) v) q h prev l1 v := by
  induction l1 generalizing h prev with
  | nil => exact absurd rfl hne
  | cons j rest ih =>
    obtain ⟨hhd, hp, hl, hrest⟩ := hc
    cases rest with
    | nil =>
      obtain rfl : (nodeAt data j).right_sibling = h2 := hrest
      simp only [List.getLast_singleton] at hlt ⊢
      refine ⟨hhd, ?_, ?_, ?_⟩
      · rw [nodeAt_setRS_self data j v hlt]; exact hp
      · rw [nodeAt_setRS_self data j v hlt]; exact hl
      · rw [nodeAt_setRS_self data j v hlt]; rfl
    | cons a rest2 =>
      have hlast_mem : (a :: rest2).getLast (by simp) ∈ a :: rest2 :=
        List.getLast_mem _
      have hjne : j ≠ (a :: rest2).getLast (by simp) := by
        intro he
        exact (List.nodup_cons.1 hnd).1 (he ▸ hlast_mem)
      have hlast_eq : (j :: a :: rest2).getLast (by simp) =
          (a :: rest2).getLast (by simp) := by
        rw [List.getLast_cons]
      rw [hlast_eq] at hlt ⊢
      refine ⟨hhd, ?_, ?_, ?_⟩
      · rw [nodeAt_setRS_other data _ v hjne]; exact hp
      · rw [nodeAt_setRS_other data _ v hjne]; exact hl
      · rw [nodeAt_setRS_other data _ v hjne]
        exact ih (by simp) hrest (List.nodup_cons.1 hnd).2 hlt

theorem setChild_oob {data : List Node} {i : Nat} (h : ¬ i < data.length)
    (v : Nat) : setChild data i v = data :=
  List.set_eq_of_length_le (by omega)

theorem setRS_oob {data : List Node} {i : Nat} (h : ¬ i < data.length)
    (v : Nat) : setRS data i v = data :=
  List.set_eq_of_length_le (by omega)

theorem setLS_oob {data : List Node} {i : Nat} (h : ¬ i < data.length)
    (v : Nat) : setLS data i v = data :=
  List.set_eq_of_length_le (by omega)

theorem setParent_oob {data : List Node} {i : Nat} (h : ¬ i < data.length)
    (v : Nat) : setParent data i v = data :=
  List.set_eq_of_length_le (by omega)

theorem setChild_ii (data : List Node) (a v j : Nat) :
    (nodeAt (setChild data a v) j).item_index = (nodeAt data j).item_index := by
  by_cases hj : j = a
  · subst hj
    by_cases hlt : j < data.length
    · rw [nodeAt_setChild_self data j v hlt]
    · rw [setChild_oob hlt]
  · rw [nodeAt_setChild_other data a v hj]

theorem setRS_ii (data : List Node) (a v j : Nat) :
    (nodeAt (setRS data a v) j).item_index = (nodeAt data j).item_index := by
  by_cases hj : j = a
  · subst hj
    by_cases hlt : j < data.length
    · rw [nodeAt_setRS_self data j v hlt]
    · rw [setRS_oob hlt]
  · rw [nodeAt_setRS_other data a v hj]

theorem setLS_ii (data : List Node) (a v j : Nat) :
    (nodeAt (setLS data a v) j).item_index = (nodeAt data j).item_index := by
  by_cases hj : j = a
  · subst hj
    by_cases hlt : j < data.length
    · rw [nodeAt_setLS_self data j v hlt]
    · rw [setLS_oob hlt]
  · rw [nodeAt_setLS_other data a v hj]

theorem setParent_ii (data : List Node) (a v j : Nat) :
    (nodeAt (setParent data a v) j).item_index = (nodeAt data j).item_index := by
  by_cases hj : j = a
  · subst hj
    by_cases hlt : j < data.length
    · rw [nodeAt_setParent_self data j v hlt]
    · rw [setParent_oob hlt]
  · rw [nodeAt_setParent_other data a v hj]

theorem getLastD_eq_getLast {l : List Nat} (d : Nat) (h : l ≠ []) :
    l.getLastD d = l.getLast h := by
  induction l with
  | nil => exact absurd rfl h
  | cons a rest ih =>
    cases rest with
    | nil => rfl
    | cons b r2 =>
      rw [List.getLastD_cons, List.getLast_cons (by simp)]
      exact ih (by simp)

theorem roots_nodup {r : Nat} {cs : List HTree}
    (hnd : (nodesOf (HTree.node r cs)).Nodup) :
    (cs.map HTree.rootIdx).Nodup := by
  induction cs with
  | nil => exact List.nodup_nil
  | cons tc rest ih =>
    rw [nodesOf_node] at hnd
    simp only [List.map_cons, List.flatten_cons] at hnd
    have h2 := (List.nodup_cons.1 hnd).2
    refine List.nodup_cons.2 ⟨?_, ?_⟩
    · intro hmem
      simp only [List.mem_map] at hmem
      obtain ⟨t', ht', heq⟩ := hmem
      exact nodup_append_ne h2 (rootIdx_mem_nodesOf tc)
        (List.mem_flatten.2 ⟨nodesOf t', List.mem_map_of_mem nodesOf ht',
          rootIdx_mem_nodesOf t'⟩) heq
    · refine ih ?_
      rw [nodesOf_node]
      refine List.nodup_cons.2 ⟨?_, (List.nodup_append.1 h2).2.1⟩
      intro hmem
      exact (List.nodup_cons.1 hnd).1 (List.mem_append_right _ hmem)

theorem roots_sub_nodes {r : Nat} {cs : List HTree} :
    ∀ j ∈ cs.map HTree.rootIdx, j ∈ nodesOf (HTree.node r cs) := by
  intro j hj
  simp only [List.mem_map] at hj
  obtain ⟨t', ht', rfl⟩ := hj
  exact mem_nodesOf_of_child r ht' (rootIdx_mem_nodesOf t')

theorem chainSeg_set_head_ls {data : List Node} {q : Nat} {y : Nat}
    {rest : List Nat} {h prev e : Nat}
    (hc : chainSeg data q h prev (y :: rest) e) (hy : y < data.length)
    (hynr : y ∉ rest) (p2 : Nat) :
    chainSeg (setLS data y p2) q h p2 (y :: rest) e := by
  obtain ⟨hhd, hp, hl, hrest⟩ := hc
  refine ⟨hhd, ?_, ?_, ?_⟩
  · rw [nodeAt_setLS_self data y p2 hy]; exact hp
  · rw [nodeAt_setLS_self data y p2 hy]
  · rw [nodeAt_setLS_self data y p2 hy]
    dsimp only
    refine chainSeg_congr hrest ?_
    intro j hj
    exact nodeAt_setLS_other data y p2 (fun he => hynr (he ▸ hj))

/-- In a represented tree, the `parent` field of every non-root node points
at another node of the tree (its tree parent). -/
theorem reps_parent_mem {data : List Node} :
    ∀ t : HTree, reps data t →
      ∀ j ∈ nodesOf t, j ≠ t.rootIdx → (nodeAt data j).parent ∈ nodesOf t
  | HTree.node i cs => by
    intro hrep j hj hne
    simp only [reps] at hrep
    obtain ⟨hilt, hine, hchain, hcs⟩ := hrep
    rcases mem_nodesOf_node.1 hj with rfl | ⟨tc, htc, hjt⟩
    · exact absurd rfl hne
    · by_cases hjr : j = tc.rootIdx
      · have hmem : j ∈ cs.map HTree.rootIdx := by
          rw [hjr]; exact List.mem_map_of_mem HTree.rootIdx htc
        have hpar := chainSeg_mem_parent hchain j hmem
        rw [hpar]
        exact rootIdx_mem_nodesOf (HTree.node i cs)
      · have hrec := reps_parent_mem tc (hcs tc htc) j hjt hjr
        exact mem_nodesOf_of_child i htc hrec
  termination_by t => sizeOf t
  decreasing_by
    have := List.sizeOf_lt_of_mem htc
    simp only [HTree.node.sizeOf_spec]
    omega

/-- Detaching a non-root node of a represented tree: the sibling-chain
surgery of `update` splits the arena representation into the tree with the
node's subtree removed and the subtree itself, preserves every
`item_index`, every record outside the tree, the arena length, the root's
context fields, and heap order of both parts. -/
theorem detach_subtree {T : Type} (cmp : T → T → Bool) (vals : Nat → T) :
    ∀ (t : HTree) (data : List Node) (i : Nat),
      reps data t → (nodesOf t).Nodup → heapOrd cmp vals t →
      i ∈ nodesOf t → i ≠ t.rootIdx → data.length < NONE →
      ∃ t' ti : HTree, ti.rootIdx = i ∧ t'.rootIdx = t.rootIdx ∧
        reps (detachArena data i) t' ∧ reps (detachArena data i) ti ∧
        (nodesOf t' ++ nodesOf ti).Perm (nodesOf t) ∧
        (∀ j, (nodeAt (detachArena data i) j).item_index =
          (nodeAt data j).item_index) ∧
        (∀ j, j ∉ nodesOf t → nodeAt (detachArena data i) j = nodeAt data j) ∧
        (∀ j ∈ nodesOf ti, nodeAt (detachArena data i) j = nodeAt data j) ∧
        (detachArena data i).length = data.length ∧
        (nodeAt (detachArena data i) t.rootIdx).parent =
          (nodeAt data t.rootIdx).parent ∧
        (nodeAt (detachArena data i) t.rootIdx).left_sibling =
          (nodeAt data t.rootIdx).left_sibling ∧
        (nodeAt (detachArena data i) t.rootIdx).right_sibling =
          (nodeAt data t.rootIdx).right_sibling ∧
        heapOrd cmp vals t' ∧ heapOrd cmp vals ti
  | HTree.node r cs, data, i => by
    intro hrep hnd hord hmem hne hbound
    simp only [HTree.rootIdx] at hne ⊢
    have hrepN := hrep
    simp only [reps] at hrep
    obtain ⟨hrlt, hrne, hchain, hcsrep⟩ := hrep
    have hord' : ∀ t'' ∈ cs, cmp (vals t''.rootIdx) (vals r) = false ∧
        heapOrd cmp vals t'' := by
      simp only [heapOrd] at hord
      exact hord
    rcases mem_nodesOf_node.1 hmem with rfl | ⟨tc, htc, hitc⟩
    · exact absurd rfl hne
    obtain ⟨pre, post, hcs⟩ := List.append_of_mem htc
    subst hcs
    have hr_notin : ∀ t'' ∈ pre ++ tc :: post, r ∉ nodesOf t'' := by
      intro t'' ht'' hrmem
      exact nodup_root_notmem hnd
        (List.mem_flatten.2 ⟨nodesOf t'', List.mem_map_of_mem nodesOf ht'', hrmem⟩)
    by_cases hir : i = tc.rootIdx
    · -- the detached node is the root of the child `tc`
      obtain ⟨preR, hpreE⟩ : ∃ l, pre.map HTree.rootIdx = l := ⟨_, rfl⟩
      obtain ⟨postR, hpostE⟩ : ∃ l, post.map HTree.rootIdx = l := ⟨_, rfl⟩
      have hjs_eq2 : (pre ++ tc :: post).map HTree.rootIdx = preR ++ i :: postR := by
        rw [List.map_append, List.map_cons, ← hir, hpreE, hpostE]
      rw [hjs_eq2] at hchain
      have hjsnd2 : (preR ++ i :: postR).Nodup := by
        rw [← hjs_eq2]; exact roots_nodup hnd
      have hjs_lt2 : ∀ j ∈ preR ++ i :: postR, j < data.length := by
        intro j hj
        refine reps_nodes_lt data _ hrepN j (roots_sub_nodes j ?_)
        rw [hjs_eq2]; exact hj
      have hrjs2 : r ∉ preR ++ i :: postR := by
        intro h
        have h' : r ∈ (pre ++ tc :: post).map HTree.rootIdx := by
          rw [hjs_eq2]; exact h
        obtain ⟨t3, ht3, heq⟩ := List.mem_map.1 h'
        exact hr_notin t3 ht3 (heq ▸ rootIdx_mem_nodesOf t3)
      obtain ⟨h2, hseg1, hh2, hqi, hLi, hRseg⟩ := chainSeg_split preR hchain
      rw [hh2] at hseg1
      clear hh2
      -- hseg1 : chain of the left part ending at the handle of `i`
      -- hqi/hLi/hRseg : parent, left sibling and right chain of `i`
      have KEY : ∃ touched : List Nat,
          (∀ j, j ∉ touched →
            nodeAt (detachArena data i) j = nodeAt data j) ∧
          (∀ a ∈ touched, a = r ∨ ((nodeAt data a).parent = r ∧
            a ∈ preR ++ i :: postR ∧ a ≠ i)) ∧
          (∀ a ∈ touched, a ≠ r →
            (nodeAt (detachArena data i) a).child = (nodeAt data a).child) ∧
          (∀ j, (nodeAt (detachArena data i) j).item_index =
            (nodeAt data j).item_index) ∧
          (detachArena data i).length = data.length ∧
          chainSeg (detachArena data i) r
            (nodeAt (detachArena data i) r).child NONE (preR ++ postR) NONE ∧
          (nodeAt (detachArena data i) r).parent = (nodeAt data r).parent ∧
          (nodeAt (detachArena data i) r).left_sibling =
            (nodeAt data r).left_sibling ∧
          (nodeAt (detachArena data i) r).right_sibling =
            (nodeAt data r).right_sibling := by
        cases postR with
        | nil =>
          have hR : (nodeAt data i).right_sibling = NONE := hRseg
          cases preR with
          | nil =>
            have hL : (nodeAt data i).left_sibling = NONE := hLi
            have hd2 : detachArena data i = setChild data r NONE := by
              unfold detachArena
              dsimp only
              rw [hR, hL, hqi]
              simp
            refine ⟨[r], ?_, ?_, ?_, ?_, ?_, ?_, ?_, ?_, ?_⟩
            · intro j hj
              have hjr : j ≠ r := by simpa using hj
              rw [hd2]
              exact nodeAt_setChild_other data r NONE hjr
            · intro a ha
              left; simpa using ha
            · intro a ha hne'
              exact absurd (by simpa using ha) hne'
            · intro j
              rw [hd2]
              exact setChild_ii data r NONE j
            · rw [hd2]
              exact length_setChild data r NONE
            · show (nodeAt (detachArena data i) r).child = NONE
              rw [hd2, nodeAt_setChild_self data r NONE hrlt]
            · rw [hd2, nodeAt_setChild_self data r NONE hrlt]
            · rw [hd2, nodeAt_setChild_self data r NONE hrlt]
            · rw [hd2, nodeAt_setChild_self data r NONE hrlt]
          | cons p0 preR' =>
            have hne0 : p0 :: preR' ≠ [] := by simp
            have hL : (nodeAt data i).left_sibling = (p0 :: preR').getLast hne0 := by
              rw [hLi]; exact getLastD_eq_getLast NONE hne0
            have hLv_mem : (p0 :: preR').getLast hne0 ∈ p0 :: preR' :=
              List.getLast_mem hne0
            have hLv_lt : (p0 :: preR').getLast hne0 < data.length :=
              hjs_lt2 _ (List.mem_append_left _ hLv_mem)
            have hLv_ne : (p0 :: preR').getLast hne0 ≠ NONE :=
              Nat.ne_of_lt (hLv_lt.trans hbound)
            have hLv_par : (nodeAt data ((p0 :: preR').getLast hne0)).parent = r :=
              chainSeg_mem_parent hseg1 _ hLv_mem
            have hLv_ne_r : (p0 :: preR').getLast hne0 ≠ r := by
              intro he
              exact hrjs2 (he ▸ List.mem_append_left _ hLv_mem)
            have hpre_nd : (p0 :: preR').Nodup := (List.nodup_append.1 hjsnd2).1
            have hd2 : detachArena data i =
                setRS data ((p0 :: preR').getLast hne0) NONE := by
              unfold detachArena
              dsimp only
              rw [hR, hL]
              simp [hLv_ne]
            have hchain2 : chainSeg (setRS data ((p0 :: preR').getLast hne0) NONE)
                r (nodeAt data r).child NONE (p0 :: preR') NONE :=
              chainSeg_set_end (p0 :: preR') hne0 NONE hseg1 hpre_nd hLv_lt
            refine ⟨[(p0 :: preR').getLast hne0], ?_, ?_, ?_, ?_, ?_, ?_, ?_, ?_, ?_⟩
            · intro j hj
              have hjL : j ≠ (p0 :: preR').getLast hne0 := by simpa using hj
              rw [hd2]
              exact nodeAt_setRS_other data _ NONE hjL
            · intro a ha
              right
              have haL : a = (p0 :: preR').getLast hne0 := by simpa using ha
              subst haL
              refine ⟨hLv_par, List.mem_append_left _ hLv_mem, ?_⟩
              exact Ne.symm (nodup_append_ne hjsnd2 hLv_mem (by simp))
            · intro a ha hne'
              have haL : a = (p0 :: preR').getLast hne0 := by simpa using ha
              subst haL
              rw [hd2, nodeAt_setRS_self data _ NONE hLv_lt]
            · intro j
              rw [hd2]
              exact setRS_ii data _ NONE j
            · rw [hd2]
              exact length_setRS data _ NONE
            · rw [List.append_nil]
              have hstart : (nodeAt (detachArena data i) r).child =
                  (nodeAt data r).child := by
                rw [hd2, nodeAt_setRS_other data _ NONE (Ne.symm hLv_ne_r)]
              rw [hstart, hd2]
              exact hchain2
            · rw [hd2, nodeAt_setRS_other data _ NONE (Ne.symm hLv_ne_r)]
            · rw [hd2, nodeAt_setRS_other data _ NONE (Ne.symm hLv_ne_r)]
            · rw [hd2, nodeAt_setRS_other data _ NONE (Ne.symm hLv_ne_r)]
        | cons y postR' =>
          obtain ⟨hy_eq, hy_par, hy_ls, hy_seg⟩ := hRseg
          have hy_mem2 : y ∈ preR ++ i :: y :: postR' :=
            List.mem_append_right _ (List.mem_cons_of_mem i (List.mem_cons_self y postR'))
          have hy_lt : y < data.length := hjs_lt2 y hy_mem2
          have hy_ne : y ≠ NONE := Nat.ne_of_lt (hy_lt.trans hbound)
          have hy_ne_r : y ≠ r := by
            intro he
            exact hrjs2 (he ▸ hy_mem2)
          have hiypostnd : (i :: y :: postR').Nodup := (List.nodup_append.1 hjsnd2).2.1
          have hy_notin : y ∉ postR' :=
            (List.nodup_cons.1 (List.nodup_cons.1 hiypostnd).2).1
          have hy_ne_i : y ≠ i := by
            intro he
            apply (List.nodup_cons.1 hiypostnd).1
            rw [← he]
            exact List.mem_cons_self y postR'
          have hchainy : chainSeg data r y i (y :: postR') NONE :=
            ⟨rfl, hy_par, hy_ls, hy_seg⟩
          cases preR with
          | nil =>
            have hL : (nodeAt data i).left_sibling = NONE := hLi
            have hc0 : (nodeAt data r).child = i := hseg1
            have hd2 : detachArena data i = setLS (setChild data r y) y NONE := by
              unfold detachArena
              dsimp only
              rw [hy_eq, hL, hqi]
              simp [hy_ne]
            have hchain1 : chainSeg (setChild data r y) r y i (y :: postR') NONE := by
              refine chainSeg_congr hchainy ?_
              intro j hj
              refine nodeAt_setChild_other data r y ?_
              intro he
              exact hrjs2 (he ▸ List.mem_append_right _ (List.mem_cons_of_mem i hj))
            have hchain2 : chainSeg (setLS (setChild data r y) y NONE) r y NONE
                (y :: postR') NONE :=
              chainSeg_set_head_ls hchain1
                (by rw [length_setChild]; exact hy_lt) hy_notin NONE
            refine ⟨[r, y], ?_, ?_, ?_, ?_, ?_, ?_, ?_, ?_, ?_⟩
            · intro j hj
              have hjr : j ≠ r ∧ j ≠ y := by
                constructor <;> intro he <;> exact hj (by simp [he])
              rw [hd2, nodeAt_setLS_other _ y NONE hjr.2,
                nodeAt_setChild_other data r y hjr.1]
            · intro a ha
              rcases (by simpa using ha : a = r ∨ a = y) with h | h
              · exact Or.inl h
              · rw [h]
                exact Or.inr ⟨hy_par, hy_mem2, hy_ne_i⟩
            · intro a ha hne'
              rcases (by simpa using ha : a = r ∨ a = y) with h | h
              · exact absurd h hne'
              · rw [h, hd2, nodeAt_setLS_self _ y NONE
                  (by rw [length_setChild]; exact hy_lt)]
                show (nodeAt (setChild data r y) y).child = (nodeAt data y).child
                rw [nodeAt_setChild_other data r y hy_ne_r]
            · intro j
              rw [hd2, setLS_ii, setChild_ii]
            · rw [hd2, length_setLS, length_setChild]
            · have hstart : (nodeAt (setLS (setChild data r y) y NONE) r).child = y := by
                rw [nodeAt_setLS_other _ y NONE (Ne.symm hy_ne_r),
                  nodeAt_setChild_self data r y hrlt]
              rw [hd2, hstart, List.nil_append]
              exact hchain2
            · rw [hd2, nodeAt_setLS_other _ y NONE (Ne.symm hy_ne_r),
                nodeAt_setChild_self data r y hrlt]
            · rw [hd2, nodeAt_setLS_other _ y NONE (Ne.symm hy_ne_r),
                nodeAt_setChild_self data r y hrlt]
            · rw [hd2, nodeAt_setLS_other _ y NONE (Ne.symm hy_ne_r),
                nodeAt_setChild_self data r y hrlt]
          | cons p0 preR' =>
            have hne0 : p0 :: preR' ≠ [] := by simp
            have hL : (nodeAt data i).left_sibling = (p0 :: preR').getLast hne0 := by
              rw [hLi]; exact getLastD_eq_getLast NONE hne0
            have hLv_mem : (p0 :: preR').getLast hne0 ∈ p0 :: preR' :=
              List.getLast_mem hne0
            have hLv_lt : (p0 :: preR').getLast hne0 < data.length :=
              hjs_lt2 _ (List.mem_append_left _ hLv_mem)
            have hLv_ne : (p0 :: preR').getLast hne0 ≠ NONE :=
              Nat.ne_of_lt (hLv_lt.trans hbound)
            have hLv_par : (nodeAt data ((p0 :: preR').getLast hne0)).parent = r :=
              chainSeg_mem_parent hseg1 _ hLv_mem
            have hLv_ne_r : (p0 :: preR').getLast hne0 ≠ r := by
              intro he
              exact hrjs2 (he ▸ List.mem_append_left _ hLv_mem)
            have hLv_ne_y : (p0 :: preR').getLast hne0 ≠ y :=
              Ne.symm (nodup_append_ne hjsnd2 hLv_mem
                (List.mem_cons_of_mem i (List.mem_cons_self y postR')))
            have hpre_nd : (p0 :: preR').Nodup := (List.nodup_append.1 hjsnd2).1
            have hd2 : detachArena data i =
                setLS (setRS data ((p0 :: preR').getLast hne0) y) y
                  ((p0 :: preR').getLast hne0) := by
              unfold detachArena
              dsimp only
              rw [hy_eq, hL]
              simp [hy_ne, hLv_ne]
            have hchainL : chainSeg (setRS data ((p0 :: preR').getLast hne0) y)
                r (nodeAt data r).child NONE (p0 :: preR') y :=
              chainSeg_set_end (p0 :: preR') hne0 y hseg1 hpre_nd hLv_lt
            have hchainR1 : chainSeg (setRS data ((p0 :: preR').getLast hne0) y)
                r y i (y :: postR') NONE := by
              refine chainSeg_congr hchainy ?_
              intro j hj
              refine nodeAt_setRS_other data _ y ?_
              intro he
              exact absurd (he ▸ hLv_mem) (fun hmm =>
                nodup_append_ne hjsnd2 hmm
                  (List.mem_cons_of_mem i hj) rfl)
            have hchainR : chainSeg
                (setLS (setRS data ((p0 :: preR').getLast hne0) y) y
                  ((p0 :: preR').getLast hne0))
                r y ((p0 :: preR').getLast hne0) (y :: postR') NONE :=
              chainSeg_set_head_ls hchainR1
                (by rw [length_setRS]; exact hy_lt) hy_notin _
            have hchainL2 : chainSeg
                (setLS (setRS data ((p0 :: preR').getLast hne0) y) y
                  ((p0 :: preR').getLast hne0))
                r (nodeAt data r).child NONE (p0 :: preR') y := by
              refine chainSeg_congr hchainL ?_
              intro j hj
              refine nodeAt_setLS_other _ y _ ?_
              intro he
              exact nodup_append_ne hjsnd2 hj
                (List.mem_cons_of_mem i (List.mem_cons_self y postR')) he.symm
            have hglue : chainSeg
                (setLS (setRS data ((p0 :: preR').getLast hne0) y) y
                  ((p0 :: preR').getLast hne0))
                r (nodeAt data r).child NONE ((p0 :: preR') ++ y :: postR') NONE := by
              refine chainSeg_glue (p0 :: preR') hchainL2 ?_
              rw [getLastD_eq_getLast NONE hne0]
              exact hchainR
            refine ⟨[(p0 :: preR').getLast hne0, y], ?_, ?_, ?_, ?_, ?_, ?_, ?_, ?_, ?_⟩
            · intro j hj
              have hjr : j ≠ (p0 :: preR').getLast hne0 ∧ j ≠ y := by
                constructor <;> intro he <;> exact hj (by simp [he])
              rw [hd2, nodeAt_setLS_other _ y _ hjr.2,
                nodeAt_setRS_other data _ y hjr.1]
            · intro a ha
              rcases (by simpa using ha : a = (p0 :: preR').getLast hne0 ∨ a = y)
                with h | h
              · rw [h]
                refine Or.inr ⟨hLv_par, List.mem_append_left _ hLv_mem, ?_⟩
                exact Ne.symm (nodup_append_ne hjsnd2 hLv_mem (by simp))
              · rw [h]
                exact Or.inr ⟨hy_par, hy_mem2, hy_ne_i⟩
            · intro a ha hne'
              rcases (by simpa using ha : a = (p0 :: preR').getLast hne0 ∨ a = y)
                with h | h
              · rw [h, hd2, nodeAt_setLS_other _ y _ hLv_ne_y,
                  nodeAt_setRS_self data _ y hLv_lt]
              · rw [h, hd2, nodeAt_setLS_self _ y _
                  (by rw [length_setRS]; exact hy_lt)]
                show (nodeAt (setRS data _ y) y).child = (nodeAt data y).child
                rw [nodeAt_setRS_other data _ y (Ne.symm hLv_ne_y)]
            · intro j
              rw [hd2, setLS_ii, setRS_ii]
            · rw [hd2, length_setLS, length_setRS]
            · have hstart : (nodeAt (setLS (setRS data
                  ((p0 :: preR').getLast hne0) y) y
                  ((p0 :: preR').getLast hne0)) r).child =
                  (nodeAt data r).child := by
                rw [nodeAt_setLS_other _ y _ (Ne.symm hy_ne_r),
                  nodeAt_setRS_other data _ y (Ne.symm hLv_ne_r)]
              rw [hd2, hstart]
              exact hglue
            · rw [hd2, nodeAt_setLS_other _ y _ (Ne.symm hy_ne_r),
                nodeAt_setRS_other data _ y (Ne.symm hLv_ne_r)]
            · rw [hd2, nodeAt_setLS_other _ y _ (Ne.symm hy_ne_r),
                nodeAt_setRS_other data _ y (Ne.symm hLv_ne_r)]
            · rw [hd2, nodeAt_setLS_other _ y _ (Ne.symm hy_ne_r),
                nodeAt_setRS_other data _ y (Ne.symm hLv_ne_r)]
      obtain ⟨touched, Htouch, Hpar, Hfields, F1, Flen, Hchain, Hc_par, Hc_ls, Hc_rs⟩
        := KEY
      have Hchild_all : ∀ j, j ≠ r →
          (nodeAt (detachArena data i) j).child = (nodeAt data j).child := by
        intro j hjr
        by_cases hjt : j ∈ touched
        · exact Hfields j hjt hjr
        · rw [Htouch j hjt]
      have hroot_mem : ∀ t'' ∈ pre ++ tc :: post,
          t''.rootIdx ∈ preR ++ i :: postR := by
        intro t'' ht''
        rw [← hjs_eq2]
        exact List.mem_map_of_mem HTree.rootIdx ht''
      have hreps_child : ∀ t'' ∈ pre ++ tc :: post, reps (detachArena data i) t'' := by
        intro t'' ht''
        refine reps_congr (by rw [Flen]) t'' (hcsrep t'' ht'')
          (nodup_nodesOf_child hnd ht'') (Hchild_all _ ?_) (F1 _) ?_
        · intro he
          exact hrjs2 (he ▸ hroot_mem t'' ht'')
        · intro j hj hjne
          apply Htouch
          intro hjt
          rcases Hpar j hjt with h | ⟨hp, _, _⟩
          · exact hr_notin t'' ht'' (h ▸ hj)
          · have hpm := reps_parent_mem t'' (hcsrep t'' ht'') j hj hjne
            rw [hp] at hpm
            exact hr_notin t'' ht'' hpm
      have Hti_frame : ∀ j ∈ nodesOf tc,
          nodeAt (detachArena data i) j = nodeAt data j := by
        intro j hj
        apply Htouch
        intro hjt
        rcases Hpar j hjt with h | ⟨hp, _, hne_i⟩
        · exact hr_notin tc htc (h ▸ hj)
        · by_cases hjroot : j = tc.rootIdx
          · exact hne_i (hjroot.trans hir.symm)
          · have hpm := reps_parent_mem tc (hcsrep tc htc) j hj hjroot
            rw [hp] at hpm
            exact hr_notin tc htc hpm
      refine ⟨HTree.node r (pre ++ post), tc, hir.symm, rfl, ?_, ?_, ?_, F1, ?_,
        Hti_frame, Flen, Hc_par, Hc_ls, Hc_rs, ?_, (hord' tc htc).2⟩
      · -- the remaining tree is represented
        simp only [reps]
        refine ⟨by rw [Flen]; exact hrlt, by rw [F1 r]; exact hrne, ?_, ?_⟩
        · rw [List.map_append, hpreE, hpostE]
          exact Hchain
        · intro t'' ht''
          rcases List.mem_append.1 ht'' with h | h
          · exact hreps_child t'' (List.mem_append_left _ h)
          · exact hreps_child t'' (List.mem_append_right _ (List.mem_cons_of_mem _ h))
      · exact hreps_child tc (List.mem_append_right _ (List.mem_cons_self tc post))
      · -- node multiset is preserved
        rw [nodesOf_node, nodesOf_node]
        simp only [List.map_append, List.map_cons, List.flatten_append,
          List.flatten_cons]
        rw [List.cons_append]
        refine List.Perm.cons r ?_
        rw [List.append_assoc]
        refine List.Perm.append_left _ ?_
        exact List.perm_append_comm
      · -- frame outside the tree
        intro j hjn
        apply Htouch
        intro hjt
        rcases Hpar j hjt with h | ⟨_, hmem2, _⟩
        · refine hjn ?_
          rw [h]
          exact rootIdx_mem_nodesOf (HTree.node r (pre ++ tc :: post))
        · refine hjn (roots_sub_nodes j ?_)
          rw [hjs_eq2]
          exact hmem2
      · -- heap order of the remaining tree
        simp only [heapOrd]
        intro t'' ht''
        rcases List.mem_append.1 ht'' with h | h
        · exact hord' t'' (List.mem_append_left _ h)
        · exact hord' t'' (List.mem_append_right _ (List.mem_cons_of_mem _ h))
    · -- the detached node lies strictly inside the child `tc`
      have hflat : (List.flatten (pre.map nodesOf) ++
          (nodesOf tc ++ List.flatten (post.map nodesOf))).Nodup := by
        have h := hnd
        rw [nodesOf_node] at h
        have h2 := (List.nodup_cons.1 h).2
        simpa only [List.map_append, List.map_cons, List.flatten_append,
          List.flatten_cons] using h2
      have hchild_far : ∀ t3, (t3 ∈ pre ∨ t3 ∈ post) →
          ∀ j ∈ nodesOf t3, j ∉ nodesOf tc := by
        intro t3 h3 j hj hjc
        rcases h3 with h3 | h3
        · have hfp : j ∈ List.flatten (pre.map nodesOf) :=
            List.mem_flatten.2 ⟨nodesOf t3, List.mem_map_of_mem nodesOf h3, hj⟩
          exact List.disjoint_of_nodup_append hflat hfp
            (List.mem_append_left _ hjc)
        · have hfq : j ∈ List.flatten (post.map nodesOf) :=
            List.mem_flatten.2 ⟨nodesOf t3, List.mem_map_of_mem nodesOf h3, hj⟩
          have h2 := (List.nodup_append.1 hflat).2.1
          exact List.disjoint_of_nodup_append h2 hjc hfq
      have hrec := detach_subtree cmp vals tc data i (hcsrep tc htc)
        (nodup_nodesOf_child hnd htc) (hord' tc htc).2 hitc hir hbound
      obtain ⟨tc', ti, hti_root, htc'_root, hrep_tc', hrep_ti, hperm, hF1,
        hA5, hTIF, hlen, hpar_c, hls_c, hrs_c, hord_tc', hord_ti⟩ := hrec
      have hA5r : nodeAt (detachArena data i) r = nodeAt data r :=
        hA5 r (hr_notin tc htc)
      have hreps_far : ∀ t3, (t3 ∈ pre ∨ t3 ∈ post) →
          reps (detachArena data i) t3 := by
        intro t3 h3
        have ht3 : t3 ∈ pre ++ tc :: post := by
          rcases h3 with h3 | h3
          · exact List.mem_append_left _ h3
          · exact List.mem_append_right _ (List.mem_cons_of_mem _ h3)
        refine reps_congr (by rw [hlen]) t3 (hcsrep t3 ht3)
          (nodup_nodesOf_child hnd ht3) ?_ ?_ ?_
        · rw [hA5 _ (hchild_far t3 h3 _ (rootIdx_mem_nodesOf t3))]
        · rw [hA5 _ (hchild_far t3 h3 _ (rootIdx_mem_nodesOf t3))]
        · intro j hj _
          rw [hA5 j (hchild_far t3 h3 j hj)]
      refine ⟨HTree.node r (pre ++ tc' :: post), ti, hti_root, rfl, ?_, hrep_ti,
        ?_, hF1, ?_, hTIF, hlen, ?_, ?_, ?_, ?_, hord_ti⟩
      · -- the tree with the rebuilt child is represented
        simp only [reps]
        refine ⟨by rw [hlen]; exact hrlt, by rw [hF1 r]; exact hrne, ?_, ?_⟩
        · rw [List.map_append, List.map_cons, htc'_root, hA5r]
          rw [List.map_append, List.map_cons] at hchain
          refine chainSeg_congr3 hchain ?_
          intro j hj
          by_cases hjt : j = tc.rootIdx
          · subst hjt
            exact ⟨hpar_c, hls_c, hrs_c⟩
          · have hjn : j ∉ nodesOf tc := by
              intro hmemc
              rcases List.mem_append.1 hj with h | h
              · obtain ⟨t3, ht3, heq⟩ := List.mem_map.1 h
                exact hchild_far t3 (Or.inl ht3) j (heq ▸ rootIdx_mem_nodesOf t3)
                  hmemc
              · rcases List.mem_cons.1 h with h | h
                · exact hjt h
                · obtain ⟨t3, ht3, heq⟩ := List.mem_map.1 h
                  exact hchild_far t3 (Or.inr ht3) j
                    (heq ▸ rootIdx_mem_nodesOf t3) hmemc
            rw [hA5 j hjn]
            exact ⟨rfl, rfl, rfl⟩
        · intro t'' ht''
          rcases List.mem_append.1 ht'' with h | h
          · exact hreps_far t'' (Or.inl h)
          · rcases List.mem_cons.1 h with rfl | h
            · exact hrep_tc'
            · exact hreps_far t'' (Or.inr h)
      · -- node multiset is preserved
        rw [nodesOf_node, nodesOf_node]
        simp only [List.map_append, List.map_cons, List.flatten_append,
          List.flatten_cons]
        rw [List.cons_append]
        refine List.Perm.cons r ?_
        have hassoc : (List.flatten (pre.map nodesOf) ++
            (nodesOf tc' ++ List.flatten (post.map nodesOf))) ++ nodesOf ti =
            List.flatten (pre.map nodesOf) ++
            (nodesOf tc' ++ (List.flatten (post.map nodesOf) ++ nodesOf ti)) := by
          simp [List.append_assoc]
        rw [hassoc]
        refine List.Perm.append_left _ ?_
        refine (List.Perm.append_left _ List.perm_append_comm).trans ?_
        rw [← List.append_assoc]
        exact hperm.append_right _
      · -- frame outside the tree
        intro j hjn
        refine hA5 j ?_
        intro hjm
        exact hjn (mem_nodesOf_of_child r htc hjm)
      · rw [hA5r]
      · rw [hA5r]
      · rw [hA5r]
      · -- heap order of the rebuilt tree
        simp only [heapOrd]
        intro t'' ht''
        rcases List.mem_append.1 ht'' with h | h
        · exact hord' t'' (List.mem_append_left _ h)
        · rcases List.mem_cons.1 h with rfl | h
          · refine ⟨?_, hord_tc'⟩
            rw [htc'_root]
            exact (hord' tc htc).1
          · exact hord' t'' (List.mem_append_right _ (List.mem_cons_of_mem _ h))
  termination_by t data i => sizeOf t
  decreasing_by
    rw [hcs]
    have := List.sizeOf_lt_of_mem htc
    simp only [HTree.node.sizeOf_spec]
    omega

/-- A successful locator lookup returns the mapped index of some stored
entry whose key is equivalent to the queried one. -/
theorem lookupMap_mem (P : HeapParams T) (x : T) (i : Nat) :
    ∀ m : HMap T, lookupMap P m x = some i →
      ∃ e ∈ m, e.2 = i ∧ P.keyeq x e.1 = true := by
  intro m
  induction m with
  | nil => intro h; simp [lookupMap] at h
  | cons e rest ih =>
    intro h
    obtain ⟨k, j⟩ := e
    by_cases hk : P.keyeq x k = true
    · refine ⟨(k, j), List.mem_cons_self _ _, ?_, hk⟩
      simp only [lookupMap, hk, if_true] at h
      exact Option.some_inj.1 h
    · have hk' : P.keyeq x k = false := by
        revert hk; cases P.keyeq x k <;> simp
      simp only [lookupMap, hk', Bool.false_eq_true, if_false] at h
      obtain ⟨e', he', hei, hek⟩ := ih h
      exact ⟨e', List.mem_cons_of_mem _ he', hei, hek⟩

/-- Heap order survives changing the value attached to the root, as long as
the root's new value still does not lose against each child root. -/
theorem heapOrd_set_root {cmp : T → T → Bool} {vals vals2 : Nat → T}
    {r0 : Nat} {cs0 : List HTree}
    (hnd : (nodesOf (HTree.node r0 cs0)).Nodup)
    (hord : heapOrd cmp vals (HTree.node r0 cs0))
    (hagree : ∀ j ∈ nodesOf (HTree.node r0 cs0), j ≠ r0 → vals2 j = vals j)
    (hroot : ∀ c ∈ cs0, cmp (vals2 c.rootIdx) (vals2 r0) = false) :
    heapOrd cmp vals2 (HTree.node r0 cs0) := by
  simp only [heapOrd] at hord ⊢
  intro c hc
  refine ⟨hroot c hc, ?_⟩
  refine heapOrd_congr c (hord c hc).2 ?_
  intro j hj
  refine hagree j (mem_nodesOf_of_child r0 hc hj) ?_
  intro he
  exact nodup_root_notmem hnd (List.mem_flatten.2 ⟨nodesOf c,
    List.mem_map_of_mem nodesOf hc, he ▸ hj⟩)

theorem elements_length_updateOp [Inhabited T] (P : HeapParams T) (s : State T)
    (d : T) : (updateOp P s d).elements.length = s.elements.length := by
  unfold updateOp
  dsimp only
  repeat' split
  all_goals simp

/-- `update(d)` when the locator resolves `d` to the current root: only the
stored value is overwritten. -/
theorem updateOp_root_eq [Inhabited T] (P : HeapParams T) (s : State T) {d : T}
    {index : Nat} (hlku : lookupMap P s.map d = some index)
    (heq : index = s.top) :
    updateOp P s d =
      { s with elements := s.elements.set (nodeAt s.data index).item_index d } := by
  unfold updateOp
  dsimp only
  rw [readMap_of_lookup_some P hlku]
  dsimp only
  rw [if_pos heq]

/-- `update(d)` when the locator resolves `d` away from the root: overwrite
the value, detach the node, clear its context fields, and compare-and-merge
with the root. -/
theorem updateOp_detach_eq [Inhabited T] (P : HeapParams T) (s : State T) {d : T}
    {index : Nat} (hlku : lookupMap P s.map d = some index)
    (hne : ¬ index = s.top) :
    updateOp P s d = ⟨s.elements.set (nodeAt s.data index).item_index d,
      (if P.cmp
          (valAt (s.elements.set (nodeAt s.data index).item_index d)
            (setRS (setLS (setParent (detachArena s.data index) index NONE)
              index NONE) index NONE) index)
          (valAt (s.elements.set (nodeAt s.data index).item_index d)
            (setRS (setLS (setParent (detachArena s.data index) index NONE)
              index NONE) index NONE) s.top)
        then mergeIdx (setRS (setLS (setParent (detachArena s.data index)
          index NONE) index NONE) index NONE) s.top index
        else mergeIdx (setRS (setLS (setParent (detachArena s.data index)
          index NONE) index NONE) index NONE) index s.top),
      (if P.cmp
          (valAt (s.elements.set (nodeAt s.data index).item_index d)
            (setRS (setLS (setParent (detachArena s.data index) index NONE)
              index NONE) index NONE) index)
          (valAt (s.elements.set (nodeAt s.data index).item_index d)
            (setRS (setLS (setParent (detachArena s.data index) index NONE)
              index NONE) index NONE) s.top)
        then index else s.top),
      s.map⟩ := by
  unfold updateOp detachArena
  dsimp only
  rw [readMap_of_lookup_some P hlku]
  dsimp only
  rw [if_neg hne]
  repeat' split
  all_goals rfl

/-- Preservation of well-formedness by `update` under the decrease-key
discipline. -/
theorem update_WF [Inhabited T] {P : HeapParams T} (L : LawfulParams P)
    {s : State T} {d : T} (hWF : WF P s) (hpre : updatePre P s d = true) :
    WF P (updateOp P s d) := by
  cases hlku : lookupMap P s.map d with
  | none =>
    simp only [updatePre, hlku] at hpre
    exact Bool.noConfusion hpre
  | some index =>
    have hpre' := hpre
    simp only [updatePre, hlku, Bool.and_eq_true, decide_eq_true_eq,
      Bool.not_eq_true', beq_eq_false_iff_ne, List.all_eq_true] at hpre'
    obtain ⟨⟨hidx_lt, hidx_live⟩, hch⟩ := hpre'
    have hch' : ∀ c, c < s.data.length → (nodeAt s.data c).parent = index →
        P.cmp (valAt s.elements s.data c) d = false := by
      intro c hc hp
      have h := hch c (List.mem_range.2 hc)
      rw [hp] at h
      simpa using h
    rcases hWF with ⟨htop, hE⟩ | ⟨t, hT⟩
    · obtain ⟨hel, htopN, hmap, hbound0, hdead⟩ := hE
      rw [hmap] at hlku
      simp [lookupMap] at hlku
    · have hmem_index : index ∈ nodesOf t := by
        obtain ⟨e, he, hei, _⟩ := lookupMap_mem P d index s.map hlku
        rw [← hei]
        exact (hT.map_entries e he).1
      have hkey_di : P.keyeq d (valAt s.elements s.data index) = true := by
        obtain ⟨e, he, hei, hek⟩ := lookupMap_mem P d index s.map hlku
        refine L.ktrans d e.1 _ hek ?_
        have h2 := (hT.map_entries e he).2
        rw [hei] at h2
        exact h2
      have hslot_lt : (nodeAt s.data index).item_index < s.elements.length :=
        hT.slots_lt index hmem_index
      have htoplt : s.top < s.data.length := by
        rw [← hT.root_eq]
        exact reps_nodes_lt s.data t hT.rep _ (rootIdx_mem_nodesOf t)
      by_cases heqtop : index = s.top
      · -- the resolved node is the root: only the value array changes
        rw [updateOp_root_eq P s hlku heqtop]
        set slot := (nodeAt s.data index).item_index with hslotdef
        set e1 := s.elements.set slot d with he1def
        have hvals_keep : ∀ j ∈ nodesOf t, j ≠ index →
            valAt e1 s.data j = valAt s.elements s.data j := by
          intro j hj hjne
          have hsj : (nodeAt s.data j).item_index ≠ slot := by
            intro he
            exact hjne (hT.slots_inj j hj index hmem_index (by rw [he, hslotdef]))
          rw [valAt, valAt, he1def, List.getD_eq_getElem?_getD,
            List.getD_eq_getElem?_getD, List.getElem?_set_ne (Ne.symm hsj)]
        have hval_idx : valAt e1 s.data index = d := by
          rw [valAt, ← hslotdef, he1def]
          simp [List.getD_eq_getElem?_getD, List.getElem?_set_self, hslot_lt]
        refine Or.inr ⟨t, hT.bound, hT.topne, hT.root_eq, hT.rep, hT.root_parent,
          hT.root_ls, hT.root_rs, hT.nodup, hT.dead_clean, ?_, hT.slots_inj, ?_,
          ?_, ?_, ?_, ?_⟩
        · intro i hi
          dsimp only
          rw [he1def, List.length_set]
          exact hT.slots_lt i hi
        · intro sl hsl
          dsimp only at hsl
          rw [he1def, List.length_set] at hsl
          exact hT.slots_surj sl hsl
        · dsimp only
          rw [he1def, List.length_set]
          exact hT.elen
        · intro e he
          refine ⟨(hT.map_entries e he).1, ?_⟩
          dsimp only
          by_cases he2 : e.2 = index
          · rw [he2, hval_idx]
            have hk1 : P.keyeq e.1 (valAt s.elements s.data index) = true := by
              have h2 := (hT.map_entries e he).2
              rw [he2] at h2
              exact h2
            exact L.ktrans e.1 _ d hk1 (L.ksymm _ _ hkey_di)
          · rw [hvals_keep e.2 (hT.map_entries e he).1 he2]
            exact (hT.map_entries e he).2
        · intro i hi
          dsimp only
          by_cases hii : i = index
          · rw [hii, hval_idx]
            exact hlku
          · rw [hvals_keep i hi hii]
            exact hT.map_resolves i hi
        · -- heap order with the root's value replaced by d
          dsimp only
          obtain ⟨r0, cs0⟩ := t
          have hr0idx : r0 = index := by
            have h0 : r0 = s.top := hT.root_eq
            rw [h0, heqtop]
          refine heapOrd_set_root hT.nodup hT.ord ?_ ?_
          · intro j hj hjne
            exact hvals_keep j hj (fun he => hjne (he.trans hr0idx.symm))
          · intro c hc
            have hcroot_mem : c.rootIdx ∈ nodesOf (HTree.node r0 cs0) :=
              mem_nodesOf_of_child r0 hc (rootIdx_mem_nodesOf c)
            have hcroot_ne : c.rootIdx ≠ r0 := by
              intro he
              exact nodup_root_notmem hT.nodup (List.mem_flatten.2 ⟨nodesOf c,
                List.mem_map_of_mem nodesOf hc, he ▸ rootIdx_mem_nodesOf c⟩)
            rw [hvals_keep _ hcroot_mem (fun he => hcroot_ne
              (he.trans hr0idx.symm))]
            have hvalr0 : valAt e1 s.data r0 = d := by
              rw [hr0idx]
              exact hval_idx
            rw [hvalr0]
            refine hch' c.rootIdx
              (reps_nodes_lt s.data _ hT.rep _ hcroot_mem) ?_
            have hrepc := hT.rep
            simp only [reps] at hrepc
            have hpc := chainSeg_mem_parent hrepc.2.2.1 c.rootIdx
              (List.mem_map_of_mem HTree.rootIdx hc)
            rw [hpc]
            exact hr0idx
      · -- the resolved node is below the root: detach, clear, meld
        have hne_root : index ≠ t.rootIdx := by
          rw [hT.root_eq]; exact heqtop
        have hdet := detach_subtree P.cmp (valAt s.elements s.data) t s.data
          index hT.rep hT.nodup hT.ord hmem_index hne_root hT.bound
        obtain ⟨t', ti, hti_root, ht'_root, hrep_t', hrep_ti, hperm, hF1, hA5,
          hTIF, hlen, hpar_r, hls_r, hrs_r, hord_t', hord_ti⟩ := hdet
        rw [hT.root_eq] at hpar_r hls_r hrs_r
        rw [updateOp_detach_eq P s hlku heqtop]
        set dd := detachArena s.data index with hdddef
        set slot := (nodeAt s.data index).item_index with hslotdef
        set e1 := s.elements.set slot d with he1def
        set d5 := setRS (setLS (setParent dd index NONE) index NONE) index NONE
          with hd5def
        set fdata := if P.cmp (valAt e1 d5 index) (valAt e1 d5 s.top)
          then mergeIdx d5 s.top index else mergeIdx d5 index s.top with hfdatadef
        set ftop := if P.cmp (valAt e1 d5 index) (valAt e1 d5 s.top)
          then index else s.top with hftopdef
        have hvals_keep : ∀ j ∈ nodesOf t, j ≠ index →
            valAt e1 s.data j = valAt s.elements s.data j := by
          intro j hj hjne
          have hsj : (nodeAt s.data j).item_index ≠ slot := by
            intro he
            exact hjne (hT.slots_inj j hj index hmem_index (by rw [he, hslotdef]))
          rw [valAt, valAt, he1def, List.getD_eq_getElem?_getD,
            List.getD_eq_getElem?_getD, List.getElem?_set_ne (Ne.symm hsj)]
        have hval_idx : valAt e1 s.data index = d := by
          rw [valAt, ← hslotdef, he1def]
          simp [List.getD_eq_getElem?_getD, List.getElem?_set_self, hslot_lt]
        have he1len : e1.length = s.elements.length := by
          rw [he1def, List.length_set]
        have hnodup_sum : (nodesOf t' ++ nodesOf ti).Nodup :=
          hperm.nodup_iff.2 hT.nodup
        have hnd_t' : (nodesOf t').Nodup := (List.nodup_append.1 hnodup_sum).1
        have hnd_ti : (nodesOf ti).Nodup := (List.nodup_append.1 hnodup_sum).2.1
        have hdisj : ∀ j ∈ nodesOf ti, j ∉ nodesOf t' := fun j hj hj' =>
          List.disjoint_of_nodup_append hnodup_sum hj' hj
        have hmem_t : ∀ j, (j ∈ nodesOf t' ∨ j ∈ nodesOf ti) ↔ j ∈ nodesOf t := by
          intro j
          rw [← hperm.mem_iff, List.mem_append]
        have hsub_t' : ∀ j ∈ nodesOf t', j ∈ nodesOf t :=
          fun j hj => (hmem_t j).1 (Or.inl hj)
        have hsub_ti : ∀ j ∈ nodesOf ti, j ∈ nodesOf t :=
          fun j hj => (hmem_t j).1 (Or.inr hj)
        have hidx_in_ti : index ∈ nodesOf ti := hti_root ▸ rootIdx_mem_nodesOf ti
        have hidx_notin_t' : index ∉ nodesOf t' := fun h =>
          hdisj index hidx_in_ti h
        have hd5_other : ∀ j, j ≠ index → nodeAt d5 j = nodeAt dd j := by
          intro j hj
          rw [hd5def, nodeAt_setRS_other _ index NONE hj,
            nodeAt_setLS_other _ index NONE hj,
            nodeAt_setParent_other _ index NONE hj]
        have hd5len : d5.length = s.data.length := by
          rw [hd5def, length_setRS, length_setLS, length_setParent]
          exact hlen
        have hidx_lt1 : index < dd.length := by rw [hlen]; exact hidx_lt
        have h1 : nodeAt (setParent dd index NONE) index =
            { nodeAt dd index with parent := NONE } :=
          nodeAt_setParent_self dd index NONE hidx_lt1
        have hidx_lt2 : index < (setParent dd index NONE).length := by
          rw [length_setParent]; exact hidx_lt1
        have h2 : nodeAt (setLS (setParent dd index NONE) index NONE) index =
            { nodeAt (setParent dd index NONE) index with left_sibling := NONE } :=
          nodeAt_setLS_self _ index NONE hidx_lt2
        have hidx_lt3 : index < (setLS (setParent dd index NONE) index NONE).length := by
          rw [length_setLS]; exact hidx_lt2
        have hd5_idx : nodeAt d5 index = ⟨(nodeAt dd index).item_index, NONE,
            (nodeAt dd index).child, NONE, NONE⟩ := by
          rw [hd5def, nodeAt_setRS_self _ index NONE hidx_lt3, h2, h1]
        have hrep5_t' : reps d5 t' := by
          refine reps_congr (by rw [hd5len, ← hlen]) t' hrep_t' hnd_t' ?_ ?_ ?_
          · rw [hd5_other _ (fun he => hidx_notin_t'
              (he ▸ rootIdx_mem_nodesOf t'))]
          · rw [hd5_other _ (fun he => hidx_notin_t'
              (he ▸ rootIdx_mem_nodesOf t'))]
          · intro j hj _
            rw [hd5_other j (fun he => hidx_notin_t' (he ▸ hj))]
        have hrep5_ti : reps d5 ti := by
          refine reps_congr (by rw [hd5len, ← hlen]) ti hrep_ti hnd_ti ?_ ?_ ?_
          · rw [hti_root, hd5_idx]
          · rw [hti_root, hd5_idx]
          · intro j hj hjne
            rw [hti_root] at hjne
            exact hd5_other j hjne
        have hls_ti5 : (nodeAt d5 ti.rootIdx).left_sibling = NONE := by
          rw [hti_root, hd5_idx]
        have htop_ne_idx : s.top ≠ index := fun he => heqtop he.symm
        have htop_in_t' : t'.rootIdx = s.top := ht'_root.trans hT.root_eq
        have hls_t'5 : (nodeAt d5 t'.rootIdx).left_sibling = NONE := by
          rw [htop_in_t', hd5_other s.top htop_ne_idx, hls_r]
          exact hT.root_ls
        have hslot5 : ∀ j, (nodeAt d5 j).item_index =
            (nodeAt s.data j).item_index := by
          intro j
          by_cases hj : j = index
          · rw [hj, hd5_idx]
            exact hF1 index
          · rw [hd5_other j hj]
            exact hF1 j
        have hvals5 : ∀ j, valAt e1 d5 j = valAt e1 s.data j :=
          fun j => valAt_congr_ii (hslot5 j)
        have hvals_t' : ∀ j ∈ nodesOf t',
            valAt e1 d5 j = valAt s.elements s.data j := by
          intro j hj
          rw [hvals5 j]
          exact hvals_keep j (hsub_t' j hj) (fun he => hidx_notin_t' (he ▸ hj))
        have hval5_idx : valAt e1 d5 index = d := by
          rw [hvals5 index]
          exact hval_idx
        have hord5_t' : heapOrd P.cmp (valAt e1 d5) t' :=
          heapOrd_congr t' hord_t' hvals_t'
        have hord5_ti : heapOrd P.cmp (valAt e1 d5) ti := by
          obtain ⟨i0, cs0⟩ := ti
          have hi0 : i0 = index := hti_root
          have hrepc := hrep_ti
          simp only [reps] at hrepc
          refine heapOrd_set_root hnd_ti hord_ti ?_ ?_
          · intro j hj hjne
            rw [hvals5 j]
            exact hvals_keep j (hsub_ti j hj)
              (fun he => hjne (he.trans hi0.symm))
          · intro c hc
            have hcroot_mem : c.rootIdx ∈ nodesOf (HTree.node i0 cs0) :=
              mem_nodesOf_of_child i0 hc (rootIdx_mem_nodesOf c)
            have hcroot_ne : c.rootIdx ≠ i0 := by
              intro he
              exact nodup_root_notmem hnd_ti (List.mem_flatten.2 ⟨nodesOf c,
                List.mem_map_of_mem nodesOf hc, he ▸ rootIdx_mem_nodesOf c⟩)
            rw [hvals5, hvals_keep _ (hsub_ti _ hcroot_mem)
              (fun he => hcroot_ne (he.trans hi0.symm))]
            have hvali0 : valAt e1 d5 i0 = d := by
              rw [hi0]
              exact hval5_idx
            rw [hvali0]
            refine hch' c.rootIdx (reps_nodes_lt s.data _ hT.rep _
              (hsub_ti _ hcroot_mem)) ?_
            have hpc := chainSeg_mem_parent hrepc.2.2.1 c.rootIdx
              (List.mem_map_of_mem HTree.rootIdx hc)
            rw [hTIF c.rootIdx hcroot_mem] at hpc
            rw [hpc]
            exact hi0
        have hcall := @meld_call T P _ e1 d5 ti t' L.asymm
          (by rw [hd5len]; exact hT.bound) hrep5_ti hrep5_t' hnd_ti hnd_t'
          hdisj hls_ti5 hls_t'5
        rw [hti_root, htop_in_t'] at hcall
        obtain ⟨hrepM, hrootM, hctxM, hframeM, hiiM, hlenM, hordM⟩ := hcall
        set tnew := meldT P.cmp (valAt e1 d5) ti t' with htnewdef
        have hfn : ftop = tnew.rootIdx := hrootM.symm
        have hctxM' := hctxM fdata hfdatadef
        have hpermM : (nodesOf tnew).Perm (nodesOf ti ++ nodesOf t') :=
          nodesOf_meldT P.cmp (valAt e1 d5) ti t'
        have hmemM : ∀ j, j ∈ nodesOf tnew ↔ j ∈ nodesOf t := by
          intro j
          rw [hpermM.mem_iff, List.mem_append, ← hmem_t j]
          exact or_comm
        have hrootcase : tnew.rootIdx = index ∨ tnew.rootIdx = s.top := by
          rcases rootIdx_meldT_cases P.cmp (valAt e1 d5) ti t' with hc | hc
          · exact Or.inl (hc.trans hti_root)
          · exact Or.inr (hc.trans htop_in_t')
        have hii_all : ∀ j, (nodeAt fdata j).item_index =
            (nodeAt s.data j).item_index := by
          intro j
          rw [hiiM j, hslot5 j]
        have hvalsM : ∀ j, valAt e1 fdata j = valAt e1 d5 j :=
          fun j => valAt_congr_ii (hiiM j)
        have hvals_all : ∀ j ∈ nodesOf t, j ≠ index →
            valAt e1 fdata j = valAt s.elements s.data j := by
          intro j hj hjne
          rw [hvalsM j, hvals5 j]
          exact hvals_keep j hj hjne
        have hvalM_idx : valAt e1 fdata index = d := by
          rw [hvalsM index]
          exact hval5_idx
        have hflen : fdata.length = s.data.length := by
          rw [hlenM, hd5len]
        refine Or.inr ⟨tnew, ?_, ?_, hrootM, hrepM, ?_, ?_, ?_, ?_, ?_, ?_, ?_,
          ?_, ?_, ?_, ?_, ?_⟩
        · dsimp only
          rw [hflen]
          exact hT.bound
        · dsimp only
          rw [hftopdef]
          split
          · exact Nat.ne_of_lt (Nat.lt_trans hidx_lt hT.bound)
          · exact hT.topne
        · dsimp only
          rw [hfn, hctxM'.1]
          rcases hrootcase with h | h
          · rw [h, hd5_idx]
          · rw [h, hd5_other s.top htop_ne_idx, hpar_r]
            exact hT.root_parent
        · dsimp only
          rw [hfn, hctxM'.2.1]
          rcases hrootcase with h | h
          · rw [h, hd5_idx]
          · rw [h, hd5_other s.top htop_ne_idx, hls_r]
            exact hT.root_ls
        · dsimp only
          rw [hfn, hctxM'.2.2]
          rcases hrootcase with h | h
          · rw [h, hd5_idx]
          · rw [h, hd5_other s.top htop_ne_idx, hrs_r]
            exact hT.root_rs
        · rw [hpermM.nodup_iff]
          exact List.nodup_append.2 ⟨hnd_ti, hnd_t',
            fun a ha hb => hdisj a ha hb⟩
        · -- dead records
          intro i hilt himem
          dsimp only at hilt himem ⊢
          have hit : i ∉ nodesOf t := fun h => himem ((hmemM i).2 h)
          have hiti : i ∉ nodesOf ti := fun h =>
            himem (hpermM.mem_iff.2 (List.mem_append_left _ h))
          have hit' : i ∉ nodesOf t' := fun h =>
            himem (hpermM.mem_iff.2 (List.mem_append_right _ h))
          have hine : i ≠ index := fun he => hiti (he ▸ hidx_in_ti)
          rw [hframeM i hiti hit', hd5_other i hine, hA5 i hit]
          refine hT.dead_clean i ?_ hit
          rw [hflen] at hilt
          exact hilt
        · -- slots in range
          intro i hi
          dsimp only
          rw [hii_all i, he1len]
          exact hT.slots_lt i ((hmemM i).1 hi)
        · -- slots injective
          intro i hi j hj hij
          rw [hii_all i, hii_all j] at hij
          exact hT.slots_inj i ((hmemM i).1 hi) j ((hmemM j).1 hj) hij
        · -- slots surjective
          intro sl hsl
          dsimp only at hsl
          rw [he1len] at hsl
          obtain ⟨i, hit, hisl⟩ := hT.slots_surj sl hsl
          exact ⟨i, (hmemM i).2 hit, by rw [hii_all i]; exact hisl⟩
        · dsimp only
          rw [he1len, hflen]
          exact hT.elen
        · -- locator entries
          intro e he
          dsimp only at he ⊢
          refine ⟨(hmemM e.2).2 (hT.map_entries e he).1, ?_⟩
          by_cases he2 : e.2 = index
          · rw [he2, hvalM_idx]
            have hk1 : P.keyeq e.1 (valAt s.elements s.data index) = true := by
              have h2 := (hT.map_entries e he).2
              rw [he2] at h2
              exact h2
            exact L.ktrans e.1 _ d hk1 (L.ksymm _ _ hkey_di)
          · rw [hvals_all e.2 (hT.map_entries e he).1 he2]
            exact (hT.map_entries e he).2
        · -- locator resolution
          intro i hi
          dsimp only at hi ⊢
          by_cases hii : i = index
          · rw [hii, hvalM_idx]
            exact hlku
          · rw [hvals_all i ((hmemM i).1 hi) hii]
            exact hT.map_resolves i ((hmemM i).1 hi)
        · -- heap order
          dsimp only
          exact heapOrd_congr tnew (hordM hord5_ti hord5_t')
            (fun j _ => hvalsM j)

theorem meldT_rootIdx (cmp : T → T → Bool) (vals : Nat → T) (t1 t2 : HTree) :
    (meldT cmp vals t1 t2).rootIdx =
      if cmp (vals t1.rootIdx) (vals t2.rootIdx) then t1.rootIdx
      else t2.rootIdx := by
  unfold meldT
  split
  · rw [rootIdx_addChild]
  · rw [rootIdx_addChild]

theorem nodup_meldT {cmp : T → T → Bool} {vals : Nat → T} {t1 t2 : HTree}
    (h1 : (nodesOf t1).Nodup) (h2 : (nodesOf t2).Nodup)
    (hdisj : ∀ j ∈ nodesOf t1, j ∉ nodesOf t2) :
    (nodesOf (meldT cmp vals t1 t2)).Nodup := by
  rw [(nodesOf_meldT cmp vals t1 t2).nodup_iff]
  exact List.nodup_append.2 ⟨h1, h2, fun a ha hb => hdisj a ha hb⟩

/-- One iteration of the pairing pass of `pop`: clear the context fields of
the two roots, compare-and-merge, and hook the winner into the scratch
`left_sibling` chain.  The arena afterwards represents the meld, whose root
has a clear `parent`/`right_sibling` and the scratch link in
`left_sibling`; everything outside the two trees is untouched. -/
theorem pair_step (P : HeapParams T) [Inhabited T] (elements : List T)
    (hasymm : ∀ a b, P.cmp a b = true → P.cmp b a = false)
    {data : List Node} {tA tB : HTree}
    (hbound : data.length < NONE)
    (hA : reps data tA) (hB : reps data tB)
    (hndA : (nodesOf tA).Nodup) (hndB : (nodesOf tB).Nodup)
    (hdisj : ∀ j ∈ nodesOf tA, j ∉ nodesOf tB) (pp : Nat) :
    ∀ c2 dw : List Node,
    c2 = setRS (setLS (setParent (setRS (setLS (setParent data tA.rootIdx NONE)
      tA.rootIdx NONE) tA.rootIdx NONE) tB.rootIdx NONE) tB.rootIdx NONE)
      tB.rootIdx NONE →
    dw = (if P.cmp (valAt elements c2 tA.rootIdx) (valAt elements c2 tB.rootIdx)
      then setLS (mergeIdx c2 tB.rootIdx tA.rootIdx) tA.rootIdx pp
      else setLS (mergeIdx c2 tA.rootIdx tB.rootIdx) tB.rootIdx pp) →
    reps dw (meldT P.cmp (valAt elements data) tA tB) ∧
    (∀ j, j ∉ nodesOf tA → j ∉ nodesOf tB → nodeAt dw j = nodeAt data j) ∧
    (∀ j, (nodeAt dw j).item_index = (nodeAt data j).item_index) ∧
    dw.length = data.length ∧
    (nodeAt dw (meldT P.cmp (valAt elements data) tA tB).rootIdx).parent
      = NONE ∧
    (nodeAt dw (meldT P.cmp (valAt elements data) tA tB).rootIdx).right_sibling
      = NONE ∧
    (nodeAt dw (meldT P.cmp (valAt elements data) tA tB).rootIdx).left_sibling
      = pp := by
  intro c2 dw hc2 hdw
  have haA : tA.rootIdx ∈ nodesOf tA := rootIdx_mem_nodesOf tA
  have hbB : tB.rootIdx ∈ nodesOf tB := rootIdx_mem_nodesOf tB
  have halt : tA.rootIdx < data.length := reps_nodes_lt data tA hA _ haA
  have hblt : tB.rootIdx < data.length := reps_nodes_lt data tB hB _ hbB
  have hab : tA.rootIdx ≠ tB.rootIdx := fun he => hdisj _ haA (he ▸ hbB)
  have hc2_other : ∀ j, j ≠ tA.rootIdx → j ≠ tB.rootIdx →
      nodeAt c2 j = nodeAt data j := by
    intro j hja hjb
    rw [hc2, nodeAt_setRS_other _ _ NONE hjb, nodeAt_setLS_other _ _ NONE hjb,
      nodeAt_setParent_other _ _ NONE hjb, nodeAt_setRS_other _ _ NONE hja,
      nodeAt_setLS_other _ _ NONE hja, nodeAt_setParent_other _ _ NONE hja]
  have hlen_c2 : c2.length = data.length := by
    rw [hc2]
    simp only [length_setRS, length_setLS, length_setParent]
  have hc1_a : nodeAt (setRS (setLS (setParent data tA.rootIdx NONE)
      tA.rootIdx NONE) tA.rootIdx NONE) tA.rootIdx =
      ⟨(nodeAt data tA.rootIdx).item_index, NONE,
        (nodeAt data tA.rootIdx).child, NONE, NONE⟩ := by
    rw [nodeAt_setRS_self _ _ NONE
        (by simp only [length_setLS, length_setParent]; exact halt),
      nodeAt_setLS_self _ _ NONE
        (by simp only [length_setParent]; exact halt),
      nodeAt_setParent_self _ _ NONE halt]
  have hc2_a : nodeAt c2 tA.rootIdx =
      ⟨(nodeAt data tA.rootIdx).item_index, NONE,
        (nodeAt data tA.rootIdx).child, NONE, NONE⟩ := by
    rw [hc2, nodeAt_setRS_other _ _ NONE hab, nodeAt_setLS_other _ _ NONE hab,
      nodeAt_setParent_other _ _ NONE hab, hc1_a]
  have hc2_b : nodeAt c2 tB.rootIdx =
      ⟨(nodeAt data tB.rootIdx).item_index, NONE,
        (nodeAt data tB.rootIdx).child, NONE, NONE⟩ := by
    rw [hc2, nodeAt_setRS_self _ _ NONE
        (by simp only [length_setLS, length_setParent, length_setRS]; exact hblt),
      nodeAt_setLS_self _ _ NONE
        (by simp only [length_setParent, length_setRS, length_setLS]; exact hblt),
      nodeAt_setParent_self _ _ NONE
        (by simp only [length_setRS, length_setLS, length_setParent]; exact hblt),
      nodeAt_setRS_other _ _ NONE (Ne.symm hab),
      nodeAt_setLS_other _ _ NONE (Ne.symm hab),
      nodeAt_setParent_other _ _ NONE (Ne.symm hab)]
  have hii_c2 : ∀ j, (nodeAt c2 j).item_index = (nodeAt data j).item_index := by
    intro j
    rw [hc2, setRS_ii, setLS_ii, setParent_ii, setRS_ii, setLS_ii, setParent_ii]
  have hvc2 : ∀ j, valAt elements c2 j = valAt elements data j :=
    fun j => valAt_congr_ii (hii_c2 j)
  have hrepsA2 : reps c2 tA := by
    refine reps_congr (by rw [hlen_c2]) tA hA hndA ?_ ?_ ?_
    · rw [hc2_a]
    · rw [hc2_a]
    · intro j hj hjne
      exact hc2_other j hjne (fun he => hdisj j hj (he ▸ hbB))
  have hrepsB2 : reps c2 tB := by
    refine reps_congr (by rw [hlen_c2]) tB hB hndB ?_ ?_ ?_
    · rw [hc2_b]
    · rw [hc2_b]
    · intro j hj hjne
      refine hc2_other j ?_ hjne
      intro he
      exact hdisj _ haA (he ▸ hj)
  have hlsA : (nodeAt c2 tA.rootIdx).left_sibling = NONE := by rw [hc2_a]
  have hlsB : (nodeAt c2 tB.rootIdx).left_sibling = NONE := by rw [hc2_b]
  have hcall := @meld_call T P _ elements c2 tA tB hasymm
    (by rw [hlen_c2]; exact hbound) hrepsA2 hrepsB2 hndA hndB hdisj hlsA hlsB
  obtain ⟨hrepM, hrootM, hctxM, hframeM, hiiM, hlenM, _⟩ := hcall
  have hmeld_eq : meldT P.cmp (valAt elements c2) tA tB =
      meldT P.cmp (valAt elements data) tA tB := by
    unfold meldT
    rw [hvc2, hvc2]
  rw [hmeld_eq] at hrepM hrootM
  have hWroot : (meldT P.cmp (valAt elements data) tA tB).rootIdx =
      if P.cmp (valAt elements c2 tA.rootIdx) (valAt elements c2 tB.rootIdx)
      then tA.rootIdx else tB.rootIdx := by
    rw [meldT_rootIdx, ← hvc2, ← hvc2]
  have hdw' : dw = setLS
      (if P.cmp (valAt elements c2 tA.rootIdx) (valAt elements c2 tB.rootIdx)
        then mergeIdx c2 tB.rootIdx tA.rootIdx
        else mergeIdx c2 tA.rootIdx tB.rootIdx)
      (meldT P.cmp (valAt elements data) tA tB).rootIdx pp := by
    rw [hdw, hWroot]
    by_cases hcond : P.cmp (valAt elements c2 tA.rootIdx)
        (valAt elements c2 tB.rootIdx) = true
    · rw [if_pos hcond, if_pos hcond, if_pos hcond]
    · rw [if_neg hcond, if_neg hcond, if_neg hcond]
  have hndW : (nodesOf (meldT P.cmp (valAt elements data) tA tB)).Nodup :=
    nodup_meldT hndA hndB hdisj
  have hWmem : ∀ j, j ∈ nodesOf (meldT P.cmp (valAt elements data) tA tB) ↔
      (j ∈ nodesOf tA ∨ j ∈ nodesOf tB) := by
    intro j
    rw [(nodesOf_meldT P.cmp (valAt elements data) tA tB).mem_iff,
      List.mem_append]
  have hWrootmem : (meldT P.cmp (valAt elements data) tA tB).rootIdx ∈
      nodesOf (meldT P.cmp (valAt elements data) tA tB) :=
    rootIdx_mem_nodesOf _
  have hWrootlt : (meldT P.cmp (valAt elements data) tA tB).rootIdx <
      data.length := by
    rcases (hWmem _).1 hWrootmem with h | h
    · exact reps_nodes_lt data tA hA _ h
    · exact reps_nodes_lt data tB hB _ h
  have hWrootltf : (meldT P.cmp (valAt elements data) tA tB).rootIdx <
      (if P.cmp (valAt elements c2 tA.rootIdx) (valAt elements c2 tB.rootIdx)
        then mergeIdx c2 tB.rootIdx tA.rootIdx
        else mergeIdx c2 tA.rootIdx tB.rootIdx).length := by
    rw [hlenM, hlen_c2]
    exact hWrootlt
  have hctxM' := hctxM _ rfl
  rw [hmeld_eq] at hctxM'
  have hW_ab : (meldT P.cmp (valAt elements data) tA tB).rootIdx = tA.rootIdx ∨
      (meldT P.cmp (valAt elements data) tA tB).rootIdx = tB.rootIdx := by
    rw [hWroot]
    split
    · exact Or.inl rfl
    · exact Or.inr rfl
  have hc2root_par : (nodeAt c2
      (meldT P.cmp (valAt elements data) tA tB).rootIdx).parent = NONE := by
    rcases hW_ab with h | h
    · rw [h, hc2_a]
    · rw [h, hc2_b]
  have hc2root_rs : (nodeAt c2
      (meldT P.cmp (valAt elements data) tA tB).rootIdx).right_sibling
      = NONE := by
    rcases hW_ab with h | h
    · rw [h, hc2_a]
    · rw [h, hc2_b]
  refine ⟨?_, ?_, ?_, ?_, ?_, ?_, ?_⟩
  · -- representation of the meld after the scratch link
    refine reps_congr (by rw [hdw', length_setLS, hlenM, hlen_c2]) _ hrepM
      hndW ?_ ?_ ?_
    · rw [hdw', nodeAt_setLS_self _ _ pp hWrootltf]
    · rw [hdw', nodeAt_setLS_self _ _ pp hWrootltf]
    · intro j hj hjne
      rw [hdw', nodeAt_setLS_other _ _ pp hjne]
  · intro j hjA hjB
    have hjW : j ∉ nodesOf (meldT P.cmp (valAt elements data) tA tB) :=
      fun h => (by rcases (hWmem j).1 h with h | h
                   exacts [hjA h, hjB h] : False)
    have hjroot : j ≠ (meldT P.cmp (valAt elements data) tA tB).rootIdx :=
      fun he => hjW (he ▸ hWrootmem)
    rw [hdw', nodeAt_setLS_other _ _ pp hjroot, hframeM j hjA hjB,
      hc2_other j (fun he => hjA (he ▸ haA)) (fun he => hjB (he ▸ hbB))]
  · intro j
    rw [hdw', setLS_ii, hiiM j, hii_c2 j]
  · rw [hdw', length_setLS, hlenM, hlen_c2]
  · rw [hdw', nodeAt_setLS_self _ _ pp hWrootltf]
    show (nodeAt _ _).parent = NONE
    rw [hctxM'.1]
    exact hc2root_par
  · rw [hdw', nodeAt_setLS_self _ _ pp hWrootltf]
    show (nodeAt _ _).right_sibling = NONE
    rw [hctxM'.2.2]
    exact hc2root_rs
  · rw [hdw', nodeAt_setLS_self _ _ pp hWrootltf]

theorem oddTail_mem : ∀ {cs : List HTree} {t : HTree},
    oddTail cs = some t → t ∈ cs
  | [], t => by
    intro h
    simp [oddTail] at h
  | [t'], t => by
    intro h
    simp only [oddTail, Option.some_inj] at h
    subst h
    exact List.mem_cons_self _ _
  | _ :: _ :: rest, t => by
    intro h
    have h' : oddTail rest = some t := h
    exact List.mem_cons_of_mem _ (List.mem_cons_of_mem _ (oddTail_mem h'))

theorem pairsT_eq_procW (cmp : T → T → Bool) (vals : Nat → T) :
    ∀ cs : List HTree, pairsT cmp vals cs =
      procW cmp vals cs ++ (oddTail cs).elim [] (fun t => [t])
  | [] => rfl
  | [t] => rfl
  | a :: b :: rest => by
    simp only [pairsT, procW, oddTail, List.cons_append]
    rw [pairsT_eq_procW cmp vals rest]

/-- The pairing loop of `pop`, run on an arena chain carrying the child
trees: it melds consecutive pairs, hooks the winners into the scratch
`left_sibling` chain starting at `pp`, returns the handle of an unpaired
final tree in `index1` (the sentinel when the count is even) and the last
winner so far in `prev_pair`/`new_top_`, and touches nothing outside the
trees of the chain. -/
theorem pairLoop_spec (P : HeapParams T) [Inhabited T] (elements : List T)
    (hasymm : ∀ a b, P.cmp a b = true → P.cmp b a = false) (q : Nat) :
    ∀ (cts : List HTree) (fuel : Nat) (data : List Node) (h prevC pp : Nat),
      cts.length ≤ fuel →
      chainSeg data q h prevC (cts.map HTree.rootIdx) NONE →
      (∀ ct ∈ cts, reps data ct) →
      ((cts.map nodesOf).flatten).Nodup →
      data.length < NONE →
      ∃ d1 : List Node,
        pairLoop P elements fuel data h pp pp =
          (d1, (oddTail cts).elim NONE HTree.rootIdx,
            ((procW P.cmp (valAt elements data) cts).map
              HTree.rootIdx).getLastD pp,
            ((procW P.cmp (valAt elements data) cts).map
              HTree.rootIdx).getLastD pp) ∧
        (∀ w ∈ procW P.cmp (valAt elements data) cts, reps d1 w ∧
          (nodeAt d1 w.rootIdx).parent = NONE ∧
          (nodeAt d1 w.rootIdx).right_sibling = NONE) ∧
        lsChain d1 pp ((procW P.cmp (valAt elements data) cts).map
          HTree.rootIdx) ∧
        (∀ t0, oddTail cts = some t0 →
          ∀ j ∈ nodesOf t0, nodeAt d1 j = nodeAt data j) ∧
        (∀ j, j ∉ (cts.map nodesOf).flatten → nodeAt d1 j = nodeAt data j) ∧
        (∀ j, (nodeAt d1 j).item_index = (nodeAt data j).item_index) ∧
        d1.length = data.length
  | [] => by
    intro fuel data h prevC pp hfuel hchain hreps hnd hbound
    have hh : h = NONE := hchain
    subst hh
    refine ⟨data, ?_, ?_, ?_, ?_, ?_, ?_, rfl⟩
    · cases fuel with
      | zero => rfl
      | succ n => simp [pairLoop, procW, oddTail]
    · intro w hw
      simp [procW] at hw
    · simp only [procW, List.map_nil, lsChain]
    · intro t0 ht0
      simp [oddTail] at ht0
    · intro j _
      rfl
    · intro j
      rfl
  | [t] => by
    intro fuel data h prevC pp hfuel hchain hreps hnd hbound
    simp only [List.map_cons, List.map_nil] at hchain
    obtain ⟨hh, hpt, hlt, hrest⟩ := hchain
    have hrs : (nodeAt data t.rootIdx).right_sibling = NONE := hrest
    subst hh
    have htlt : t.rootIdx < data.length :=
      reps_nodes_lt data t (hreps t (List.mem_cons_self t [])) _
        (rootIdx_mem_nodesOf t)
    have htne : t.rootIdx ≠ NONE := Nat.ne_of_lt (htlt.trans hbound)
    refine ⟨data, ?_, ?_, ?_, ?_, ?_, ?_, rfl⟩
    · cases fuel with
      | zero => rfl
      | succ n =>
        simp only [pairLoop, oddTail, procW, List.map_nil, List.getLastD_nil]
        rw [if_neg htne, if_pos hrs]
        rfl
    · intro w hw
      simp [procW] at hw
    · simp only [procW, List.map_nil, lsChain]
    · intro t0 ht0 j hj
      rfl
    · intro j _
      rfl
    · intro j
      rfl
  | a :: b :: rest => by
    intro fuel data h prevC pp hfuel hchain hreps hnd hbound
    simp only [List.map_cons] at hchain
    obtain ⟨hh, hpa, hla, hch2⟩ := hchain
    obtain ⟨hrs_a, hpb, hlb, hch3⟩ := hch2
    subst hh
    -- bookkeeping about the two front trees
    have hrepa : reps data a := hreps a (by simp)
    have hrepb : reps data b := hreps b (by simp)
    have haA : a.rootIdx ∈ nodesOf a := rootIdx_mem_nodesOf a
    have hbB : b.rootIdx ∈ nodesOf b := rootIdx_mem_nodesOf b
    have halt : a.rootIdx < data.length := reps_nodes_lt data a hrepa _ haA
    have hblt : b.rootIdx < data.length := reps_nodes_lt data b hrepb _ hbB
    have ha_ne : a.rootIdx ≠ NONE := Nat.ne_of_lt (halt.trans hbound)
    have hb_ne : b.rootIdx ≠ NONE := Nat.ne_of_lt (hblt.trans hbound)
    simp only [List.map_cons, List.flatten_cons] at hnd
    have hndA : (nodesOf a).Nodup := (List.nodup_append.1 hnd).1
    have hrest1 : (nodesOf b ++ (rest.map nodesOf).flatten).Nodup :=
      (List.nodup_append.1 hnd).2.1
    have hdisjA := (List.nodup_append.1 hnd).2.2
    have hndB : (nodesOf b).Nodup := (List.nodup_append.1 hrest1).1
    have hFRnd : ((rest.map nodesOf).flatten).Nodup :=
      (List.nodup_append.1 hrest1).2.1
    have hdisjB := (List.nodup_append.1 hrest1).2.2
    have hdisjAB : ∀ j ∈ nodesOf a, j ∉ nodesOf b := by
      intro j hj hjb
      exact hdisjA hj (List.mem_append_left _ hjb)
    have hdisjAF : ∀ j ∈ nodesOf a, j ∉ (rest.map nodesOf).flatten := by
      intro j hj hjf
      exact hdisjA hj (List.mem_append_right _ hjf)
    have hdisjBF : ∀ j ∈ nodesOf b, j ∉ (rest.map nodesOf).flatten := by
      intro j hj hjf
      exact hdisjB hj hjf
    have hmemF : ∀ ct ∈ rest, ∀ j ∈ nodesOf ct,
        j ∈ (rest.map nodesOf).flatten := by
      intro ct hct j hj
      exact List.mem_flatten.2 ⟨nodesOf ct, List.mem_map_of_mem nodesOf hct, hj⟩
    cases fuel with
    | zero => exact absurd hfuel (by simp)
    | succ n =>
    have hfuel' : rest.length ≤ n := by
      simp only [List.length_cons] at hfuel
      omega
    -- one unfolding of the loop
    have hps := pair_step P elements hasymm hbound hrepa hrepb hndA hndB
      hdisjAB pp _ _ rfl rfl
    obtain ⟨hrepW, hframeW, hiiW, hlenW, hparW, hrsW, hlsW⟩ := hps
    -- name the written arena and the winner root
    set c2 := setRS (setLS (setParent (setRS (setLS (setParent data
      a.rootIdx NONE) a.rootIdx NONE) a.rootIdx NONE) b.rootIdx NONE)
      b.rootIdx NONE) b.rootIdx NONE with hc2def
    set dwG := if P.cmp (valAt elements c2 a.rootIdx)
        (valAt elements c2 b.rootIdx)
      then setLS (mergeIdx c2 b.rootIdx a.rootIdx) a.rootIdx pp
      else setLS (mergeIdx c2 a.rootIdx b.rootIdx) b.rootIdx pp with hdwdef
    set W := meldT P.cmp (valAt elements data) a b with hWdef
    have hii_c2 : ∀ j, (nodeAt c2 j).item_index =
        (nodeAt data j).item_index := by
      intro j
      rw [hc2def, setRS_ii, setLS_ii, setParent_ii, setRS_ii, setLS_ii,
        setParent_ii]
    have hvc2 : ∀ j, valAt elements c2 j = valAt elements data j :=
      fun j => valAt_congr_ii (hii_c2 j)
    have hWroot : W.rootIdx = if P.cmp (valAt elements c2 a.rootIdx)
        (valAt elements c2 b.rootIdx) then a.rootIdx else b.rootIdx := by
      rw [hWdef, meldT_rootIdx, ← hvc2, ← hvc2]
    have hstep : pairLoop P elements (n + 1) data a.rootIdx pp pp =
        pairLoop P elements n dwG (nodeAt data b.rootIdx).right_sibling
          W.rootIdx W.rootIdx := by
      simp only [pairLoop]
      rw [if_neg ha_ne, hrs_a, if_neg hb_ne]
      rw [hWroot, hdwdef]
      by_cases hcond : P.cmp (valAt elements c2 a.rootIdx)
          (valAt elements c2 b.rootIdx) = true
      · rw [if_pos hcond, if_pos hcond, if_pos hcond]
      · rw [if_neg hcond, if_neg hcond, if_neg hcond]
    have hvals_dw : valAt elements dwG = valAt elements data :=
      funext (fun j => valAt_congr_ii (hiiW j))
    -- the remaining chain and trees in the written arena
    have hch3' : chainSeg dwG q (nodeAt data b.rootIdx).right_sibling
        b.rootIdx (rest.map HTree.rootIdx) NONE := by
      refine chainSeg_congr hch3 ?_
      intro j hj
      obtain ⟨ct, hct, hroot⟩ := List.mem_map.1 hj
      refine hframeW j ?_ ?_
      · intro hja
        exact hdisjAF j hja (hmemF ct hct j (hroot ▸ rootIdx_mem_nodesOf ct))
      · intro hjb
        exact hdisjBF j hjb (hmemF ct hct j (hroot ▸ rootIdx_mem_nodesOf ct))
    have hreps' : ∀ ct ∈ rest, reps dwG ct := by
      intro ct hct
      have hfar : ∀ j ∈ nodesOf ct, nodeAt dwG j = nodeAt data j := by
        intro j hj
        refine hframeW j ?_ ?_
        · intro hja
          exact hdisjAF j hja (hmemF ct hct j hj)
        · intro hjb
          exact hdisjBF j hjb (hmemF ct hct j hj)
      refine reps_congr (by rw [hlenW]) ct (hreps ct (by simp [hct]))
        ((List.nodup_flatten.1 hFRnd).1 (nodesOf ct)
          (List.mem_map_of_mem nodesOf hct)) ?_ ?_ ?_
      · rw [hfar _ (rootIdx_mem_nodesOf ct)]
      · rw [hfar _ (rootIdx_mem_nodesOf ct)]
      · intro j hj _
        exact hfar j hj
    have hIH := pairLoop_spec P elements hasymm q rest n dwG
      (nodeAt data b.rootIdx).right_sibling b.rootIdx W.rootIdx hfuel'
      hch3' hreps' hFRnd (by rw [hlenW]; exact hbound)
    obtain ⟨d1, htuple, hwins, hlsc, hodd, hframe1, hii1, hlen1⟩ := hIH
    rw [hvals_dw] at htuple hwins hlsc
    have hframe1' : ∀ j, j ∉ (rest.map nodesOf).flatten →
        nodeAt d1 j = nodeAt dwG j := hframe1
    have hWnodes : ∀ j, j ∈ nodesOf W → (j ∈ nodesOf a ∨ j ∈ nodesOf b) := by
      intro j hj
      have := (nodesOf_meldT P.cmp (valAt elements data) a b).mem_iff.1
        (hWdef ▸ hj)
      exact List.mem_append.1 this
    have hWfar : ∀ j ∈ nodesOf W, nodeAt d1 j = nodeAt dwG j := by
      intro j hj
      refine hframe1' j ?_
      intro hjf
      rcases hWnodes j hj with hja | hjb
      · exact hdisjAF j hja hjf
      · exact hdisjBF j hjb hjf
    have hndW : (nodesOf W).Nodup := by
      rw [hWdef]
      exact nodup_meldT hndA hndB hdisjAB
    have hrepW1 : reps d1 W := by
      refine reps_congr (by rw [hlen1, hlenW]) W hrepW hndW ?_ ?_ ?_
      · rw [hWfar _ (rootIdx_mem_nodesOf W)]
      · rw [hWfar _ (rootIdx_mem_nodesOf W)]
      · intro j hj _
        exact hWfar j hj
    refine ⟨d1, ?_, ?_, ?_, ?_, ?_, ?_, ?_⟩
    · -- the returned tuple
      rw [hstep, htuple]
      simp only [procW, oddTail, List.map_cons, List.getLastD_cons]
    · -- the processed winners
      intro w hw
      simp only [procW, List.mem_cons] at hw
      rcases hw with rfl | hw
      · exact ⟨hrepW1, by rw [hWfar _ (rootIdx_mem_nodesOf W)]; exact hparW,
          by rw [hWfar _ (rootIdx_mem_nodesOf W)]; exact hrsW⟩
      · exact hwins w hw
    · -- the scratch chain
      simp only [procW, List.map_cons, lsChain]
      exact ⟨by rw [hWfar _ (rootIdx_mem_nodesOf W)]; exact hlsW, hlsc⟩
    · -- the unpaired final tree is untouched
      intro t0 ht0 j hj
      have ht0' : oddTail rest = some t0 := ht0
      have hmem0 : t0 ∈ rest := oddTail_mem ht0'
      rw [hodd t0 ht0' j hj]
      refine hframeW j ?_ ?_
      · intro hja
        exact hdisjAF j hja (hmemF t0 hmem0 j hj)
      · intro hjb
        exact hdisjBF j hjb (hmemF t0 hmem0 j hj)
    · -- frame outside the chain trees
      intro j hj
      simp only [List.map_cons, List.flatten_cons, List.mem_append] at hj
      push_neg at hj
      rw [hframe1' j hj.2.2]
      exact hframeW j hj.1 hj.2.1
    · intro j
      rw [hii1 j, hiiW j]
    · rw [hlen1, hlenW]

theorem lsChain_congr {data data2 : List Node} :
    ∀ {prev : Nat} {js : List Nat}, lsChain data prev js →
      (∀ j ∈ js, (nodeAt data2 j).left_sibling =
        (nodeAt data j).left_sibling) →
      lsChain data2 prev js := by
  intro prev js
  induction js generalizing prev with
  | nil => intro _ _; exact trivial
  | cons j rest ih =>
    intro hc hagree
    obtain ⟨hj, hrest⟩ := hc
    refine ⟨?_, ih hrest (fun j' hj' => hagree j' (List.mem_cons_of_mem j hj'))⟩
    rw [hagree j (List.mem_cons_self j rest)]
    exact hj

theorem lsChain_append {data : List Node} :
    ∀ {prev : Nat} {l : List Nat} {x : Nat}, lsChain data prev l →
      (nodeAt data x).left_sibling = l.getLastD prev →
      lsChain data prev (l ++ [x]) := by
  intro prev l
  induction l generalizing prev with
  | nil =>
    intro x _ hx
    exact ⟨hx, trivial⟩
  | cons j rest ih =>
    intro x hc hx
    obtain ⟨hj, hrest⟩ := hc
    refine ⟨hj, ih hrest ?_⟩
    rw [hx, List.getLastD_cons]

theorem lsChain_split {data : List Node} :
    ∀ {prev : Nat} {l : List Nat} {x : Nat}, lsChain data prev (l ++ [x]) →
      lsChain data prev l ∧
      (nodeAt data x).left_sibling = l.getLastD prev := by
  intro prev l
  induction l generalizing prev with
  | nil =>
    intro x hc
    exact ⟨trivial, hc.1⟩
  | cons j rest ih =>
    intro x hc
    obtain ⟨hj, hrest⟩ := hc
    obtain ⟨h1, h2⟩ := ih hrest
    exact ⟨⟨hj, h1⟩, by rw [h2, List.getLastD_cons]⟩

/-- One iteration of the accumulation pass of `pop`: clear the scratch
`left_sibling` of the accumulated root and the next winner,
compare-and-merge, and store the scratch link to the remaining winners in
the new root.  The roots' `parent`/`right_sibling` fields pass through
unchanged. -/
theorem accum_step (P : HeapParams T) [Inhabited T] (elements : List T)
    (hasymm : ∀ a b, P.cmp a b = true → P.cmp b a = false)
    {data : List Node} {tA tB : HTree}
    (hbound : data.length < NONE)
    (hA : reps data tA) (hB : reps data tB)
    (hndA : (nodesOf tA).Nodup) (hndB : (nodesOf tB).Nodup)
    (hdisj : ∀ j ∈ nodesOf tA, j ∉ nodesOf tB) (np : Nat) :
    ∀ c1 dw : List Node,
    c1 = setLS (setLS data tB.rootIdx NONE) tA.rootIdx NONE →
    dw = (if P.cmp (valAt elements c1 tA.rootIdx) (valAt elements c1 tB.rootIdx)
      then setLS (mergeIdx c1 tB.rootIdx tA.rootIdx) tA.rootIdx np
      else setLS (mergeIdx c1 tA.rootIdx tB.rootIdx) tB.rootIdx np) →
    reps dw (meldT P.cmp (valAt elements data) tA tB) ∧
    (∀ j, j ∉ nodesOf tA → j ∉ nodesOf tB → nodeAt dw j = nodeAt data j) ∧
    (∀ j, (nodeAt dw j).item_index = (nodeAt data j).item_index) ∧
    dw.length = data.length ∧
    (nodeAt dw (meldT P.cmp (valAt elements data) tA tB).rootIdx).parent
      = (nodeAt data (meldT P.cmp (valAt elements data) tA tB).rootIdx).parent ∧
    (nodeAt dw (meldT P.cmp (valAt elements data) tA tB).rootIdx).right_sibling
      = (nodeAt data
        (meldT P.cmp (valAt elements data) tA tB).rootIdx).right_sibling ∧
    (nodeAt dw (meldT P.cmp (valAt elements data) tA tB).rootIdx).left_sibling
      = np := by
  intro c1 dw hc1 hdw
  have haA : tA.rootIdx ∈ nodesOf tA := rootIdx_mem_nodesOf tA
  have hbB : tB.rootIdx ∈ nodesOf tB := rootIdx_mem_nodesOf tB
  have halt : tA.rootIdx < data.length := reps_nodes_lt data tA hA _ haA
  have hblt : tB.rootIdx < data.length := reps_nodes_lt data tB hB _ hbB
  have hab : tA.rootIdx ≠ tB.rootIdx := fun he => hdisj _ haA (he ▸ hbB)
  have hc1_other : ∀ j, j ≠ tA.rootIdx → j ≠ tB.rootIdx →
      nodeAt c1 j = nodeAt data j := by
    intro j hja hjb
    rw [hc1, nodeAt_setLS_other _ _ NONE hja, nodeAt_setLS_other _ _ NONE hjb]
  have hlen_c1 : c1.length = data.length := by
    rw [hc1]
    simp only [length_setLS]
  have hc1_a : nodeAt c1 tA.rootIdx =
      { nodeAt data tA.rootIdx with left_sibling := NONE } := by
    rw [hc1, nodeAt_setLS_self _ _ NONE
        (by simp only [length_setLS]; exact halt),
      nodeAt_setLS_other _ _ NONE hab]
  have hc1_b : nodeAt c1 tB.rootIdx =
      { nodeAt data tB.rootIdx with left_sibling := NONE } := by
    rw [hc1, nodeAt_setLS_other _ _ NONE (Ne.symm hab),
      nodeAt_setLS_self _ _ NONE hblt]
  have hii_c1 : ∀ j, (nodeAt c1 j).item_index = (nodeAt data j).item_index := by
    intro j
    rw [hc1, setLS_ii, setLS_ii]
  have hvc1 : ∀ j, valAt elements c1 j = valAt elements data j :=
    fun j => valAt_congr_ii (hii_c1 j)
  have hrepsA1 : reps c1 tA := by
    refine reps_congr (by rw [hlen_c1]) tA hA hndA ?_ ?_ ?_
    · rw [hc1_a]
    · rw [hc1_a]
    · intro j hj hjne
      exact hc1_other j hjne (fun he => hdisj j hj (he ▸ hbB))
  have hrepsB1 : reps c1 tB := by
    refine reps_congr (by rw [hlen_c1]) tB hB hndB ?_ ?_ ?_
    · rw [hc1_b]
    · rw [hc1_b]
    · intro j hj hjne
      refine hc1_other j ?_ hjne
      intro he
      exact hdisj _ haA (he ▸ hj)
  have hlsA : (nodeAt c1 tA.rootIdx).left_sibling = NONE := by rw [hc1_a]
  have hlsB : (nodeAt c1 tB.rootIdx).left_sibling = NONE := by rw [hc1_b]
  have hcall := @meld_call T P _ elements c1 tA tB hasymm
    (by rw [hlen_c1]; exact hbound) hrepsA1 hrepsB1 hndA hndB hdisj hlsA hlsB
  obtain ⟨hrepM, hrootM, hctxM, hframeM, hiiM, hlenM, _⟩ := hcall
  have hmeld_eq : meldT P.cmp (valAt elements c1) tA tB =
      meldT P.cmp (valAt elements data) tA tB := by
    unfold meldT
    rw [hvc1, hvc1]
  rw [hmeld_eq] at hrepM hrootM
  have hWroot : (meldT P.cmp (valAt elements data) tA tB).rootIdx =
      if P.cmp (valAt elements c1 tA.rootIdx) (valAt elements c1 tB.rootIdx)
      then tA.rootIdx else tB.rootIdx := by
    rw [meldT_rootIdx, ← hvc1, ← hvc1]
  have hdw' : dw = setLS
      (if P.cmp (valAt elements c1 tA.rootIdx) (valAt elements c1 tB.rootIdx)
        then mergeIdx c1 tB.rootIdx tA.rootIdx
        else mergeIdx c1 tA.rootIdx tB.rootIdx)
      (meldT P.cmp (valAt elements data) tA tB).rootIdx np := by
    rw [hdw, hWroot]
    by_cases hcond : P.cmp (valAt elements c1 tA.rootIdx)
        (valAt elements c1 tB.rootIdx) = true
    · rw [if_pos hcond, if_pos hcond, if_pos hcond]
    · rw [if_neg hcond, if_neg hcond, if_neg hcond]
  have hndW : (nodesOf (meldT P.cmp (valAt elements data) tA tB)).Nodup :=
    nodup_meldT hndA hndB hdisj
  have hWmem : ∀ j, j ∈ nodesOf (meldT P.cmp (valAt elements data) tA tB) ↔
      (j ∈ nodesOf tA ∨ j ∈ nodesOf tB) := by
    intro j
    rw [(nodesOf_meldT P.cmp (valAt elements data) tA tB).mem_iff,
      List.mem_append]
  have hWrootmem : (meldT P.cmp (valAt elements data) tA tB).rootIdx ∈
      nodesOf (meldT P.cmp (valAt elements data) tA tB) :=
    rootIdx_mem_nodesOf _
  have hWrootlt : (meldT P.cmp (valAt elements data) tA tB).rootIdx <
      data.length := by
    rcases (hWmem _).1 hWrootmem with h | h
    · exact reps_nodes_lt data tA hA _ h
    · exact reps_nodes_lt data tB hB _ h
  have hWrootltf : (meldT P.cmp (valAt elements data) tA tB).rootIdx <
      (if P.cmp (valAt elements c1 tA.rootIdx) (valAt elements c1 tB.rootIdx)
        then mergeIdx c1 tB.rootIdx tA.rootIdx
        else mergeIdx c1 tA.rootIdx tB.rootIdx).length := by
    rw [hlenM, hlen_c1]
    exact hWrootlt
  have hctxM' := hctxM _ rfl
  rw [hmeld_eq] at hctxM'
  have hW_ab : (meldT P.cmp (valAt elements data) tA tB).rootIdx = tA.rootIdx ∨
      (meldT P.cmp (valAt elements data) tA tB).rootIdx = tB.rootIdx := by
    rw [hWroot]
    split
    · exact Or.inl rfl
    · exact Or.inr rfl
  have hc1root_par : (nodeAt c1
      (meldT P.cmp (valAt elements data) tA tB).rootIdx).parent =
      (nodeAt data (meldT P.cmp (valAt elements data) tA tB).rootIdx).parent := by
    rcases hW_ab with h | h
    · rw [h, hc1_a]
    · rw [h, hc1_b]
  have hc1root_rs : (nodeAt c1
      (meldT P.cmp (valAt elements data) tA tB).rootIdx).right_sibling =
      (nodeAt data
        (meldT P.cmp (valAt elements data) tA tB).rootIdx).right_sibling := by
    rcases hW_ab with h | h
    · rw [h, hc1_a]
    · rw [h, hc1_b]
  refine ⟨?_, ?_, ?_, ?_, ?_, ?_, ?_⟩
  · refine reps_congr (by rw [hdw', length_setLS, hlenM, hlen_c1]) _ hrepM
      hndW ?_ ?_ ?_
    · rw [hdw', nodeAt_setLS_self _ _ np hWrootltf]
    · rw [hdw', nodeAt_setLS_self _ _ np hWrootltf]
    · intro j hj hjne
      rw [hdw', nodeAt_setLS_other _ _ np hjne]
  · intro j hjA hjB
    have hjW : j ∉ nodesOf (meldT P.cmp (valAt elements data) tA tB) :=
      fun h => (by rcases (hWmem j).1 h with h | h
                   exacts [hjA h, hjB h] : False)
    have hjroot : j ≠ (meldT P.cmp (valAt elements data) tA tB).rootIdx :=
      fun he => hjW (he ▸ hWrootmem)
    rw [hdw', nodeAt_setLS_other _ _ np hjroot, hframeM j hjA hjB,
      hc1_other j (fun he => hjA (he ▸ haA)) (fun he => hjB (he ▸ hbB))]
  · intro j
    rw [hdw', setLS_ii, hiiM j, hii_c1 j]
  · rw [hdw', length_setLS, hlenM, hlen_c1]
  · rw [hdw', nodeAt_setLS_self _ _ np hWrootltf]
    show (nodeAt _ _).parent = _
    rw [hctxM'.1]
    exact hc1root_par
  · rw [hdw', nodeAt_setLS_self _ _ np hWrootltf]
    show (nodeAt _ _).right_sibling = _
    rw [hctxM'.2.2]
    exact hc1root_rs
  · rw [hdw', nodeAt_setLS_self _ _ np hWrootltf]

/-- The accumulation loop of `pop`: starting from the last pairwise winner,
walk the scratch `left_sibling` chain of the pending winners (given here in
processing order, i.e. reversed production order) and meld them into the
accumulated root one by one. -/
theorem accumLoop_spec (P : HeapParams T) [Inhabited T] (elements : List T)
    (hasymm : ∀ a b, P.cmp a b = true → P.cmp b a = false) :
    ∀ (wsP : List HTree) (tacc : HTree) (fuel : Nat) (data : List Node),
      wsP.length ≤ fuel →
      reps data tacc →
      (∀ w ∈ wsP, reps data w) →
      ((wsP.map nodesOf).flatten ++ nodesOf tacc).Nodup →
      lsChain data NONE
        ((wsP.reverse.map HTree.rootIdx) ++ [tacc.rootIdx]) →
      (∀ w ∈ wsP, (nodeAt data w.rootIdx).parent = NONE ∧
        (nodeAt data w.rootIdx).right_sibling = NONE) →
      (nodeAt data tacc.rootIdx).parent = NONE →
      (nodeAt data tacc.rootIdx).right_sibling = NONE →
      data.length < NONE →
      ∃ d3 : List Node,
        accumLoop P elements fuel data tacc.rootIdx =
          (d3, (accumT P.cmp (valAt elements data) wsP tacc).rootIdx) ∧
        reps d3 (accumT P.cmp (valAt elements data) wsP tacc) ∧
        (nodeAt d3
          (accumT P.cmp (valAt elements data) wsP tacc).rootIdx).parent
          = NONE ∧
        (nodeAt d3
          (accumT P.cmp (valAt elements data) wsP tacc).rootIdx).left_sibling
          = NONE ∧
        (nodeAt d3
          (accumT P.cmp (valAt elements data) wsP tacc).rootIdx).right_sibling
          = NONE ∧
        (∀ j, j ∉ (wsP.map nodesOf).flatten → j ∉ nodesOf tacc →
          nodeAt d3 j = nodeAt data j) ∧
        (∀ j, (nodeAt d3 j).item_index = (nodeAt data j).item_index) ∧
        d3.length = data.length
  | [] => by
    intro tacc fuel data hfuel hrepA hrepsW hnd hchain hctxW hparA hrsA hbound
    simp only [List.reverse_nil, List.map_nil, List.nil_append, lsChain]
      at hchain
    have hlsA : (nodeAt data tacc.rootIdx).left_sibling = NONE := hchain.1
    have halt : tacc.rootIdx < data.length :=
      reps_nodes_lt data tacc hrepA _ (rootIdx_mem_nodesOf tacc)
    have hane : tacc.rootIdx ≠ NONE := Nat.ne_of_lt (halt.trans hbound)
    refine ⟨data, ?_, hrepA, hparA, hlsA, hrsA, ?_, ?_, rfl⟩
    · cases fuel with
      | zero => rfl
      | succ n =>
        simp only [accumLoop, accumT]
        rw [if_neg hane, if_pos hlsA]
    · intro j _ _
      rfl
    · intro j
      rfl
  | w :: rest => by
    intro tacc fuel data hfuel hrepA hrepsW hnd hchain hctxW hparA hrsA hbound
    have hrepw : reps data w := hrepsW w (by simp)
    have hwroot : w.rootIdx ∈ nodesOf w := rootIdx_mem_nodesOf w
    have haroot : tacc.rootIdx ∈ nodesOf tacc := rootIdx_mem_nodesOf tacc
    have hwlt : w.rootIdx < data.length := reps_nodes_lt data w hrepw _ hwroot
    have halt : tacc.rootIdx < data.length :=
      reps_nodes_lt data tacc hrepA _ haroot
    have hwne : w.rootIdx ≠ NONE := Nat.ne_of_lt (hwlt.trans hbound)
    have hane : tacc.rootIdx ≠ NONE := Nat.ne_of_lt (halt.trans hbound)
    -- nodup bookkeeping
    simp only [List.map_cons, List.flatten_cons] at hnd
    rw [List.append_assoc] at hnd
    have hndW : (nodesOf w).Nodup := (List.nodup_append.1 hnd).1
    have hrest1 : ((rest.map nodesOf).flatten ++ nodesOf tacc).Nodup :=
      (List.nodup_append.1 hnd).2.1
    have hdisjW := (List.nodup_append.1 hnd).2.2
    have hndA : (nodesOf tacc).Nodup := (List.nodup_append.1 hrest1).2.1
    have hdisjRA := (List.nodup_append.1 hrest1).2.2
    have hdisjWA : ∀ j ∈ nodesOf w, j ∉ nodesOf tacc := by
      intro j hj hja
      exact hdisjW hj (List.mem_append_right _ hja)
    have hdisjWR : ∀ j ∈ nodesOf w, j ∉ (rest.map nodesOf).flatten := by
      intro j hj hjf
      exact hdisjW hj (List.mem_append_left _ hjf)
    have hdisjAR : ∀ j ∈ nodesOf tacc, j ∉ (rest.map nodesOf).flatten := by
      intro j hj hjf
      exact hdisjRA hjf hj
    have hmemF : ∀ ct ∈ rest, ∀ j ∈ nodesOf ct,
        j ∈ (rest.map nodesOf).flatten := by
      intro ct hct j hj
      exact List.mem_flatten.2 ⟨nodesOf ct, List.mem_map_of_mem nodesOf hct, hj⟩
    -- destructure the scratch chain
    have hchain' : lsChain data NONE
        ((rest.reverse.map HTree.rootIdx ++ [w.rootIdx]) ++ [tacc.rootIdx]) := by
      have he : (w :: rest).reverse.map HTree.rootIdx =
          rest.reverse.map HTree.rootIdx ++ [w.rootIdx] := by
        rw [List.reverse_cons, List.map_append, List.map_cons, List.map_nil]
      rw [he] at hchain
      exact hchain
    obtain ⟨hchain1, hacc_ls⟩ := lsChain_split hchain'
    obtain ⟨hchain2, hw_ls⟩ := lsChain_split hchain1
    rw [List.getLastD_concat] at hacc_ls
    cases fuel with
    | zero => exact absurd hfuel (by simp)
    | succ n =>
    have hfuel' : rest.length ≤ n := by
      simp only [List.length_cons] at hfuel
      omega
    have hwa_ne : w.rootIdx ≠ tacc.rootIdx :=
      fun he => hdisjWA _ hwroot (he ▸ haroot)
    -- one unfolding of the loop
    have hstp := accum_step P elements hasymm hbound hrepw hrepA hndW hndA
      hdisjWA ((nodeAt data w.rootIdx).left_sibling) _ _ rfl rfl
    obtain ⟨hrepW, hframeW, hiiW, hlenW, hparW, hrsW, hlsW⟩ := hstp
    set c1 := setLS (setLS data tacc.rootIdx NONE) w.rootIdx NONE with hc1def
    set dwG := if P.cmp (valAt elements c1 w.rootIdx)
        (valAt elements c1 tacc.rootIdx)
      then setLS (mergeIdx c1 tacc.rootIdx w.rootIdx) w.rootIdx
        ((nodeAt data w.rootIdx).left_sibling)
      else setLS (mergeIdx c1 w.rootIdx tacc.rootIdx) tacc.rootIdx
        ((nodeAt data w.rootIdx).left_sibling) with hdwdef
    set W := meldT P.cmp (valAt elements data) w tacc with hWdef
    have hii_c1 : ∀ j, (nodeAt c1 j).item_index =
        (nodeAt data j).item_index := by
      intro j
      rw [hc1def, setLS_ii, setLS_ii]
    have hvc1 : ∀ j, valAt elements c1 j = valAt elements data j :=
      fun j => valAt_congr_ii (hii_c1 j)
    have hWroot : W.rootIdx = if P.cmp (valAt elements c1 w.rootIdx)
        (valAt elements c1 tacc.rootIdx) then w.rootIdx
        else tacc.rootIdx := by
      rw [hWdef, meldT_rootIdx, ← hvc1, ← hvc1]
    have hstep : accumLoop P elements (n + 1) data tacc.rootIdx =
        accumLoop P elements n dwG W.rootIdx := by
      simp only [accumLoop]
      rw [if_neg hane, hacc_ls, if_neg hwne]
      rw [hWroot, hdwdef]
      by_cases hcond : P.cmp (valAt elements c1 w.rootIdx)
          (valAt elements c1 tacc.rootIdx) = true
      · rw [if_pos hcond, if_pos hcond, if_pos hcond]
      · rw [if_neg hcond, if_neg hcond, if_neg hcond]
    have hvals_dw : valAt elements dwG = valAt elements data :=
      funext (fun j => valAt_congr_ii (hiiW j))
    have hWnodes : ∀ j, j ∈ nodesOf W → (j ∈ nodesOf w ∨ j ∈ nodesOf tacc) := by
      intro j hj
      have := (nodesOf_meldT P.cmp (valAt elements data) w tacc).mem_iff.1
        (hWdef ▸ hj)
      exact List.mem_append.1 this
    have hfarF : ∀ j, j ∈ (rest.map nodesOf).flatten →
        nodeAt dwG j = nodeAt data j := by
      intro j hj
      refine hframeW j ?_ ?_
      · intro hjw
        exact hdisjWR j hjw hj
      · intro hja
        exact hdisjAR j hja hj
    have hrepsW' : ∀ ct ∈ rest, reps dwG ct := by
      intro ct hct
      have hfar : ∀ j ∈ nodesOf ct, nodeAt dwG j = nodeAt data j :=
        fun j hj => hfarF j (hmemF ct hct j hj)
      refine reps_congr (by rw [hlenW]) ct (hrepsW ct (by simp [hct]))
        ((List.nodup_flatten.1 (List.nodup_append.1 hrest1).1).1 (nodesOf ct)
          (List.mem_map_of_mem nodesOf hct)) ?_ ?_ ?_
      · rw [hfar _ (rootIdx_mem_nodesOf ct)]
      · rw [hfar _ (rootIdx_mem_nodesOf ct)]
      · intro j hj _
        exact hfar j hj
    have hndWm : (nodesOf W).Nodup := by
      rw [hWdef]
      exact nodup_meldT hndW hndA hdisjWA
    have hnd' : ((rest.map nodesOf).flatten ++ nodesOf W).Nodup := by
      refine List.nodup_append.2 ⟨(List.nodup_append.1 hrest1).1, hndWm, ?_⟩
      intro j hjf hjW
      rcases hWnodes j hjW with hjw | hja
      · exact hdisjWR j hjw hjf
      · exact hdisjAR j hja hjf
    have hchain'' : lsChain dwG NONE
        ((rest.reverse.map HTree.rootIdx) ++ [W.rootIdx]) := by
      refine lsChain_append ?_ ?_
      · refine lsChain_congr hchain2 ?_
        intro j hj
        obtain ⟨ct, hct, hroot⟩ := List.mem_map.1 hj
        rw [hfarF j (List.mem_flatten.2 ⟨nodesOf ct,
          List.mem_map_of_mem nodesOf (List.mem_reverse.1 hct),
          hroot ▸ rootIdx_mem_nodesOf ct⟩)]
      · rw [hlsW, hw_ls]
    have hctxW' : ∀ w' ∈ rest, (nodeAt dwG w'.rootIdx).parent = NONE ∧
        (nodeAt dwG w'.rootIdx).right_sibling = NONE := by
      intro w' hw'
      have hfar := hfarF w'.rootIdx (hmemF w' hw' _ (rootIdx_mem_nodesOf w'))
      rw [hfar]
      exact hctxW w' (by simp [hw'])
    have hparW' : (nodeAt dwG W.rootIdx).parent = NONE := by
      rw [hparW]
      have hW_ab : W.rootIdx = w.rootIdx ∨ W.rootIdx = tacc.rootIdx := by
        rw [hWroot]
        split
        · exact Or.inl rfl
        · exact Or.inr rfl
      rcases hW_ab with h | h
      · rw [h]
        exact (hctxW w (by simp)).1
      · rw [h]
        exact hparA
    have hrsW' : (nodeAt dwG W.rootIdx).right_sibling = NONE := by
      rw [hrsW]
      have hW_ab : W.rootIdx = w.rootIdx ∨ W.rootIdx = tacc.rootIdx := by
        rw [hWroot]
        split
        · exact Or.inl rfl
        · exact Or.inr rfl
      rcases hW_ab with h | h
      · rw [h]
        exact (hctxW w (by simp)).2
      · rw [h]
        exact hrsA
    have hIH := accumLoop_spec P elements hasymm rest W n dwG hfuel'
      hrepW hrepsW' hnd' hchain'' hctxW' hparW' hrsW'
      (by rw [hlenW]; exact hbound)
    obtain ⟨d3, htuple, hrepF, hparF, hlsF, hrsF, hframe1, hii1, hlen1⟩ := hIH
    rw [hvals_dw] at htuple hrepF hparF hlsF hrsF
    have hacc_eq : accumT P.cmp (valAt elements data) (w :: rest) tacc =
        accumT P.cmp (valAt elements data) rest W := by
      simp only [accumT, hWdef]
    refine ⟨d3, ?_, ?_, ?_, ?_, ?_, ?_, ?_, ?_⟩
    · rw [hstep, htuple, hacc_eq]
    · rw [hacc_eq]
      exact hrepF
    · rw [hacc_eq]
      exact hparF
    · rw [hacc_eq]
      exact hlsF
    · rw [hacc_eq]
      exact hrsF
    · intro j hjf hja
      have hjw : j ∉ nodesOf w := by
        intro hjw
        refine hjf ?_
        simp only [List.map_cons, List.flatten_cons]
        exact List.mem_append_left _ hjw
      have hjr : j ∉ (rest.map nodesOf).flatten := by
        intro hjr
        refine hjf ?_
        simp only [List.map_cons, List.flatten_cons]
        exact List.mem_append_right _ hjr
      have hjW : j ∉ nodesOf W := by
        intro hjW
        rcases hWnodes j hjW with h | h
        · exact hjw h
        · exact hja h
      rw [hframe1 j hjr hjW]
      exact hframeW j hjw hja
    · intro j
      rw [hii1 j, hiiW j]
    · rw [hlen1, hlenW]

theorem setII_oob {data : List Node} {i : Nat} (h : ¬ i < data.length)
    (v : Nat) : setII data i v = data :=
  List.set_eq_of_length_le (by omega)

theorem setII_ctx (data : List Node) (a v j : Nat) :
    (nodeAt (setII data a v) j).parent = (nodeAt data j).parent ∧
    (nodeAt (setII data a v) j).child = (nodeAt data j).child ∧
    (nodeAt (setII data a v) j).right_sibling =
      (nodeAt data j).right_sibling ∧
    (nodeAt (setII data a v) j).left_sibling = (nodeAt data j).left_sibling := by
  by_cases hj : j = a
  · subst hj
    by_cases hlt : j < data.length
    · rw [nodeAt_setII_self data j v hlt]
      exact ⟨rfl, rfl, rfl, rfl⟩
    · rw [setII_oob hlt]
      exact ⟨rfl, rfl, rfl, rfl⟩
  · rw [nodeAt_setII_other data a v hj]
    exact ⟨rfl, rfl, rfl, rfl⟩

/-- Overwriting an `item_index` with a non-sentinel value preserves the
arena representation of any tree. -/
theorem reps_setII {a v : Nat} (hv : v ≠ NONE) {data : List Node} :
    ∀ t : HTree, reps data t → reps (setII data a v) t
  | HTree.node i cs => by
    intro h
    simp only [reps] at h ⊢
    obtain ⟨hlt, hii, hchain, hcs⟩ := h
    refine ⟨by rw [length_setII]; exact hlt, ?_, ?_,
      fun t ht => reps_setII hv t (hcs t ht)⟩
    · by_cases hia : i = a
      · subst hia
        rw [nodeAt_setII_self data i v hlt]
        exact hv
      · rw [nodeAt_setII_other data a v hia]
        exact hii
    · rw [(setII_ctx data a v i).2.1]
      refine chainSeg_congr3 hchain ?_
      intro j _
      exact ⟨(setII_ctx data a v j).1, (setII_ctx data a v j).2.2.2,
        (setII_ctx data a v j).2.2.1⟩
  termination_by t => sizeOf t
  decreasing_by
    have := List.sizeOf_lt_of_mem ht
    simp only [HTree.node.sizeOf_spec]
    omega

theorem pairsT_ne_nil (cmp : T → T → Bool) (vals : Nat → T) :
    ∀ {cs : List HTree}, cs ≠ [] → pairsT cmp vals cs ≠ []
  | [], h => absurd rfl h
  | [_], _ => by simp [pairsT]
  | _ :: _ :: _, _ => by simp [pairsT]

theorem pairsT_length_le (cmp : T → T → Bool) (vals : Nat → T) :
    ∀ cs : List HTree, (pairsT cmp vals cs).length ≤ cs.length
  | [] => by simp [pairsT]
  | [_] => by simp [pairsT]
  | _ :: _ :: rest => by
    simp only [pairsT, List.length_cons]
    have := pairsT_length_le cmp vals rest
    omega

theorem nodup_length_le {l : List Nat} {n : Nat} (hnd : l.Nodup)
    (hlt : ∀ x ∈ l, x < n) : l.length ≤ n := by
  have h1 : l.toFinset.card = l.length := List.toFinset_card_of_nodup hnd
  have h2 : l.toFinset ⊆ Finset.range n := by
    intro x hx
    exact Finset.mem_range.2 (hlt x (List.mem_toFinset.1 hx))
  have h3 := Finset.card_le_card h2
  rw [h1, Finset.card_range] at h3
  exact h3

theorem lookupMap_eraseMap_ne (P : HeapParams T)
    (hsymm : ∀ a b, P.keyeq a b = true → P.keyeq b a = true)
    (htrans : ∀ a b c, P.keyeq a b = true → P.keyeq b c = true →
      P.keyeq a c = true)
    (m : HMap T) (x y : T) (hxy : P.keyeq y x = false) :
    lookupMap P (eraseMap P m x) y = lookupMap P m y := by
  induction m with
  | nil => rfl
  | cons e rest ih =>
    obtain ⟨k, i⟩ := e
    by_cases hk : P.keyeq x k = true
    · have hyk : P.keyeq y k = false := by
        by_contra h
        simp only [Bool.not_eq_false] at h
        rw [htrans y k x h (hsymm x k hk)] at hxy
        exact Bool.noConfusion hxy
      show lookupMap P (List.filter _ ((k, i) :: rest)) y = _
      rw [List.filter_cons]
      simp only [hk, Bool.not_true, Bool.false_eq_true, if_false]
      have ih' : lookupMap P (List.filter (fun e => !P.keyeq x e.1) rest) y =
          lookupMap P rest y := ih
      rw [ih']
      simp [lookupMap, hyk]
    · have hk' : P.keyeq x k = false := by
        revert hk; cases P.keyeq x k <;> simp
      show lookupMap P (List.filter _ ((k, i) :: rest)) y = _
      rw [List.filter_cons]
      simp only [hk', Bool.not_false, if_true]
      by_cases hyk : P.keyeq y k = true
      · simp [lookupMap, hyk]
      · have hyk' : P.keyeq y k = false := by
          revert hyk; cases P.keyeq y k <;> simp
        simp only [lookupMap, hyk', Bool.false_eq_true, if_false]
        exact ih

theorem eraseMap_eq_nil (P : HeapParams T) {m : HMap T} {x : T}
    (h : ∀ e ∈ m, P.keyeq x e.1 = true) : eraseMap P m x = [] := by
  induction m with
  | nil => rfl
  | cons e rest ih =>
    show List.filter _ (e :: rest) = []
    rw [List.filter_cons]
    have he := h e (List.mem_cons_self e rest)
    simp only [he, Bool.not_true, Bool.false_eq_true, if_false]
    exact ih (fun e' he' => h e' (List.mem_cons_of_mem e he'))

theorem getD_dropLast {α : Type} (l : List α) (i : Nat) (d : α)
    (h : i < l.length - 1) : l.dropLast.getD i d = l.getD i d := by
  rw [List.getD_eq_getElem?_getD, List.getD_eq_getElem?_getD,
    List.getElem?_dropLast]
  rw [if_pos h]

theorem dropLast_set_last {α : Type} (l : List α) (v : α) :
    (l.set (l.length - 1) v).dropLast = l.dropLast := by
  rw [List.dropLast_eq_take, List.dropLast_eq_take, List.length_set,
    List.set_take]
  rw [List.set_eq_of_length_le (by rw [List.length_take]; omega)]

/-- The value-array effect of `pop`'s compaction: reading the slot of the
extracted root, overwriting it with the last stored value, and dropping the
last entry is a permutation-preserving extraction. -/
theorem extract_perm {α : Type} (l : List α) (d : α) (i : Nat)
    (hi : i < l.length) :
    (l.getD i d :: (l.set i (l.getD (l.length - 1) d)).dropLast).Perm l := by
  have hne : l ≠ [] := by
    intro h
    rw [h] at hi
    simp at hi
  have hL1 : l.length - 1 < l.length := by omega
  have hgetlast : l.getD (l.length - 1) d = l.getLast hne := by
    rw [List.getD_eq_getElem l d hL1, List.getLast_eq_getElem]
  by_cases hil : i = l.length - 1
  · subst hil
    rw [dropLast_set_last, hgetlast]
    have h2 := (List.perm_append_singleton (l.getLast hne) l.dropLast).symm
    rw [List.dropLast_append_getLast hne] at h2
    exact h2
  · have hiL : i < l.length - 1 := by omega
    have hset : l.set i (l.getD (l.length - 1) d) =
        l.take i ++ l.getD (l.length - 1) d :: l.drop (i + 1) := by
      rw [List.set_eq_take_append_cons_drop, if_pos hi]
    have hlen_take : (l.take i).length = i := by
      rw [List.length_take]
      omega
    have hDlen : (l.drop (i + 1)).length = l.length - (i + 1) := by
      rw [List.length_drop]
    have hDne : l.drop (i + 1) ≠ [] := by
      intro h
      rw [h] at hDlen
      simp at hDlen
      omega
    have hdl : (l.set i (l.getD (l.length - 1) d)).dropLast =
        l.take i ++ l.getD (l.length - 1) d :: (l.drop (i + 1)).dropLast := by
      rw [List.dropLast_eq_take, List.length_set, hset,
        List.take_append_eq_append_take, hlen_take,
        List.take_of_length_le (by rw [hlen_take]; omega),
        List.take_cons (by omega)]
      congr 2
      rw [List.dropLast_eq_take, hDlen]
      congr 1
      omega
    have hDlast : (l.drop (i + 1)).getLast hDne = l.getD (l.length - 1) d := by
      rw [List.getLast_eq_getElem, List.getElem_drop,
        List.getD_eq_getElem l d hL1]
      congr 1
      rw [hDlen]
      omega
    have hDd : (l.drop (i + 1)).dropLast ++ [l.getD (l.length - 1) d] =
        l.drop (i + 1) := by
      rw [← hDlast]
      exact List.dropLast_append_getLast hDne
    rw [hdl]
    have hsplit : l = l.take i ++ l.getD i d :: l.drop (i + 1) := by
      conv_lhs => rw [← List.take_append_drop i l]
      rw [List.drop_eq_getElem_cons hi, List.getD_eq_getElem l d hi]
    have hp1 : (l.getD i d :: (l.take i ++ l.getD (l.length - 1) d ::
        (l.drop (i + 1)).dropLast)).Perm
        (l.take i ++ l.getD i d :: l.getD (l.length - 1) d ::
          (l.drop (i + 1)).dropLast) := List.perm_middle.symm
    have hp2 : (l.getD (l.length - 1) d ::
        (l.drop (i + 1)).dropLast).Perm (l.drop (i + 1)) := by
      have h := (List.perm_append_singleton (l.getD (l.length - 1) d)
        ((l.drop (i + 1)).dropLast)).symm
      rw [hDd] at h
      exact h
    have hp3 := (hp2.cons (l.getD i d)).append_left (l.take i)
    have hfin := hp1.trans hp3
    rw [← hsplit] at hfin
    exact hfin



/-- An odd child list decomposes as a prefix followed by its unpaired tail. -/
theorem oddTail_split : ∀ {cs : List HTree} {t : HTree},
    oddTail cs = some t → ∃ pre, cs = pre ++ [t]
  | [], t => by intro h; simp [oddTail] at h
  | [t'], t => by
    intro h
    simp only [oddTail, Option.some_inj] at h
    exact ⟨[], by rw [h]; rfl⟩
  | a :: b :: rest, t => by
    intro h
    have h' : oddTail rest = some t := h
    obtain ⟨pre, hpre⟩ := oddTail_split h'
    exact ⟨a :: b :: pre, by rw [hpre]; rfl⟩

/-- The last member of a terminated sibling chain has no right sibling. -/
theorem chainSeg_last_rs {data : List Node} {q : Nat} :
    ∀ {l : List Nat} {h prev x : Nat},
      chainSeg data q h prev (l ++ [x]) NONE →
      (nodeAt data x).right_sibling = NONE := by
  intro l
  induction l with
  | nil =>
    intro h prev x hc
    simp only [List.nil_append] at hc
    obtain ⟨_, _, _, hrest⟩ := hc
    exact hrest
  | cons j rest ih =>
    intro h prev x hc
    simp only [List.cons_append] at hc
    obtain ⟨_, _, _, hrest⟩ := hc
    exact ih hrest

theorem flatten_reverse_perm {α : Type} :
    ∀ L : List (List α), L.reverse.flatten.Perm L.flatten
  | [] => by simp
  | a :: L => by
    simp only [List.reverse_cons, List.flatten_append, List.flatten_cons,
      List.flatten_nil, List.append_nil]
    exact ((flatten_reverse_perm L).append_right a).trans
      List.perm_append_comm

/-- The accumulation loop exits immediately on the sentinel handle. -/
theorem accumLoop_sentinel [Inhabited T] (P : HeapParams T)
    (elements : List T) (fuel : Nat) (data : List Node) :
    accumLoop P elements fuel data NONE = (data, NONE) := by
  cases fuel with
  | zero => rfl
  | succ n => simp [accumLoop]

/-- Key-equivalent queries resolve identically in the internal map. -/
theorem lookupMap_keyeq_congr (P : HeapParams T)
    (hsymm : ∀ a b, P.keyeq a b = true → P.keyeq b a = true)
    (htrans : ∀ a b c, P.keyeq a b = true → P.keyeq b c = true →
      P.keyeq a c = true)
    {x y : T} (hxy : P.keyeq x y = true) :
    ∀ m : HMap T, lookupMap P m x = lookupMap P m y
  | [] => rfl
  | (k, i) :: rest => by
    by_cases hk : P.keyeq x k = true
    · have hyk : P.keyeq y k = true := htrans y x k (hsymm x y hxy) hk
      simp [lookupMap, hk, hyk]
    · have hk' : P.keyeq x k = false := by
        revert hk; cases P.keyeq x k <;> simp
      have hyk : P.keyeq y k = false := by
        by_contra hy
        simp only [Bool.not_eq_false] at hy
        exact hk (htrans x y k hxy hy)
      simp only [lookupMap, hk', hyk, Bool.false_eq_true, if_false]
      exact lookupMap_keyeq_congr P hsymm htrans hxy rest

/-- The invalidation writes of `pop` on the extracted record: the record
becomes the dead record, nothing else changes, and the arena length is
kept. -/
theorem invalidate_spec (data : List Node) (i : Nat) (hi : i < data.length) :
    nodeAt (setII (setLS (setRS (setChild (setParent data i NONE) i NONE)
      i NONE) i NONE) i NONE) i = deadNode ∧
    (∀ j, j ≠ i → nodeAt (setII (setLS (setRS (setChild (setParent data i
      NONE) i NONE) i NONE) i NONE) i NONE) j = nodeAt data j) ∧
    (setII (setLS (setRS (setChild (setParent data i NONE) i NONE) i NONE)
      i NONE) i NONE).length = data.length := by
  have h1 : (setParent data i NONE).length = data.length :=
    length_setParent data i NONE
  have h2 : (setChild (setParent data i NONE) i NONE).length = data.length := by
    rw [length_setChild, h1]
  have h3 : (setRS (setChild (setParent data i NONE) i NONE) i NONE).length
      = data.length := by
    rw [length_setRS, h2]
  have h4 : (setLS (setRS (setChild (setParent data i NONE) i NONE) i NONE)
      i NONE).length = data.length := by
    rw [length_setLS, h3]
  refine ⟨?_, ?_, by rw [length_setII, h4]⟩
  · rw [nodeAt_setII_self _ i NONE (by rw [h4]; exact hi),
      nodeAt_setLS_self _ i NONE (by rw [h3]; exact hi),
      nodeAt_setRS_self _ i NONE (by rw [h2]; exact hi),
      nodeAt_setChild_self _ i NONE (by rw [h1]; exact hi),
      nodeAt_setParent_self _ i NONE hi]
    rfl
  · intro j hj
    rw [nodeAt_setII_other _ i NONE hj, nodeAt_setLS_other _ i NONE hj,
      nodeAt_setRS_other _ i NONE hj, nodeAt_setChild_other _ i NONE hj,
      nodeAt_setParent_other _ i NONE hj]


/-- The pairing pass of `pop` together with the post-loop odd-tail fix-up:
starting from the former root's child chain `cts`, the arena reaches a state
`d2` in which all the pairwise winners `pairsT cts` are represented with
clean `parent`/`right_sibling` context and chained through the scratch
`left_sibling` links, and `implPop` continues as `implPopTail` from `d2` at
the last winner. -/
theorem pop_pair_fixup (P : HeapParams T) [Inhabited T]
    (hasymm : ∀ a b, P.cmp a b = true → P.cmp b a = false)
    (s : State T) (cts : List HTree)
    (htop : ¬ s.top = NONE)
    (hchain : chainSeg s.data s.top (nodeAt s.data s.top).child NONE
      (cts.map HTree.rootIdx) NONE)
    (hcs : ∀ ct ∈ cts, reps s.data ct)
    (hndflat : ((cts.map nodesOf).flatten).Nodup)
    (hbound : s.data.length < NONE)
    (hfuel : cts.length ≤ s.data.length) :
    ∃ d2 : List Node,
      implPop P s = implPopTail P s d2
        (((pairsT P.cmp (valAt s.elements s.data) cts).map
          HTree.rootIdx).getLastD NONE) ∧
      (∀ w ∈ pairsT P.cmp (valAt s.elements s.data) cts, reps d2 w ∧
        (nodeAt d2 w.rootIdx).parent = NONE ∧
        (nodeAt d2 w.rootIdx).right_sibling = NONE) ∧
      lsChain d2 NONE ((pairsT P.cmp (valAt s.elements s.data) cts).map
        HTree.rootIdx) ∧
      (∀ j, j ∉ (cts.map nodesOf).flatten → nodeAt d2 j = nodeAt s.data j) ∧
      (∀ j, (nodeAt d2 j).item_index = (nodeAt s.data j).item_index) ∧
      d2.length = s.data.length := by
  obtain ⟨d1, hp1, hwin, hlsc, hoddfr, hfr1, hii1, hlen1⟩ :=
    pairLoop_spec P s.elements hasymm s.top cts s.data.length s.data
      (nodeAt s.data s.top).child NONE NONE hfuel hchain hcs hndflat hbound
  cases hodd : oddTail cts with
  | none =>
    refine ⟨d1, ?_, ?_, ?_, hfr1, hii1, hlen1⟩
    · rw [pairsT_eq_procW, hodd]
      simp only [Option.elim_none, List.append_nil]
      unfold implPop implPopTail
      rw [if_neg htop]
      dsimp only
      rw [hp1]
      dsimp only
      rw [hodd]
      simp only [Option.elim_none]
      rw [if_neg (by simp)]
    · rw [pairsT_eq_procW, hodd]
      simp only [Option.elim_none, List.append_nil]
      exact hwin
    · rw [pairsT_eq_procW, hodd]
      simp only [Option.elim_none, List.append_nil]
      exact hlsc
  | some t0 =>
    have ht0mem : t0 ∈ cts := oddTail_mem hodd
    have hrept0 : reps s.data t0 := hcs t0 ht0mem
    have ht0lt : t0.rootIdx < s.data.length :=
      reps_nodes_lt s.data t0 hrept0 _ (rootIdx_mem_nodesOf t0)
    have ht0ne : t0.rootIdx ≠ NONE := Nat.ne_of_lt (ht0lt.trans hbound)
    obtain ⟨pre, hpre⟩ := oddTail_split hodd
    have hrs0 : (nodeAt s.data t0.rootIdx).right_sibling = NONE := by
      rw [hpre] at hchain
      simp only [List.map_append, List.map_cons, List.map_nil] at hchain
      exact chainSeg_last_rs hchain
    have ht0fr : ∀ j ∈ nodesOf t0, nodeAt d1 j = nodeAt s.data j :=
      hoddfr t0 hodd
    have hrs1 : (nodeAt d1 t0.rootIdx).right_sibling = NONE := by
      rw [ht0fr t0.rootIdx (rootIdx_mem_nodesOf t0)]; exact hrs0
    have hperm := pairsT_nodes_perm P.cmp (valAt s.elements s.data) cts
    have hndP : (((pairsT P.cmp (valAt s.elements s.data) cts).map
        nodesOf).flatten).Nodup := hperm.nodup_iff.2 hndflat
    rw [pairsT_eq_procW, hodd] at hndP
    simp only [Option.elim_some, List.map_append, List.flatten_append,
      List.map_cons, List.map_nil, List.flatten_cons, List.flatten_nil,
      List.append_nil] at hndP
    have hndW : (((procW P.cmp (valAt s.elements s.data) cts).map
        nodesOf).flatten).Nodup := (List.nodup_append.1 hndP).1
    have hndT0 : (nodesOf t0).Nodup := (List.nodup_append.1 hndP).2.1
    have hdisj : ∀ j ∈ ((procW P.cmp (valAt s.elements s.data) cts).map
        nodesOf).flatten, j ∉ nodesOf t0 := by
      intro j hj hj0
      exact (List.nodup_append.1 hndP).2.2 hj hj0
    have ht0notin : ∀ w ∈ procW P.cmp (valAt s.elements s.data) cts,
        t0.rootIdx ∉ nodesOf w := by
      intro w hw hmem
      exact hdisj t0.rootIdx
        (List.mem_flatten.2 ⟨nodesOf w, List.mem_map_of_mem nodesOf hw, hmem⟩)
        (rootIdx_mem_nodesOf t0)
    obtain ⟨d2, hd2⟩ : ∃ d2, d2 = setLS (setRS (setParent d1 t0.rootIdx NONE)
        t0.rootIdx NONE) t0.rootIdx
        (((procW P.cmp (valAt s.elements s.data) cts).map
          HTree.rootIdx).getLastD NONE) := ⟨_, rfl⟩
    have ht0lt1 : t0.rootIdx < d1.length := by rw [hlen1]; exact ht0lt
    have hlen2 : d2.length = s.data.length := by
      rw [hd2, length_setLS, length_setRS, length_setParent, hlen1]
    have hd2_other : ∀ j, j ≠ t0.rootIdx → nodeAt d2 j = nodeAt d1 j := by
      intro j hj
      rw [hd2, nodeAt_setLS_other _ _ _ hj, nodeAt_setRS_other _ _ _ hj,
        nodeAt_setParent_other _ _ _ hj]
    have hd2_t0 : nodeAt d2 t0.rootIdx =
        { nodeAt d1 t0.rootIdx with
          parent := NONE
          right_sibling := NONE
          left_sibling := (((procW P.cmp (valAt s.elements s.data) cts).map
            HTree.rootIdx).getLastD NONE) } := by
      rw [hd2, nodeAt_setLS_self _ _ _
          (by rw [length_setRS, length_setParent]; exact ht0lt1),
        nodeAt_setRS_self _ _ _ (by rw [length_setParent]; exact ht0lt1),
        nodeAt_setParent_self _ _ _ ht0lt1]
    have hrootsW_ne : ∀ j ∈ (procW P.cmp (valAt s.elements s.data) cts).map
        HTree.rootIdx, j ≠ t0.rootIdx := by
      intro j hj
      simp only [List.mem_map] at hj
      obtain ⟨w, hw, rfl⟩ := hj
      intro hje
      exact ht0notin w hw (hje ▸ rootIdx_mem_nodesOf w)
    refine ⟨d2, ?_, ?_, ?_, ?_, ?_, hlen2⟩
    · rw [pairsT_eq_procW, hodd]
      simp only [Option.elim_some, List.map_append, List.map_cons,
        List.map_nil]
      rw [List.getLastD_concat]
      unfold implPop implPopTail
      rw [if_neg htop]
      dsimp only
      rw [hp1]
      dsimp only
      rw [hodd]
      simp only [Option.elim_some]
      rw [if_pos ⟨ht0ne, hrs1⟩]
      dsimp only
      rw [hd2]
    · rw [pairsT_eq_procW, hodd]
      simp only [Option.elim_some]
      intro w hw
      rcases List.mem_append.1 hw with hw | hw
      · obtain ⟨hrw, hpw, hrsw⟩ := hwin w hw
        have hndw : (nodesOf w).Nodup :=
          (List.nodup_flatten.1 hndW).1 (nodesOf w)
            (List.mem_map_of_mem nodesOf hw)
        have hnotin : t0.rootIdx ∉ nodesOf w := ht0notin w hw
        have hother : ∀ j ∈ nodesOf w, nodeAt d2 j = nodeAt d1 j := by
          intro j hj
          exact hd2_other j (fun hje => hnotin (hje ▸ hj))
        have hwroot := hother w.rootIdx (rootIdx_mem_nodesOf w)
        refine ⟨reps_congr (by rw [hlen2, ← hlen1]) w hrw hndw
          (by rw [hwroot]) (by rw [hwroot])
          (fun j hj _ => hother j hj), ?_, ?_⟩
        · rw [hwroot]; exact hpw
        · rw [hwroot]; exact hrsw
      · have hw' : w = t0 := by simpa using hw
        subst hw'
        have hrepd1 : reps d1 w := by
          refine reps_congr (by rw [hlen1]) w hrept0 hndT0 ?_ ?_ ?_
          · rw [ht0fr w.rootIdx (rootIdx_mem_nodesOf w)]
          · rw [ht0fr w.rootIdx (rootIdx_mem_nodesOf w)]
          · intro j hj _
            exact ht0fr j hj
        refine ⟨?_, ?_, ?_⟩
        · refine reps_congr (by rw [hlen2, ← hlen1]) w hrepd1 hndT0 ?_ ?_ ?_
          · rw [hd2_t0]
          · rw [hd2_t0]
          · intro j hj hjne
            exact hd2_other j hjne
        · rw [hd2_t0]
        · rw [hd2_t0]
    · rw [pairsT_eq_procW, hodd]
      simp only [Option.elim_some, List.map_append, List.map_cons,
        List.map_nil]
      refine lsChain_append ?_ ?_
      · refine lsChain_congr hlsc ?_
        intro j hj
        rw [hd2_other j (hrootsW_ne j hj)]
      · rw [hd2_t0]
    · intro j hjn
      have hjne : j ≠ t0.rootIdx := by
        intro hje
        exact hjn (hje ▸ List.mem_flatten.2 ⟨nodesOf t0,
          List.mem_map_of_mem nodesOf ht0mem, rootIdx_mem_nodesOf t0⟩)
      rw [hd2_other j hjne]
      exact hfr1 j hjn
    · intro j
      by_cases hj : j = t0.rootIdx
      · subst hj
        rw [hd2_t0]
        exact hii1 t0.rootIdx
      · rw [hd2_other j hj]
        exact hii1 j

/-- `pop` on a non-empty well-formed heap: well-formedness is preserved, the
value count drops by one, the extracted value was the `top()` reading and the
remaining values are the old ones, and every key still present in the
internal map resolves to the same node holding the same value. -/
theorem pop_WF [Inhabited T] {P : HeapParams T} (L : LawfulParams P)
    {s : State T} (hWF : WF P s) (htopne : ¬ s.top = NONE) :
    WF P (popOp P s) ∧
    (popOp P s).elements.length + 1 = s.elements.length ∧
    (topVal s :: (popOp P s).elements).Perm s.elements ∧
    (∀ x i, lookupMap P (popOp P s).map x = some i →
      lookupMap P s.map x = some i ∧
      valAt (popOp P s).elements (popOp P s).data i =
        valAt s.elements s.data i) := by
  rcases hWF with ⟨he, _⟩ | ⟨t, hT⟩
  · exact absurd he htopne
  obtain ⟨rtop, cts⟩ := t
  have hrt : rtop = s.top := hT.root_eq
  subst hrt
  have hbound := hT.bound
  have hrep := hT.rep
  simp only [reps] at hrep
  obtain ⟨hrlt, hrii, hchain, hcs⟩ := hrep
  have hndfull := hT.nodup
  rw [nodesOf_node] at hndfull
  have hndflat : ((cts.map nodesOf).flatten).Nodup :=
    (List.nodup_cons.1 hndfull).2
  have htopnot : s.top ∉ (cts.map nodesOf).flatten :=
    (List.nodup_cons.1 hndfull).1
  have hfuel : cts.length ≤ s.data.length := by
    have hnd_roots := roots_nodup hT.nodup
    have hlt : ∀ x ∈ cts.map HTree.rootIdx, x < s.data.length := by
      intro x hx
      simp only [List.mem_map] at hx
      obtain ⟨ct, hct, rfl⟩ := hx
      exact reps_nodes_lt s.data ct (hcs ct hct) _ (rootIdx_mem_nodesOf ct)
    have h := nodup_length_le hnd_roots hlt
    simpa using h
  obtain ⟨d2, himpl, hwin2, hchain2, hfr2, hii2, hlen2⟩ :=
    pop_pair_fixup P L.asymm s cts htopne hchain hcs hndflat hbound hfuel
  have hmem_nodes : ∀ j, j ∈ (cts.map nodesOf).flatten →
      j ∈ nodesOf (HTree.node s.top cts) := by
    intro j hj
    rw [nodesOf_node]
    exact List.mem_cons_of_mem _ hj
  have htopmem : s.top ∈ nodesOf (HTree.node s.top cts) := by
    rw [nodesOf_node]
    exact List.mem_cons_self _ _
  have hst_lt : (nodeAt s.data s.top).item_index < s.elements.length :=
    hT.slots_lt s.top htopmem
  have hlast_lt : s.elements.length - 1 < s.elements.length := by omega
  obtain ⟨jlast, hjlast_mem, hjlast_ii⟩ :=
    hT.slots_surj (s.elements.length - 1) hlast_lt
  have hjlast_lt : jlast < s.data.length :=
    reps_nodes_lt s.data _ hT.rep _ hjlast_mem
  have hlastval : valAt s.elements s.data jlast =
      s.elements.getD (s.elements.length - 1) default := by
    rw [valAt, hjlast_ii]
  have hlook_last : lookupMap P s.map
      (s.elements.getD (s.elements.length - 1) default) = some jlast := by
    rw [← hlastval]
    exact hT.map_resolves jlast hjlast_mem
  have hread : readMap P s.map
      (s.elements.getD (s.elements.length - 1) default) = (jlast, s.map) :=
    readMap_of_lookup_some P hlook_last
  have hpop : popOp P s = { implPop P s with
      map := eraseMap P (implPop P s).map (topVal s) } := by
    unfold popOp
    rw [if_neg htopne]
  have htv : topVal s = valAt s.elements s.data s.top := rfl
  by_cases hcts : cts = []
  · -- the former root had no children: the heap becomes empty
    subst hcts
    have hG : ((pairsT P.cmp (valAt s.elements s.data)
        ([] : List HTree)).map HTree.rootIdx).getLastD NONE = NONE := rfl
    rw [hG] at himpl
    have hfr2' : ∀ j, nodeAt d2 j = nodeAt s.data j := by
      intro j
      exact hfr2 j (by simp)
    have hnodes : nodesOf (HTree.node s.top ([] : List HTree)) = [s.top] :=
      nodesOf_leaf s.top
    have hL1 : s.elements.length = 1 := by
      by_contra hL
      have h2 : 1 < s.elements.length := by omega
      obtain ⟨i0, hi0mem, hi00⟩ := hT.slots_surj 0 (by omega)
      obtain ⟨i1, hi1mem, hi11⟩ := hT.slots_surj 1 (by omega)
      rw [hnodes] at hi0mem hi1mem
      have e0 : i0 = s.top := by simpa using hi0mem
      have e1 : i1 = s.top := by simpa using hi1mem
      rw [e0] at hi00
      rw [e1] at hi11
      have h01 : (0 : Nat) = 1 := by rw [← hi00, ← hi11]
      exact absurd h01 (by omega)
    have hst0 : (nodeAt s.data s.top).item_index = 0 := by omega
    have hjl : jlast = s.top := by
      rw [hnodes] at hjlast_mem
      simpa using hjlast_mem
    have hacc := accumLoop_sentinel P s.elements s.data.length d2
    have htail : implPopTail P s d2 NONE =
        ⟨(s.elements.set (nodeAt d2 s.top).item_index
            (s.elements.getD (s.elements.length - 1) default)).dropLast,
          setII (setLS (setRS (setChild (setParent
            (setII d2 jlast (nodeAt d2 s.top).item_index) s.top NONE) s.top
            NONE) s.top NONE) s.top NONE) s.top NONE,
          NONE, s.map⟩ := by
      unfold implPopTail
      dsimp only
      rw [hacc]
      dsimp only
      rw [hread]
    obtain ⟨E', hE'⟩ : ∃ E', E' = (s.elements.set
        (nodeAt d2 s.top).item_index
        (s.elements.getD (s.elements.length - 1) default)).dropLast :=
      ⟨_, rfl⟩
    obtain ⟨D4, hD4⟩ : ∃ D4, D4 = setII d2 jlast
        (nodeAt d2 s.top).item_index := ⟨_, rfl⟩
    obtain ⟨D5, hD5⟩ : ∃ D5, D5 = setII (setLS (setRS (setChild (setParent D4
        s.top NONE) s.top NONE) s.top NONE) s.top NONE) s.top NONE :=
      ⟨_, rfl⟩
    have hfinal : popOp P s =
        ⟨E', D5, NONE, eraseMap P s.map (topVal s)⟩ := by
      rw [hpop, himpl, htail, ← hE', ← hD4, ← hD5]
    have hD4len : D4.length = s.data.length := by
      rw [hD4, length_setII, hlen2]
    have hinvD4 := invalidate_spec D4 s.top (by rw [hD4len]; exact hrlt)
    have hD5_top : nodeAt D5 s.top = deadNode := by
      rw [hD5]
      exact hinvD4.1
    have hD5_other : ∀ j, j ≠ s.top → nodeAt D5 j = nodeAt D4 j := by
      intro j hj
      rw [hD5]
      exact hinvD4.2.1 j hj
    have hD5len : D5.length = s.data.length := by
      rw [hD5, hinvD4.2.2, hD4len]
    have hE'len : E'.length = 0 := by
      rw [hE', List.length_dropLast, List.length_set, hL1]
    have hE'nil : E' = [] := List.length_eq_zero.1 hE'len
    have hmapnil : eraseMap P s.map (topVal s) = [] := by
      refine eraseMap_eq_nil P ?_
      intro e he
      have h1 := hT.map_entries e he
      rw [hnodes] at h1
      have he2 : e.2 = s.top := by simpa using h1.1
      have hk := h1.2
      rw [he2] at hk
      rw [htv]
      exact L.ksymm _ _ hk
    refine ⟨?_, ?_, ?_, ?_⟩
    · rw [hfinal]
      refine Or.inl ⟨rfl, hE'nil, rfl, ?_, ?_, ?_⟩
      · exact hmapnil
      · rw [hD5len]
        exact hbound
      · intro i hilt
        by_cases hit : i = s.top
        · rw [hit]
          exact hD5_top
        · have hijl : i ≠ jlast := by rw [hjl]; exact hit
          rw [hD5_other i hit, hD4, nodeAt_setII_other _ _ _ hijl, hfr2' i]
          refine hT.dead_clean i ?_ ?_
          · rw [hD5len] at hilt
            exact hilt
          · rw [hnodes]
            simpa using hit
    · rw [hfinal]
      show E'.length + 1 = s.elements.length
      rw [hE'len, hL1]
    · rw [hfinal]
      show (topVal s :: E').Perm s.elements
      rw [hE'nil]
      obtain ⟨v, hv⟩ := List.length_eq_one.1 hL1
      have htvv : topVal s = v := by
        rw [htv, valAt, hst0, hv]
        rfl
      rw [htvv, hv]
    · intro x i hxi
      rw [hfinal] at hxi
      have hxi' : lookupMap P (eraseMap P s.map (topVal s)) x = some i := hxi
      rw [hmapnil] at hxi'
      exact absurd hxi' (by simp [lookupMap])
  · -- the winners exist: the accumulation pass builds the new tree
    have hwsne : pairsT P.cmp (valAt s.elements s.data) cts ≠ [] :=
      pairsT_ne_nil _ _ hcts
    obtain ⟨W0, hW0⟩ : ∃ W0, W0 = pairsT P.cmp (valAt s.elements s.data)
        cts := ⟨_, rfl⟩
    rw [← hW0] at himpl hwin2 hchain2 hwsne
    have hWsplit : W0 = W0.dropLast ++ [W0.getLast hwsne] :=
      (List.dropLast_append_getLast hwsne).symm
    have hsubW : ∀ w ∈ W0.dropLast, w ∈ W0 := by
      intro w hw
      have h := List.mem_append_left [W0.getLast hwsne] hw
      rw [← hWsplit] at h
      exact h
    have hlastmem : W0.getLast hwsne ∈ W0 := List.getLast_mem hwsne
    have hndW0 : ((W0.map nodesOf).flatten).Nodup := by
      rw [hW0]
      exact (pairsT_nodes_perm P.cmp (valAt s.elements s.data)
        cts).nodup_iff.2 hndflat
    have hpermW0 : ((W0.map nodesOf).flatten).Perm
        ((cts.map nodesOf).flatten) := by
      rw [hW0]
      exact pairsT_nodes_perm P.cmp (valAt s.elements s.data) cts
    have hfl_split : (W0.dropLast.map nodesOf).flatten ++
        nodesOf (W0.getLast hwsne) = (W0.map nodesOf).flatten := by
      conv_rhs => rw [hWsplit]
      simp only [List.map_append, List.map_cons, List.map_nil,
        List.flatten_append, List.flatten_cons, List.flatten_nil,
        List.append_nil]
    have hrevperm : ((W0.dropLast.reverse.map nodesOf).flatten).Perm
        ((W0.dropLast.map nodesOf).flatten) := by
      rw [List.map_reverse]
      exact flatten_reverse_perm _
    have hndsplit : (((W0.dropLast.reverse.map nodesOf).flatten) ++
        nodesOf (W0.getLast hwsne)).Nodup := by
      refine ((hrevperm.append_right _).nodup_iff).2 ?_
      rw [hfl_split]
      exact hndW0
    have hmapsplit : W0.map HTree.rootIdx =
        W0.dropLast.map HTree.rootIdx ++ [(W0.getLast hwsne).rootIdx] := by
      conv_lhs => rw [hWsplit]
      rw [List.map_append]
      rfl
    have hchainA : lsChain d2 NONE
        (((W0.dropLast.reverse).reverse.map HTree.rootIdx) ++
          [(W0.getLast hwsne).rootIdx]) := by
      rw [List.reverse_reverse, ← hmapsplit]
      exact hchain2
    have hrepsW : ∀ w ∈ W0.dropLast.reverse, reps d2 w := by
      intro w hw
      exact (hwin2 w (hsubW w (List.mem_reverse.1 hw))).1
    have hctxW : ∀ w ∈ W0.dropLast.reverse,
        (nodeAt d2 w.rootIdx).parent = NONE ∧
        (nodeAt d2 w.rootIdx).right_sibling = NONE := by
      intro w hw
      exact ⟨(hwin2 w (hsubW w (List.mem_reverse.1 hw))).2.1,
        (hwin2 w (hsubW w (List.mem_reverse.1 hw))).2.2⟩
    have hrepA : reps d2 (W0.getLast hwsne) := (hwin2 _ hlastmem).1
    have hparA := (hwin2 _ hlastmem).2.1
    have hrsA := (hwin2 _ hlastmem).2.2
    have hfuel2 : (W0.dropLast.reverse).length ≤ s.data.length := by
      rw [List.length_reverse, List.length_dropLast]
      have h1 : W0.length ≤ cts.length := by
        rw [hW0]
        exact pairsT_length_le _ _ cts
      omega
    have hbound2 : d2.length < NONE := by
      rw [hlen2]
      exact hbound
    obtain ⟨d3, hacc, hrep3, hpar3, hls3, hrs3, hfr3, hii3, hlen3⟩ :=
      accumLoop_spec P s.elements L.asymm (W0.dropLast.reverse)
        (W0.getLast hwsne) s.data.length d2 hfuel2 hrepA hrepsW hndsplit
        hchainA hctxW hparA hrsA hbound2
    have hGlast : (W0.map HTree.rootIdx).getLastD NONE =
        (W0.getLast hwsne).rootIdx := by
      rw [hmapsplit, List.getLastD_concat]
    rw [hGlast] at himpl
    have hvals : valAt s.elements d2 = valAt s.elements s.data := by
      funext j
      rw [valAt, valAt, hii2 j]
    rw [hvals] at hacc hrep3 hpar3 hls3 hrs3
    obtain ⟨tfin, htfin⟩ : ∃ tf, tf = accumT P.cmp (valAt s.elements s.data)
        (W0.dropLast.reverse) (W0.getLast hwsne) := ⟨_, rfl⟩
    rw [← htfin] at hacc hrep3 hpar3 hls3 hrs3
    have hnodes_fin : (nodesOf tfin).Perm ((cts.map nodesOf).flatten) := by
      rw [htfin]
      have h1 := accumT_nodes_perm P.cmp (valAt s.elements s.data)
        (W0.dropLast.reverse) (W0.getLast hwsne)
      have h2 := h1.trans (hrevperm.append_right _)
      rw [hfl_split] at h2
      exact h2.trans hpermW0
    have hnd_fin : (nodesOf tfin).Nodup := hnodes_fin.nodup_iff.2 hndflat
    have hmem_fin : ∀ j ∈ nodesOf tfin, j ∈ (cts.map nodesOf).flatten :=
      fun j hj => hnodes_fin.mem_iff.1 hj
    have hmem_fin' : ∀ j, j ∈ (cts.map nodesOf).flatten → j ∈ nodesOf tfin :=
      fun j hj => hnodes_fin.mem_iff.2 hj
    have htop_notin_fin : s.top ∉ nodesOf tfin :=
      fun h => htopnot (hmem_fin _ h)
    have hne_top_fin : ∀ j ∈ nodesOf tfin, j ≠ s.top :=
      fun j hj hje => htop_notin_fin (hje ▸ hj)
    have hOrdC : ∀ c ∈ cts, heapOrd P.cmp (valAt s.elements s.data) c := by
      have hOrd := hT.ord
      simp only [heapOrd] at hOrd
      intro c hc
      exact (hOrd c hc).2
    have hord_fin : heapOrd P.cmp (valAt s.elements s.data) tfin := by
      rw [htfin]
      refine accumT_heapOrd L.asymm _ _ ?_ ?_
      · intro w hw
        refine pairsT_heapOrd L.asymm cts hOrdC w ?_
        rw [← hW0]
        exact hsubW w (List.mem_reverse.1 hw)
      · refine pairsT_heapOrd L.asymm cts hOrdC _ ?_
        rw [← hW0]
        exact hlastmem
    have htail : implPopTail P s d2 (W0.getLast hwsne).rootIdx =
        ⟨(s.elements.set (nodeAt d3 s.top).item_index
            (s.elements.getD (s.elements.length - 1) default)).dropLast,
          setII (setLS (setRS (setChild (setParent
            (setII d3 jlast (nodeAt d3 s.top).item_index) s.top NONE) s.top
            NONE) s.top NONE) s.top NONE) s.top NONE,
          tfin.rootIdx, s.map⟩ := by
      unfold implPopTail
      dsimp only
      rw [hacc]
      dsimp only
      rw [hread]
    obtain ⟨E', hE'⟩ : ∃ E', E' = (s.elements.set
        (nodeAt d3 s.top).item_index
        (s.elements.getD (s.elements.length - 1) default)).dropLast :=
      ⟨_, rfl⟩
    obtain ⟨D4, hD4⟩ : ∃ D4, D4 = setII d3 jlast
        (nodeAt d3 s.top).item_index := ⟨_, rfl⟩
    obtain ⟨D5, hD5⟩ : ∃ D5, D5 = setII (setLS (setRS (setChild (setParent D4
        s.top NONE) s.top NONE) s.top NONE) s.top NONE) s.top NONE :=
      ⟨_, rfl⟩
    have hfinal : popOp P s =
        ⟨E', D5, tfin.rootIdx, eraseMap P s.map (topVal s)⟩ := by
      rw [hpop, himpl, htail, ← hE', ← hD4, ← hD5]
    have hiiD3 : ∀ j, (nodeAt d3 j).item_index =
        (nodeAt s.data j).item_index := by
      intro j
      rw [hii3 j, hii2 j]
    have hstd3 : (nodeAt d3 s.top).item_index =
        (nodeAt s.data s.top).item_index := hiiD3 s.top
    have hD4len : D4.length = s.data.length := by
      rw [hD4, length_setII, hlen3, hlen2]
    have hinvD4 := invalidate_spec D4 s.top (by rw [hD4len]; exact hrlt)
    have hD5_top : nodeAt D5 s.top = deadNode := by
      rw [hD5]
      exact hinvD4.1
    have hD5_other : ∀ j, j ≠ s.top → nodeAt D5 j = nodeAt D4 j := by
      intro j hj
      rw [hD5]
      exact hinvD4.2.1 j hj
    have hD5len : D5.length = s.data.length := by
      rw [hD5, hinvD4.2.2, hD4len]
    have hD4_other : ∀ j, j ≠ jlast → nodeAt D4 j = nodeAt d3 j := by
      intro j hj
      rw [hD4]
      exact nodeAt_setII_other _ _ _ hj
    have hD4ctx : ∀ j, (nodeAt D4 j).parent = (nodeAt d3 j).parent ∧
        (nodeAt D4 j).child = (nodeAt d3 j).child ∧
        (nodeAt D4 j).right_sibling = (nodeAt d3 j).right_sibling ∧
        (nodeAt D4 j).left_sibling = (nodeAt d3 j).left_sibling := by
      intro j
      rw [hD4]
      exact setII_ctx d3 jlast _ j
    have hnewii : ∀ j, j ≠ s.top →
        (nodeAt D5 j).item_index =
          (if j = jlast then (nodeAt s.data s.top).item_index
           else (nodeAt s.data j).item_index) := by
      intro j hj
      rw [hD5_other j hj]
      by_cases hjl : j = jlast
      · subst hjl
        rw [if_pos rfl, hD4, nodeAt_setII_self _ _ _
          (by rw [hlen3, hlen2]; exact hjlast_lt)]
        exact hstd3
      · rw [if_neg hjl, hD4_other j hjl]
        exact hiiD3 j
    have hE'len : E'.length = s.elements.length - 1 := by
      rw [hE', List.length_dropLast, List.length_set]
    have hE'get : ∀ k, k < s.elements.length - 1 →
        E'.getD k default = (s.elements.set (nodeAt d3 s.top).item_index
          (s.elements.getD (s.elements.length - 1) default)).getD k
          default := by
      intro k hk
      rw [hE']
      exact getD_dropLast _ k default (by rw [List.length_set]; exact hk)
    have hvalpres : ∀ j ∈ nodesOf tfin,
        valAt E' D5 j = valAt s.elements s.data j := by
      intro j hj
      have hjne : j ≠ s.top := hne_top_fin j hj
      have hjold : j ∈ nodesOf (HTree.node s.top cts) :=
        hmem_nodes j (hmem_fin j hj)
      rw [valAt, valAt, hnewii j hjne]
      by_cases hjl : j = jlast
      · rw [if_pos hjl, hjl]
        have hjlne_top : jlast ≠ s.top := by
          rw [← hjl]
          exact hjne
        have hstne : (nodeAt s.data s.top).item_index ≠
            s.elements.length - 1 := by
          intro he
          exact hjlne_top (hT.slots_inj jlast hjlast_mem s.top htopmem
            (by rw [hjlast_ii, he]))
        have hstlt1 : (nodeAt s.data s.top).item_index <
            s.elements.length - 1 := by omega
        rw [hE'get _ hstlt1, hstd3, List.getD_eq_getElem?_getD,
          List.getElem?_set_self (by exact hst_lt)]
        rw [hjlast_ii]
        simp [List.getD_eq_getElem?_getD]
      · rw [if_neg hjl]
        have hiine : (nodeAt s.data s.top).item_index ≠
            (nodeAt s.data j).item_index := by
          intro he
          exact hjne (hT.slots_inj j hjold s.top htopmem he.symm)
        have hiinel : (nodeAt s.data j).item_index ≠
            s.elements.length - 1 := by
          intro he
          exact hjl (hT.slots_inj j hjold jlast hjlast_mem
            (by rw [he, hjlast_ii]))
        have hiilt : (nodeAt s.data j).item_index < s.elements.length :=
          hT.slots_lt j hjold
        have hlt1 : (nodeAt s.data j).item_index <
            s.elements.length - 1 := by omega
        rw [hE'get _ hlt1, hstd3]
        simp only [List.getD_eq_getElem?_getD]
        rw [List.getElem?_set_ne hiine]
    have hstne_NONE : (nodeAt d3 s.top).item_index ≠ NONE := by
      rw [hstd3]
      have h1 : s.elements.length ≤ s.data.length := hT.elen
      omega
    have hrepD4 : reps D4 tfin := by
      rw [hD4]
      exact reps_setII hstne_NONE tfin hrep3
    have hrootmem : tfin.rootIdx ∈ nodesOf tfin := rootIdx_mem_nodesOf tfin
    have hrootne : tfin.rootIdx ≠ s.top := hne_top_fin _ hrootmem
    have hrepD5 : reps D5 tfin := by
      refine reps_congr ?_ tfin hrepD4 hnd_fin ?_ ?_ ?_
      · apply le_of_eq
        rw [hD4len, hD5len]
      · rw [hD5_other _ hrootne]
      · rw [hD5_other _ hrootne]
      · intro j hj _
        exact hD5_other j (hne_top_fin j hj)
    have hroot_lt : tfin.rootIdx < s.data.length :=
      reps_nodes_lt s.data _ hT.rep _ (hmem_nodes _ (hmem_fin _ hrootmem))
    have hroot_ne_NONE : tfin.rootIdx ≠ NONE :=
      Nat.ne_of_lt (hroot_lt.trans hbound)
    have hpar' : (nodeAt D5 tfin.rootIdx).parent = NONE := by
      rw [hD5_other _ hrootne, (hD4ctx tfin.rootIdx).1]
      exact hpar3
    have hls' : (nodeAt D5 tfin.rootIdx).left_sibling = NONE := by
      rw [hD5_other _ hrootne, (hD4ctx tfin.rootIdx).2.2.2]
      exact hls3
    have hrs' : (nodeAt D5 tfin.rootIdx).right_sibling = NONE := by
      rw [hD5_other _ hrootne, (hD4ctx tfin.rootIdx).2.2.1]
      exact hrs3
    have hfrD3 : ∀ j, j ∉ (cts.map nodesOf).flatten →
        nodeAt d3 j = nodeAt s.data j := by
      intro j hj
      have hj1 : j ∉ (W0.dropLast.reverse.map nodesOf).flatten := by
        intro hmem
        apply hj
        obtain ⟨l, hl, hjl⟩ := List.mem_flatten.1 hmem
        obtain ⟨w, hw, rfl⟩ := List.mem_map.1 hl
        have hwW : w ∈ W0 := hsubW w (List.mem_reverse.1 hw)
        exact hpermW0.subset (List.mem_flatten.2
          ⟨nodesOf w, List.mem_map_of_mem _ hwW, hjl⟩)
      have hj2 : j ∉ nodesOf (W0.getLast hwsne) := by
        intro hmem
        apply hj
        exact hpermW0.subset (List.mem_flatten.2
          ⟨_, List.mem_map_of_mem _ hlastmem, hmem⟩)
      rw [hfr3 j hj1 hj2, hfr2 j hj]
    have hdead' : ∀ i, i < D5.length → i ∉ nodesOf tfin →
        nodeAt D5 i = deadNode := by
      intro i hilt hnin
      by_cases hit : i = s.top
      · rw [hit]
        exact hD5_top
      · have hjfl : i ∉ (cts.map nodesOf).flatten :=
          fun h => hnin (hmem_fin' i h)
        have hjold : i ∉ nodesOf (HTree.node s.top cts) := by
          rw [nodesOf_node]
          intro h
          rcases List.mem_cons.1 h with h1 | h1
          · exact hit h1
          · exact hjfl h1
        have hijl : i ≠ jlast := by
          intro he
          exact hjold (he ▸ hjlast_mem)
        rw [hD5_other i hit, hD4_other i hijl, hfrD3 i hjfl]
        refine hT.dead_clean i ?_ hjold
        rw [hD5len] at hilt
        exact hilt
    have hslots_lt' : ∀ i ∈ nodesOf tfin,
        (nodeAt D5 i).item_index < E'.length := by
      intro i hi
      have hine := hne_top_fin i hi
      have hiold := hmem_nodes i (hmem_fin i hi)
      rw [hnewii i hine, hE'len]
      by_cases hil : i = jlast
      · rw [if_pos hil]
        have hjlt : jlast ≠ s.top := by
          rw [← hil]
          exact hine
        have hstne : (nodeAt s.data s.top).item_index ≠
            s.elements.length - 1 := by
          intro he
          exact hjlt (hT.slots_inj jlast hjlast_mem s.top htopmem
            (by rw [hjlast_ii, he]))
        omega
      · rw [if_neg hil]
        have hiine : (nodeAt s.data i).item_index ≠
            s.elements.length - 1 := by
          intro he
          exact hil (hT.slots_inj i hiold jlast hjlast_mem
            (by rw [he, hjlast_ii]))
        have h1 := hT.slots_lt i hiold
        omega
    have hslots_inj' : ∀ i ∈ nodesOf tfin, ∀ j ∈ nodesOf tfin,
        (nodeAt D5 i).item_index = (nodeAt D5 j).item_index → i = j := by
      intro i hi j hj heq
      have hine := hne_top_fin i hi
      have hjne := hne_top_fin j hj
      have hiold := hmem_nodes i (hmem_fin i hi)
      have hjold := hmem_nodes j (hmem_fin j hj)
      rw [hnewii i hine, hnewii j hjne] at heq
      by_cases hil : i = jlast <;> by_cases hjl : j = jlast
      · rw [hil, hjl]
      · rw [if_pos hil, if_neg hjl] at heq
        exact absurd (hT.slots_inj s.top htopmem j hjold heq).symm hjne
      · rw [if_neg hil, if_pos hjl] at heq
        exact absurd (hT.slots_inj i hiold s.top htopmem heq) hine
      · rw [if_neg hil, if_neg hjl] at heq
        exact hT.slots_inj i hiold j hjold heq
    have hslots_surj' : ∀ sl, sl < E'.length →
        ∃ i ∈ nodesOf tfin, (nodeAt D5 i).item_index = sl := by
      intro sl hsl
      rw [hE'len] at hsl
      obtain ⟨i0, hi0mem, hi0⟩ := hT.slots_surj sl (by omega)
      have hi0mem' := hi0mem
      rw [nodesOf_node] at hi0mem'
      rcases List.mem_cons.1 hi0mem' with h0 | h0
      · have hjlne : jlast ≠ s.top := by
          intro he
          rw [he] at hjlast_ii
          rw [h0] at hi0
          omega
        refine ⟨jlast, ?_, ?_⟩
        · have hj2 := hjlast_mem
          rw [nodesOf_node] at hj2
          rcases List.mem_cons.1 hj2 with h1 | h1
          · exact absurd h1 hjlne
          · exact hmem_fin' jlast h1
        · rw [hnewii jlast hjlne, if_pos rfl, ← h0]
          exact hi0
      · have hi0ne : i0 ≠ s.top := by
          intro he
          exact htopnot (he ▸ h0)
        have hi0l : i0 ≠ jlast := by
          intro he
          rw [he, hjlast_ii] at hi0
          omega
        refine ⟨i0, hmem_fin' i0 h0, ?_⟩
        rw [hnewii i0 hi0ne, if_neg hi0l]
        exact hi0
    have hkeytop_ne : ∀ i, i ∈ nodesOf tfin →
        P.keyeq (valAt s.elements s.data i) (topVal s) = false := by
      intro i hi
      by_contra hk
      simp only [Bool.not_eq_false] at hk
      have hcongr := lookupMap_keyeq_congr P L.ksymm L.ktrans hk s.map
      have h1 := hT.map_resolves i (hmem_nodes i (hmem_fin i hi))
      have h2 := hT.map_resolves s.top htopmem
      rw [hcongr, htv, h2] at h1
      exact hne_top_fin i hi (Option.some.inj h1.symm)
    have hmap_ent : ∀ e ∈ eraseMap P s.map (topVal s),
        e.2 ∈ nodesOf tfin ∧ P.keyeq e.1 (valAt E' D5 e.2) = true := by
      intro e he
      have hein : e ∈ s.map := List.mem_of_mem_filter he
      have hkeep : P.keyeq (topVal s) e.1 = false := by
        have h := List.of_mem_filter he
        simpa using h
      obtain ⟨hmem, hkey⟩ := hT.map_entries e hein
      have hene : e.2 ≠ s.top := by
        intro he2
        rw [he2] at hkey
        have h1 := L.ksymm _ _ hkey
        rw [htv] at hkeep
        exact Bool.noConfusion (hkeep.symm.trans h1)
      have hmem_tf : e.2 ∈ nodesOf tfin := by
        rw [nodesOf_node] at hmem
        rcases List.mem_cons.1 hmem with he2 | he2
        · exact absurd he2 hene
        · exact hmem_fin' e.2 he2
      refine ⟨hmem_tf, ?_⟩
      rw [hvalpres e.2 hmem_tf]
      exact hkey
    have hmap_res : ∀ i ∈ nodesOf tfin,
        lookupMap P (eraseMap P s.map (topVal s)) (valAt E' D5 i) =
          some i := by
      intro i hi
      rw [hvalpres i hi]
      rw [lookupMap_eraseMap_ne P L.ksymm L.ktrans s.map (topVal s) _
        (hkeytop_ne i hi)]
      exact hT.map_resolves i (hmem_nodes i (hmem_fin i hi))
    have hord' : heapOrd P.cmp (valAt E' D5) tfin :=
      heapOrd_congr tfin hord_fin (fun j hj => hvalpres j hj)
    refine ⟨?_, ?_, ?_, ?_⟩
    · rw [hfinal]
      refine Or.inr ⟨tfin, ?_, hroot_ne_NONE, rfl, hrepD5, hpar', hls',
        hrs', hnd_fin, hdead', hslots_lt', hslots_inj', hslots_surj', ?_,
        hmap_ent, hmap_res, hord'⟩
      · rw [hD5len]
        exact hbound
      · rw [hE'len, hD5len]
        have h1 := hT.elen
        omega
    · rw [hfinal]
      show E'.length + 1 = s.elements.length
      rw [hE'len]
      omega
    · rw [hfinal]
      show (topVal s :: E').Perm s.elements
      rw [hE', hstd3]
      exact extract_perm s.elements default
        (nodeAt s.data s.top).item_index hst_lt
    · intro x i hxi
      rw [hfinal] at hxi
      have horig : lookupMap P (eraseMap P s.map (topVal s)) x = some i :=
        hxi
      have hne : lookupMap P (eraseMap P s.map (topVal s)) x ≠ none := by
        rw [horig]
        simp
      have hpres : lookupMap P (eraseMap P s.map (topVal s)) x =
          lookupMap P s.map x := by
        by_cases hk : P.keyeq x (topVal s) = true
        · exact absurd (lookupMap_eraseMap P L.ksymm L.ktrans s.map
            (topVal s) x hk) hne
        · have hk' : P.keyeq x (topVal s) = false := by
            revert hk
            cases P.keyeq x (topVal s) <;> simp
          exact lookupMap_eraseMap_ne P L.ksymm L.ktrans s.map (topVal s)
            x hk'
      refine ⟨by rw [← hpres]; exact horig, ?_⟩
      rw [hfinal]
      show valAt E' D5 i = valAt s.elements s.data i
      obtain ⟨e, he, he2, hek⟩ := lookupMap_mem P x i _ horig
      have hent := hmap_ent e he
      rw [he2] at hent
      exact hvalpres i hent.1


/-- Heap order read back from the arena: every non-root node of a
represented, heap-ordered tree satisfies the invariant on its stored
`parent` edge. -/
theorem heapOrd_parent_edge {T : Type} {cmp : T → T → Bool} {vals : Nat → T}
    {data : List Node} :
    ∀ t : HTree, reps data t → heapOrd cmp vals t →
      ∀ j ∈ nodesOf t, j ≠ t.rootIdx →
        cmp (vals j) (vals ((nodeAt data j).parent)) = false
  | HTree.node r cs => by
    intro hrep hord j hj hjne
    simp only [reps] at hrep
    obtain ⟨hrlt, hrne, hchain, hcs⟩ := hrep
    simp only [heapOrd] at hord
    rcases mem_nodesOf_node.1 hj with h | ⟨tc, htc, hjt⟩
    · exact absurd h hjne
    · by_cases hroot : j = tc.rootIdx
      · have hpar := chainSeg_mem_parent hchain j (by
          rw [hroot]
          exact List.mem_map_of_mem HTree.rootIdx htc)
        rw [hpar, hroot]
        exact (hord tc htc).1
      · exact heapOrd_parent_edge tc (hcs tc htc) (hord tc htc).2 j hjt hroot
  termination_by t => sizeOf t
  decreasing_by
    have := List.sizeOf_lt_of_mem htc
    simp only [HTree.node.sizeOf_spec]
    omega

/-- Under an irreflexive, negatively transitive comparison, every node of a
heap-ordered tree compares `false` against the root. -/
theorem heapOrd_all_root {T : Type} {cmp : T → T → Bool} {vals : Nat → T}
    (hirr : ∀ a, cmp a a = false)
    (hnt : ∀ a b c, cmp a b = false → cmp b c = false → cmp a c = false) :
    ∀ t : HTree, heapOrd cmp vals t →
      ∀ j ∈ nodesOf t, cmp (vals j) (vals t.rootIdx) = false
  | HTree.node r cs => by
    intro hord j hj
    simp only [heapOrd] at hord
    rcases mem_nodesOf_node.1 hj with h | ⟨tc, htc, hjt⟩
    · rw [h]
      exact hirr _
    · have h1 := heapOrd_all_root hirr hnt tc (hord tc htc).2 j hjt
      exact hnt _ _ _ h1 (hord tc htc).1
  termination_by t => sizeOf t
  decreasing_by
    have := List.sizeOf_lt_of_mem htc
    simp only [HTree.node.sizeOf_spec]
    omega

/-- In a well-formed non-empty heap whose comparison is irreflexive and
negatively transitive, no stored value beats `top()`. -/
theorem WFtree_root_min [Inhabited T] {P : HeapParams T} {s : State T}
    {t : HTree} (hT : WFtree P s t)
    (hirr : ∀ a, P.cmp a a = false)
    (hnt : ∀ a b c, P.cmp a b = false → P.cmp b c = false →
      P.cmp a c = false) :
    ∀ v ∈ s.elements, P.cmp v (topVal s) = false := by
  intro v hv
  obtain ⟨k, hk, hkv⟩ := List.getElem_of_mem hv
  obtain ⟨i, himem, hii⟩ := hT.slots_surj k hk
  have hvi : valAt s.elements s.data i = v := by
    rw [valAt, hii, List.getD_eq_getElem?_getD, List.getElem?_eq_getElem hk]
    simpa using hkv
  have h1 := heapOrd_all_root hirr hnt t hT.ord i himem
  rw [hvi] at h1
  have h2 : topVal s = valAt s.elements s.data t.rootIdx := by
    rw [topVal, hT.root_eq]
  rw [h2]
  exact h1

/-- `pop` on an empty heap is a no-op at the level of `popOp`. -/
theorem popOp_noop [Inhabited T] (P : HeapParams T) {s : State T}
    (h : s.top = NONE) : popOp P s = s := by
  unfold popOp
  rw [if_pos h]

/-- The empty starting state is well-formed. -/
theorem WF_emptyState [Inhabited T] (P : HeapParams T) :
    WF P (emptyState T) := by
  refine Or.inl ⟨rfl, rfl, rfl, rfl, ?_, ?_⟩
  · show ([] : List Node).length < NONE
    simpa using NONE_pos
  · intro i hi
    simp [emptyState] at hi

/-- `merge` never touches an `item_index`. -/
theorem mergeIdx_ii (data : List Node) (a b j : Nat) :
    (nodeAt (mergeIdx data a b) j).item_index =
      (nodeAt data j).item_index := by
  unfold mergeIdx
  dsimp only
  split
  · rw [setChild_ii, setLS_ii, setRS_ii, setParent_ii]
  · rw [setChild_ii, setRS_ii, setParent_ii]

/-- The detach surgery never touches an `item_index`. -/
theorem detachArena_ii (data : List Node) (idx j : Nat) :
    (nodeAt (detachArena data idx) j).item_index =
      (nodeAt data j).item_index := by
  unfold detachArena
  dsimp only
  repeat' split
  all_goals simp [setChild_ii, setRS_ii, setLS_ii]

/-- The default comparison/key instantiation over a linear order is lawful. -/
theorem ltParams_lawful (T : Type) [LinearOrder T] :
    LawfulParams (ltParams T) := by
  refine ⟨?_, ?_, ?_, ?_⟩
  · intro a b h
    simp only [ltParams, decide_eq_true_eq] at h
    simp only [ltParams, decide_eq_false_iff_not, not_lt]
    exact le_of_lt h
  · intro a
    simp [ltParams]
  · intro a b h
    simp only [ltParams, decide_eq_true_eq] at h ⊢
    exact h.symm
  · intro a b c h1 h2
    simp only [ltParams, decide_eq_true_eq] at h1 h2 ⊢
    exact h1.trans h2

/-- `std::less<int>` / `std::equal_to<int>` are lawful. -/
theorem intParams_lawful : LawfulParams intParams := by
  refine ⟨?_, ?_, ?_, ?_⟩
  · intro a b h
    simp only [intParams, decide_eq_true_eq] at h
    simp only [intParams, decide_eq_false_iff_not, not_lt]
    omega
  · intro a
    simp [intParams]
  · intro a b h
    simp only [intParams, decide_eq_true_eq] at h ⊢
    omega
  · intro a b c h1 h2
    simp only [intParams, decide_eq_true_eq] at h1 h2 ⊢
    omega

/-- The handle instantiation (priority order, identity keys) is lawful. -/
theorem handleParams_lawful : LawfulParams handleParams := by
  refine ⟨?_, ?_, ?_, ?_⟩
  · intro a b h
    simp only [handleParams, decide_eq_true_eq] at h
    simp only [handleParams, decide_eq_false_iff_not, not_lt]
    omega
  · intro a
    simp [handleParams]
  · intro a b h
    simp only [handleParams, decide_eq_true_eq] at h ⊢
    omega
  · intro a b c h1 h2
    simp only [handleParams, decide_eq_true_eq] at h1 h2 ⊢
    omega

/-- Everything the internal map certifies about a resolved key in a
well-formed state: the index is a live in-range node, its slot is in
range, the stored value is key-equivalent to the query, and the stored
value resolves back to the same index. -/
theorem WF_lookup_facts [Inhabited T] {P : HeapParams T}
    (L : LawfulParams P) {s : State T} (hWF : WF P s) {x : T} {i : Nat}
    (h : lookupMap P s.map x = some i) :
    i < s.data.length ∧
    (nodeAt s.data i).item_index < s.elements.length ∧
    P.keyeq x (valAt s.elements s.data i) = true ∧
    lookupMap P s.map (valAt s.elements s.data i) = some i := by
  rcases hWF with ⟨htop, hE⟩ | ⟨t, hT⟩
  · obtain ⟨_, _, hmap, _, _⟩ := hE
    rw [hmap] at h
    exact absurd h (by simp [lookupMap])
  · obtain ⟨e, he, he2, hek⟩ := lookupMap_mem P x i s.map h
    obtain ⟨hmem, hkey⟩ := hT.map_entries e he
    rw [he2] at hmem hkey
    refine ⟨reps_nodes_lt s.data t hT.rep i hmem, hT.slots_lt i hmem,
      L.ktrans _ _ _ hek hkey, hT.map_resolves i hmem⟩


/-- Appending by `push` preserves the reading of every existing slot. -/
theorem pushOp_valAt_keep [Inhabited T] (P : HeapParams T) (s : State T)
    (v : T) {j : Nat} (hj : j < s.data.length)
    (hii : (nodeAt s.data j).item_index < s.elements.length) :
    valAt (pushOp P s v).elements (pushOp P s v).data j =
      valAt s.elements s.data j := by
  by_cases htop : s.top = NONE
  · rw [pushOp_empty_eq P s v htop]
    exact valAt_append v _ hj hii
  · rw [pushOp_tree_eq P s v htop]
    dsimp only
    split
    · rw [valAt, valAt, mergeIdx_ii,
        nodeAt_append_left [⟨s.elements.length, NONE, NONE, NONE, NONE⟩] hj,
        List.getD_append _ _ _ _ hii]
    · rw [valAt, valAt, mergeIdx_ii,
        nodeAt_append_left [⟨s.elements.length, NONE, NONE, NONE, NONE⟩] hj,
        List.getD_append _ _ _ _ hii]

/-- The value stored for the newly pushed node. -/
theorem pushOp_self_val [Inhabited T] (P : HeapParams T) (s : State T)
    (v : T) :
    valAt (pushOp P s v).elements (pushOp P s v).data s.data.length = v := by
  have hgd : (s.elements ++ [v]).getD s.elements.length default = v := by
    rw [List.getD_eq_getElem?_getD, List.getElem?_append_right (le_refl _)]
    simp
  by_cases htop : s.top = NONE
  · rw [pushOp_empty_eq P s v htop]
    rw [valAt,
      @nodeAt_append_self s.data ⟨s.elements.length, NONE, NONE, NONE, NONE⟩]
    exact hgd
  · rw [pushOp_tree_eq P s v htop]
    dsimp only
    split
    · rw [valAt, mergeIdx_ii,
        @nodeAt_append_self s.data ⟨s.elements.length, NONE, NONE, NONE, NONE⟩]
      exact hgd
    · rw [valAt, mergeIdx_ii,
        @nodeAt_append_self s.data ⟨s.elements.length, NONE, NONE, NONE, NONE⟩]
      exact hgd

/-- Resolution in the map written by `push` under the push precondition. -/
theorem pushOp_lookup [Inhabited T] (P : HeapParams T)
    (hsymm : ∀ a b, P.keyeq a b = true → P.keyeq b a = true)
    (htrans : ∀ a b c, P.keyeq a b = true → P.keyeq b c = true →
      P.keyeq a c = true)
    (s : State T) {v : T}
    (hpre : lookupMap P s.map v = none) (x : T) :
    lookupMap P (pushOp P s v).map x =
      (if P.keyeq x v = true then some s.data.length
       else lookupMap P s.map x) := by
  rw [pushOp_map_eq, writeMap_of_lookup_none P hpre]
  by_cases hk : P.keyeq x v = true
  · rw [if_pos hk]
    cases hlx : lookupMap P s.map x with
    | some j =>
      exfalso
      have hvx : P.keyeq v x = true := hsymm x v hk
      have hc := lookupMap_keyeq_congr P hsymm htrans hvx s.map
      rw [hpre, hlx] at hc
      exact Option.noConfusion hc
    | none =>
      rw [lookupMap_append_none P hlx]
      simp [lookupMap, hk]
  · rw [if_neg hk]
    cases hlx : lookupMap P s.map x with
    | some j => rw [lookupMap_append_some P hlx]
    | none =>
      rw [lookupMap_append_none P hlx]
      have hk' : P.keyeq x v = false := by
        revert hk
        cases P.keyeq x v <;> simp
      simp [lookupMap, hk']

/-- `update` never changes the internal map when the key resolves. -/
theorem updateOp_map_keep [Inhabited T] (P : HeapParams T) (s : State T)
    {d : T} {index : Nat} (hlku : lookupMap P s.map d = some index) :
    (updateOp P s d).map = s.map := by
  by_cases heq : index = s.top
  · rw [updateOp_root_eq P s hlku heq]
  · rw [updateOp_detach_eq P s hlku heq]

/-- `update` never changes an `item_index`. -/
theorem updateOp_ii [Inhabited T] (P : HeapParams T) (s : State T)
    {d : T} {index : Nat} (hlku : lookupMap P s.map d = some index) (j : Nat) :
    (nodeAt (updateOp P s d).data j).item_index =
      (nodeAt s.data j).item_index := by
  by_cases heq : index = s.top
  · rw [updateOp_root_eq P s hlku heq]
  · rw [updateOp_detach_eq P s hlku heq]
    dsimp only
    split
    · rw [mergeIdx_ii, setRS_ii, setLS_ii, setParent_ii, detachArena_ii]
    · rw [mergeIdx_ii, setRS_ii, setLS_ii, setParent_ii, detachArena_ii]

/-- `update` overwrites exactly the value array at the resolved slot. -/
theorem updateOp_elements_eq [Inhabited T] (P : HeapParams T) (s : State T)
    {d : T} {index : Nat} (hlku : lookupMap P s.map d = some index) :
    (updateOp P s d).elements =
      s.elements.set (nodeAt s.data index).item_index d := by
  by_cases heq : index = s.top
  · rw [updateOp_root_eq P s hlku heq]
  · rw [updateOp_detach_eq P s hlku heq]

/-- After `update`, the resolved node stores exactly the update value. -/
theorem updateOp_self_val [Inhabited T] (P : HeapParams T) (s : State T)
    {d : T} {index : Nat} (hlku : lookupMap P s.map d = some index)
    (hslot : (nodeAt s.data index).item_index < s.elements.length) :
    valAt (updateOp P s d).elements (updateOp P s d).data index = d := by
  rw [valAt, updateOp_ii P s hlku, updateOp_elements_eq P s hlku,
    List.getD_eq_getElem?_getD, List.getElem?_set_self hslot]
  rfl

/-- After `update`, a node whose slot differs from the resolved one keeps
its stored value. -/
theorem updateOp_other_val [Inhabited T] (P : HeapParams T) (s : State T)
    {d : T} {index : Nat} (hlku : lookupMap P s.map d = some index)
    {j : Nat}
    (hne : (nodeAt s.data index).item_index ≠
      (nodeAt s.data j).item_index) :
    valAt (updateOp P s d).elements (updateOp P s d).data j =
      valAt s.elements s.data j := by
  rw [valAt, valAt, updateOp_ii P s hlku, updateOp_elements_eq P s hlku,
    List.getD_eq_getElem?_getD, List.getD_eq_getElem?_getD,
    List.getElem?_set_ne hne]



theorem lastKeyWrite_keyeq (P : HeapParams T) (x : T) :
    ∀ (ops : List (Op T)) (v : T), lastKeyWrite P x ops = some v →
      P.keyeq x v = true
  | [], v => by
    intro h
    simp [lastKeyWrite] at h
  | op :: rest, v => by
    intro h
    simp only [lastKeyWrite] at h
    cases hr : lastKeyWrite P x rest with
    | some w =>
      rw [hr] at h
      simp only [Option.some_inj] at h
      rw [← h]
      exact lastKeyWrite_keyeq P x rest w hr
    | none =>
      rw [hr] at h
      cases op with
      | push u =>
        simp only at h
        by_cases hk : P.keyeq x u = true
        · rw [if_pos hk, Option.some_inj] at h
          rw [← h]
          exact hk
        · rw [if_neg hk] at h
          exact absurd h (by simp)
      | update u =>
        simp only at h
        by_cases hk : P.keyeq x u = true
        · rw [if_pos hk, Option.some_inj] at h
          rw [← h]
          exact hk
        · rw [if_neg hk] at h
          exact absurd h (by simp)
      | pop =>
        simp at h

/-- Running a precondition-respecting operation sequence from a well-formed
state preserves well-formedness and accounts for the value count: the final
number of stored values is the initial one plus the pushes minus the pops
that found a non-empty heap. -/
theorem runOps_WF [Inhabited T] {P : HeapParams T} (L : LawfulParams P) :
    ∀ (ops : List (Op T)) (s : State T), WF P s →
      opsOK P s ops = true →
      s.data.length + countPush ops < NONE →
      WF P (runOps P s ops) ∧
      (runOps P s ops).elements.length + countEffPop P s ops =
        s.elements.length + countPush ops
  | [], s => by
    intro hWF _ _
    exact ⟨hWF, rfl⟩
  | op :: rest, s => by
    intro hWF hok hroom
    simp only [opsOK, Bool.and_eq_true] at hok
    obtain ⟨hpre, hrest⟩ := hok
    cases op with
    | push v =>
      simp only [countPush] at hroom
      obtain ⟨hWF1, hel1, hdl1⟩ := push_WF L hWF hpre (by omega)
      have ih := runOps_WF L rest (pushOp P s v) hWF1 hrest
        (by rw [hdl1]; omega)
      refine ⟨ih.1, ?_⟩
      have h2 := ih.2
      rw [hel1] at h2
      simp only [List.length_append, List.length_cons, List.length_nil]
        at h2
      simp only [runOps, stepOp, countEffPop, countPush]
      omega
    | pop =>
      simp only [countPush] at hroom
      by_cases htop : s.top = NONE
      · have hnoop : popOp P s = s := popOp_noop P htop
        have hWF1 : WF P (popOp P s) := by
          rw [hnoop]
          exact hWF
        have ih := runOps_WF L rest (popOp P s) hWF1 hrest
          (by rw [data_length_popOp]; omega)
        refine ⟨ih.1, ?_⟩
        have h2 := ih.2
        rw [hnoop] at h2
        simp only [runOps, stepOp, countEffPop, countPush, if_pos htop]
        rw [hnoop]
        omega
      · obtain ⟨hWF1, hlen1, _, _⟩ := pop_WF L hWF htop
        have ih := runOps_WF L rest (popOp P s) hWF1 hrest
          (by rw [data_length_popOp]; omega)
        refine ⟨ih.1, ?_⟩
        have h2 := ih.2
        simp only [runOps, stepOp, countEffPop, countPush, if_neg htop]
        omega
    | update d =>
      simp only [countPush] at hroom
      have hWF1 := update_WF L hWF hpre
      have hel1 := elements_length_updateOp P s d
      have ih := runOps_WF L rest (updateOp P s d) hWF1 hrest
        (by rw [data_length_updateOp]; omega)
      refine ⟨ih.1, ?_⟩
      have h2 := ih.2
      simp only [runOps, stepOp, countEffPop, countPush]
      omega


/-- Pushing a list of key-fresh, pairwise key-distinct values preserves
well-formedness and appends exactly those values to the value array. -/
theorem pushes_build [Inhabited T] {P : HeapParams T} (L : LawfulParams P) :
    ∀ (vs : List T) (s : State T), WF P s →
      s.data.length + vs.length < NONE →
      (∀ v ∈ vs, ∀ w ∈ s.elements, P.keyeq v w = false) →
      List.Pairwise (fun a b => P.keyeq a b = false) vs →
      WF P (runOps P s (vs.map Op.push)) ∧
      (runOps P s (vs.map Op.push)).elements = s.elements ++ vs
  | [], s => by
    intro hWF _ _ _
    exact ⟨hWF, by simp [runOps]⟩
  | v :: vs, s => by
    intro hWF hroom hfresh hpw
    have hpre : pushPre P s v = true := by
      simp only [pushPre, Option.isNone_iff_eq_none]
      cases hlk : lookupMap P s.map v with
      | none => rfl
      | some i =>
        exfalso
        obtain ⟨hlt, hslt, hkv, _⟩ := WF_lookup_facts L hWF hlk
        have hval_mem : valAt s.elements s.data i ∈ s.elements := by
          rw [valAt, List.getD_eq_getElem?_getD,
            List.getElem?_eq_getElem hslt]
          simpa using List.getElem_mem hslt
        have hfr := hfresh v (List.mem_cons_self v vs) _ hval_mem
        exact Bool.noConfusion (hfr.symm.trans hkv)
    simp only [List.length_cons] at hroom
    obtain ⟨hWF1, hel1, hdl1⟩ := push_WF L hWF hpre (by omega)
    have ih := pushes_build L vs (pushOp P s v) hWF1
      (by rw [hdl1]; omega)
      (by
        intro u hu w hw
        rw [hel1] at hw
        rcases List.mem_append.1 hw with hw | hw
        · exact hfresh u (List.mem_cons_of_mem _ hu) w hw
        · have hwv : w = v := by simpa using hw
          have h1 := (List.pairwise_cons.1 hpw).1 u hu
          have h2 : P.keyeq u v = false := by
            by_contra hx
            simp only [Bool.not_eq_false] at hx
            exact Bool.noConfusion (h1.symm.trans (L.ksymm u v hx))
          rw [hwv]
          exact h2)
      (List.pairwise_cons.1 hpw).2
    refine ⟨ih.1, ?_⟩
    simp only [List.map_cons, runOps, stepOp]
    rw [ih.2, hel1]
    simp

/-- Repeatedly reading `top()` and popping a well-formed heap until it is
empty returns the stored values, sorted. -/
theorem extract_sorted_core {T : Type} [LinearOrder T] [Inhabited T] :
    ∀ (n : Nat) (s : State T), WF (ltParams T) s → s.elements.length = n →
      (extractList (ltParams T) s n).Perm s.elements ∧
      List.Sorted (· ≤ ·) (extractList (ltParams T) s n)
  | 0, s => by
    intro hWF hlen
    have hnil : s.elements = [] := List.length_eq_zero.1 hlen
    simp only [extractList]
    exact ⟨by rw [hnil], List.sorted_nil⟩
  | n + 1, s => by
    intro hWF hlen
    have htop : ¬ s.top = NONE := by
      intro htop
      rcases hWF with ⟨_, hE⟩ | ⟨t, hT⟩
      · obtain ⟨hel, _, _, _, _⟩ := hE
        rw [hel] at hlen
        simp at hlen
      · exact hT.topne htop
    have hirr : ∀ a : T, (ltParams T).cmp a a = false := by
      intro a
      simp [ltParams]
    have hnt : ∀ a b c : T, (ltParams T).cmp a b = false →
        (ltParams T).cmp b c = false → (ltParams T).cmp a c = false := by
      intro a b c h1 h2
      simp only [ltParams, decide_eq_false_iff_not, not_lt] at h1 h2 ⊢
      exact le_trans h2 h1
    obtain ⟨hWF1, hlen1, hperm1, _⟩ := pop_WF (ltParams_lawful T) hWF htop
    have ih := extract_sorted_core n (popOp (ltParams T) s) hWF1 (by omega)
    have hmin : ∀ v ∈ s.elements, ¬ v < topVal s := by
      rcases hWF with ⟨htopN, _⟩ | ⟨t, hT⟩
      · exact absurd htopN htop
      · intro v hv
        have h := WFtree_root_min hT hirr hnt v hv
        simpa [ltParams] using h
    simp only [extractList]
    constructor
    · exact (ih.1.cons (topVal s)).trans hperm1
    · rw [List.sorted_cons]
      refine ⟨?_, ih.2⟩
      intro b hb
      have hb1 : b ∈ (popOp (ltParams T) s).elements := ih.1.mem_iff.1 hb
      have hb2 : b ∈ s.elements :=
        hperm1.subset (List.mem_cons_of_mem _ hb1)
      exact not_lt.1 (hmin b hb2)

/-- Along a precondition-respecting run, a key that still resolves in the
internal map addresses either the value of its last matching write, or (if
the run never wrote it) the unchanged value it had at the start. -/
theorem locator_tracks [Inhabited T] {P : HeapParams T} (L : LawfulParams P) :
    ∀ (ops : List (Op T)) (s : State T), WF P s → opsOK P s ops = true →
      s.data.length + countPush ops < NONE →
      ∀ x i, lookupMap P (runOps P s ops).map x = some i →
        ((∃ v, lastKeyWrite P x ops = some v ∧
          valAt (runOps P s ops).elements (runOps P s ops).data i = v) ∨
         (lastKeyWrite P x ops = none ∧ lookupMap P s.map x = some i ∧
          valAt (runOps P s ops).elements (runOps P s ops).data i =
            valAt s.elements s.data i))
  | [], s => by
    intro hWF hok hroom x i hres
    exact Or.inr ⟨rfl, hres, rfl⟩
  | op :: rest, s => by
    intro hWF hok hroom x i hres
    simp only [opsOK, Bool.and_eq_true] at hok
    obtain ⟨hpre, hrest⟩ := hok
    simp only [runOps] at hres
    cases op with
    | push v =>
      have hlkv : lookupMap P s.map v = none := by
        simpa [opPre, pushPre, Option.isNone_iff_eq_none] using hpre
      obtain ⟨hWF1, hel1, hdl1⟩ := push_WF L hWF hpre (by
        simp only [countPush] at hroom
        omega)
      have ih := locator_tracks L rest (pushOp P s v) hWF1 hrest (by
        rw [hdl1]
        simp only [countPush] at hroom
        omega) x i hres
      rcases ih with ⟨w, hlw, hval⟩ | ⟨hlw, hlk1, hval⟩
      · refine Or.inl ⟨w, ?_, ?_⟩
        · simp only [lastKeyWrite, hlw]
        · simpa only [runOps] using hval
      · rw [pushOp_lookup P L.ksymm L.ktrans s hlkv x] at hlk1
        by_cases hk : P.keyeq x v = true
        · rw [if_pos hk, Option.some_inj] at hlk1
          refine Or.inl ⟨v, ?_, ?_⟩
          · simp only [lastKeyWrite, hlw, hk, if_true]
          · have h2 := pushOp_self_val P s v
            rw [hlk1] at h2
            have h3 : valAt (runOps P (stepOp P s (Op.push v)) rest).elements
                (runOps P (stepOp P s (Op.push v)) rest).data i =
                valAt (pushOp P s v).elements (pushOp P s v).data i := hval
            simpa only [runOps] using h3.trans h2
        · rw [if_neg hk] at hlk1
          refine Or.inr ⟨?_, hlk1, ?_⟩
          · have hk' : P.keyeq x v = false := by
              revert hk
              cases P.keyeq x v <;> simp
            simp only [lastKeyWrite, hlw, hk', Bool.false_eq_true, if_false]
          · obtain ⟨hilt, hslt, _, _⟩ := WF_lookup_facts L hWF hlk1
            have h2 := pushOp_valAt_keep P s v hilt hslt
            simpa only [runOps] using hval.trans h2
    | pop =>
      have ih := locator_tracks L rest (popOp P s) (by
          by_cases htop : s.top = NONE
          · rw [popOp_noop P htop]
            exact hWF
          · exact (pop_WF L hWF htop).1) hrest (by
        rw [data_length_popOp]
        simpa [countPush] using hroom) x i hres
      rcases ih with ⟨w, hlw, hval⟩ | ⟨hlw, hlk1, hval⟩
      · refine Or.inl ⟨w, ?_, ?_⟩
        · simp only [lastKeyWrite, hlw]
        · simpa only [runOps] using hval
      · by_cases htop : s.top = NONE
        · have hnoop := popOp_noop P htop
          rw [hnoop] at hlk1
          refine Or.inr ⟨?_, hlk1, ?_⟩
          · simp only [lastKeyWrite, hlw]
          · have h2 : valAt (popOp P s).elements (popOp P s).data i =
                valAt s.elements s.data i := by
              rw [hnoop]
            simpa only [runOps] using hval.trans h2
        · obtain ⟨_, _, _, hkeep⟩ := pop_WF L hWF htop
          obtain ⟨hlk0, hvkeep⟩ := hkeep x i hlk1
          refine Or.inr ⟨?_, hlk0, ?_⟩
          · simp only [lastKeyWrite, hlw]
          · simpa only [runOps] using hval.trans hvkeep
    | update d =>
      have hlkud : ∃ index, lookupMap P s.map d = some index := by
        revert hpre
        simp only [opPre, updatePre]
        cases hlk : lookupMap P s.map d with
        | none => intro h; exact absurd h (by simp)
        | some j => intro _; exact ⟨j, rfl⟩
      obtain ⟨index, hlku⟩ := hlkud
      have hWF1 := update_WF L hWF hpre
      have ih := locator_tracks L rest (updateOp P s d) hWF1 hrest (by
        rw [data_length_updateOp]
        simpa [countPush] using hroom) x i hres
      obtain ⟨hidxlt, hidxslt, hkdv, hresd⟩ := WF_lookup_facts L hWF hlku
      rcases ih with ⟨w, hlw, hval⟩ | ⟨hlw, hlk1, hval⟩
      · refine Or.inl ⟨w, ?_, ?_⟩
        · simp only [lastKeyWrite, hlw]
        · simpa only [runOps] using hval
      · rw [updateOp_map_keep P s hlku] at hlk1
        by_cases hk : P.keyeq x d = true
        · have hxi : lookupMap P s.map x = lookupMap P s.map d :=
            lookupMap_keyeq_congr P L.ksymm L.ktrans hk s.map
          rw [hxi, hlku, Option.some_inj] at hlk1
          refine Or.inl ⟨d, ?_, ?_⟩
          · simp only [lastKeyWrite, hlw, hk, if_true]
          · have h2 := updateOp_self_val P s hlku hidxslt
            rw [hlk1] at h2
            simpa only [runOps] using hval.trans h2
        · refine Or.inr ⟨?_, hlk1, ?_⟩
          · have hk' : P.keyeq x d = false := by
              revert hk
              cases P.keyeq x d <;> simp
            simp only [lastKeyWrite, hlw, hk', Bool.false_eq_true, if_false]
          · obtain ⟨hilt, hslt, hkxi, hresi⟩ := WF_lookup_facts L hWF hlk1
            have hne : i ≠ index := by
              intro he
              rw [he] at hkxi
              have h1 := L.ksymm _ _ hkdv
              have h2 := L.ktrans _ _ _ hkxi h1
              exact hk h2
            have hslotne : (nodeAt s.data index).item_index ≠
                (nodeAt s.data i).item_index := by
              intro he
              rcases hWF with ⟨_, hE⟩ | ⟨t, hT⟩
              · obtain ⟨_, _, hmap, _, _⟩ := hE
                rw [hmap] at hlku
                exact absurd hlku (by simp [lookupMap])
              · obtain ⟨ed, hed, hed2, _⟩ := lookupMap_mem P d index s.map
                  hlku
                obtain ⟨ex, hex, hex2, _⟩ := lookupMap_mem P x i s.map hlk1
                have hmd := (hT.map_entries ed hed).1
                have hmx := (hT.map_entries ex hex).1
                rw [hed2] at hmd
                rw [hex2] at hmx
                exact hne.symm (hT.slots_inj index hmd i hmx he)
            have h2 := updateOp_other_val P s hlku hslotne
            simpa only [runOps] using hval.trans h2



/-- C1 (amended): after any operation sequence from the empty heap in which
every `push` respects the no-stored-duplicate-key precondition and every
`update` respects the decrease-key precondition, the arena satisfies the
heap-order invariant: whenever a record's `parent` field is set, the
record's value does not win the comparison against its parent's value. -/
theorem heap_order_invariant [Inhabited T] {P : HeapParams T}
    (L : LawfulParams P) (ops : List (Op T))
    (hok : opsOK P (emptyState T) ops = true)
    (hroom : countPush ops < NONE) :
    ∀ c, c < (runOps P (emptyState T) ops).data.length →
      (nodeAt (runOps P (emptyState T) ops).data c).parent ≠ NONE →
      P.cmp (valAt (runOps P (emptyState T) ops).elements
          (runOps P (emptyState T) ops).data c)
        (valAt (runOps P (emptyState T) ops).elements
          (runOps P (emptyState T) ops).data
          ((nodeAt (runOps P (emptyState T) ops).data c).parent)) =
        false := by
  obtain ⟨hWF, _⟩ := runOps_WF L ops (emptyState T) (WF_emptyState P) hok
    (by simpa [emptyState] using hroom)
  intro c hc hpar
  rcases hWF with ⟨htop, hE⟩ | ⟨t, hT⟩
  · obtain ⟨_, _, _, _, hdead⟩ := hE
    rw [hdead c hc] at hpar
    exact absurd rfl hpar
  · by_cases hmem : c ∈ nodesOf t
    · by_cases hroot : c = t.rootIdx
      · rw [hroot, hT.root_eq] at hpar
        exact absurd hT.root_parent hpar
      · exact heapOrd_parent_edge t hT.rep hT.ord c hmem hroot
    · rw [hT.dead_clean c hc hmem] at hpar
      exact absurd rfl hpar

/-- The heap-order invariant read off the decrease-key scenario: after the
run, record `0` has a live parent, and its value does not beat its parent's
value. -/
theorem heap_order_invariant_witness :
    opsOK handleParams (emptyState (Nat × Int)) decreaseKeyOps = true ∧
    handleParams.cmp
      (valAt (runOps handleParams (emptyState (Nat × Int))
        decreaseKeyOps).elements (runOps handleParams
        (emptyState (Nat × Int)) decreaseKeyOps).data 0)
      (valAt (runOps handleParams (emptyState (Nat × Int))
        decreaseKeyOps).elements (runOps handleParams
        (emptyState (Nat × Int)) decreaseKeyOps).data
        ((nodeAt (runOps handleParams (emptyState (Nat × Int))
          decreaseKeyOps).data 0).parent)) = false :=
  ⟨by decide, heap_order_invariant handleParams_lawful decreaseKeyOps
    (by decide) (by decide) 0 (by decide) (by decide)⟩

/-- C2: pushing any list of pairwise-distinct values into a fresh default
(`std::less`/`std::equal_to`) heap and then reading `top()` before each of
the `n` `pop`s yields exactly those values, sorted non-decreasingly. -/
theorem extract_all_sorted {T : Type} [LinearOrder T] [Inhabited T]
    (vs : List T) (hnd : vs.Nodup) (hroom : vs.length < NONE) :
    (extractList (ltParams T) (runOps (ltParams T) (emptyState T)
        (vs.map Op.push)) vs.length).Perm vs ∧
    List.Sorted (· ≤ ·) (extractList (ltParams T)
      (runOps (ltParams T) (emptyState T) (vs.map Op.push)) vs.length) := by
  have hpw : List.Pairwise (fun a b => (ltParams T).keyeq a b = false)
      vs := by
    refine hnd.imp ?_
    intro a b hne
    simp [ltParams, hne]
  obtain ⟨hWF, hel⟩ := pushes_build (ltParams_lawful T) vs (emptyState T)
    (WF_emptyState _) (by simpa [emptyState] using hroom)
    (by
      intro v hv w hw
      simp [emptyState] at hw) hpw
  have h0 : (emptyState T).elements = [] := rfl
  have hlen : (runOps (ltParams T) (emptyState T)
      (vs.map Op.push)).elements.length = vs.length := by
    rw [hel, h0, List.nil_append]
  have h := extract_sorted_core vs.length _ hWF hlen
  refine ⟨h.1.trans ?_, h.2⟩
  rw [hel, h0, List.nil_append]

/-- The sorted-extraction property run on the pushes `3, 1, 2`. -/
theorem extract_all_sorted_witness :
    ([3, 1, 2] : List Int).Nodup ∧
    (extractList (ltParams Int) (runOps (ltParams Int) (emptyState Int)
        (([3, 1, 2] : List Int).map Op.push))
      ([3, 1, 2] : List Int).length).Perm [3, 1, 2] :=
  ⟨by decide, (extract_all_sorted [3, 1, 2] (by decide) (by decide)).1⟩

/-- C4: whenever the Identity Locator still resolves key `x` after a
precondition-respecting run from the empty heap, the resolved arena index
is in range, its record's `item_index` addresses the value array in range,
the value stored there is exactly the value of `x`'s most recent matching
`push`/`update` (key-equivalent to `x`), and that stored value re-resolves
to the same index. -/
theorem identity_locator_roundtrip [Inhabited T] {P : HeapParams T}
    (L : LawfulParams P) (ops : List (Op T))
    (hok : opsOK P (emptyState T) ops = true)
    (hroom : countPush ops < NONE) (x : T) (i : Nat)
    (hres : lookupMap P (runOps P (emptyState T) ops).map x = some i) :
    ∃ v, lastKeyWrite P x ops = some v ∧ P.keyeq x v = true ∧
      i < (runOps P (emptyState T) ops).data.length ∧
      (nodeAt (runOps P (emptyState T) ops).data i).item_index <
        (runOps P (emptyState T) ops).elements.length ∧
      valAt (runOps P (emptyState T) ops).elements
        (runOps P (emptyState T) ops).data i = v ∧
      lookupMap P (runOps P (emptyState T) ops).map
        (valAt (runOps P (emptyState T) ops).elements
          (runOps P (emptyState T) ops).data i) = some i := by
  obtain ⟨hWF, _⟩ := runOps_WF L ops (emptyState T) (WF_emptyState P) hok
    (by simpa [emptyState] using hroom)
  obtain ⟨hilt, hslt, hkeq, hre⟩ := WF_lookup_facts L hWF hres
  have htr := locator_tracks L ops (emptyState T) (WF_emptyState P) hok
    (by simpa [emptyState] using hroom) x i hres
  rcases htr with ⟨v, hlw, hval⟩ | ⟨_, hlk0, _⟩
  · refine ⟨v, hlw, ?_, hilt, hslt, hval, hre⟩
    rw [← hval]
    exact hkeq
  · have h0 : (emptyState T).map = [] := rfl
    rw [h0] at hlk0
    exact absurd hlk0 (by simp [lookupMap])

/-- The locator round-trip read off the decrease-key scenario: the key
class of identity `2` still resolves, to the value written by the update. -/
theorem identity_locator_roundtrip_witness :
    opsOK handleParams (emptyState (Nat × Int)) decreaseKeyOps = true ∧
    (∃ v, lastKeyWrite handleParams ((2 : Nat), (123 : Int)) decreaseKeyOps
        = some v ∧ handleParams.keyeq (2, 123) v = true) := by
  refine ⟨by decide, ?_⟩
  obtain ⟨v, h1, h2, _⟩ := identity_locator_roundtrip handleParams_lawful
    decreaseKeyOps (by decide) (by decide) (2, 123) 2 (by decide)
  exact ⟨v, h1, h2⟩

/-- C6 (amended): after any precondition-respecting operation sequence from
the empty heap, `size()` equals the number of `push` calls minus the number
of `pop` calls that found a non-empty heap (a `pop` on the empty heap is a
no-op and does not change the count), and `empty()` holds exactly when
`size() == 0`. -/
theorem size_pushes_minus_effective_pops [Inhabited T] {P : HeapParams T}
    (L : LawfulParams P) (ops : List (Op T))
    (hok : opsOK P (emptyState T) ops = true)
    (hroom : countPush ops < NONE) :
    sizeOf' (runOps P (emptyState T) ops) =
      countPush ops - countEffPop P (emptyState T) ops ∧
    (emptyOf (runOps P (emptyState T) ops) = true ↔
      sizeOf' (runOps P (emptyState T) ops) = 0) := by
  obtain ⟨_, h2⟩ := runOps_WF L ops (emptyState T) (WF_emptyState P) hok
    (by simpa [emptyState] using hroom)
  have h0 : (emptyState T).elements.length = 0 := rfl
  rw [h0] at h2
  constructor
  · unfold sizeOf'
    omega
  · unfold emptyOf sizeOf'
    simp

/-- The size accounting on a concrete trace with an ineffective pop. -/
theorem size_pushes_minus_effective_pops_witness :
    opsOK intParams (emptyState Int) sizeOps = true ∧
    sizeOf' (runOps intParams (emptyState Int) sizeOps) =
      countPush sizeOps - countEffPop intParams (emptyState Int) sizeOps :=
  ⟨by decide, (size_pushes_minus_effective_pops intParams_lawful sizeOps
    (by decide) (by decide)).1⟩

end PairingHeap
